import Mathlib

/-!
# gordle: guess evaluation and board state

A shallow embedding of `src/state.go` (hint generation, the per-column letter
knowledge, the round update, the hint grid and the letter key of the
renderer, `display_builder`, `bitfield`), of the game loop and its dictionary
check in `src/game.go` and of the argument parser in `src/main.go`, together
with the properties of the written specification that concern them.

Modelling conventions.

* A Go `string` holding valid UTF-8 is the list of its code points
  (`GoString`).  `for i, c := range s` yields the *byte offset* `i` of each
  code point `c`; `range_string` reproduces these offsets from the UTF-8
  width of every code point.  `[]rune(s)` is the list itself.
* A Go `map[rune]T` is a function `Rune → Option T`; reading a missing key
  yields the zero value (`map_get`).
* A run-time panic (index out of range) is the result `none`.
* `int` counters never leave the range of a machine word here (they are
  bounded by the word length), so they are unbounded integers; `bitfield`
  is a 32 bit unsigned integer and its shifts are truncated explicitly.
-/

namespace Gordle

/-! ## Strings, maps and slices -/

/-- A code point. -/
abbrev Rune := Nat

/-- A Go string that holds valid UTF-8, as the list of its code points. -/
abbrev GoString := List Rune

/-- The number of bytes of the UTF-8 encoding of a code point. -/
def utf8_len (c : Rune) : Nat :=
  if c < 0x80 then 1 else if c < 0x800 then 2 else if c < 0x10000 then 3 else 4

/-- The pairs produced by `for i, c := range s` when the string `s` starts at
byte offset `off`: every code point with the byte offset of its encoding. -/
def range_string_from : Nat → GoString → List (Nat × Rune)
  | _, [] => []
  | off, c :: cs => (off, c) :: range_string_from (off + utf8_len c) cs

/-- The pairs produced by `for i, c := range s`. -/
def range_string (s : GoString) : List (Nat × Rune) := range_string_from 0 s

/-- Assignment `m[k] = v` on a map. -/
def map_set {α : Type} (m : Rune → Option α) (k : Rune) (v : α) : Rune → Option α :=
  fun x => if x = k then some v else m x

/-- The builtin `delete(m, k)`. -/
def map_delete {α : Type} (m : Rune → Option α) (k : Rune) : Rune → Option α :=
  fun x => if x = k then none else m x

/-- The read `m[k]` of an integer valued map: zero for a missing key. -/
def map_get (m : Rune → Option Int) (k : Rune) : Int := (m k).getD 0

/-- The map returned by `make(map[rune]T)`. -/
def map_empty {α : Type} : Rune → Option α := fun _ => none

/-- The function `times`: the string of `amount` copies of `char`. -/
def times (char : Rune) (amount : Nat) : GoString := List.replicate amount char

/-! ## Hint formats -/

/-- The constant `regular_format` applied to a letter. -/
def regular_format (c : Rune) : GoString := [c]

/-- The constant `wrong_format` applied to a letter (black on red). -/
def wrong_format (c : Rune) : GoString :=
  [27, 91, 52, 49, 109, 27, 91, 51, 48, 109, c, 27, 91, 48, 109]

/-- The constant `misplaced_format` applied to a letter (black on yellow). -/
def misplaced_format (c : Rune) : GoString :=
  [27, 91, 52, 51, 109, 27, 91, 51, 48, 109, c, 27, 91, 48, 109]

/-- The constant `perfect_format` applied to a letter (black on green). -/
def perfect_format (c : Rune) : GoString :=
  [27, 91, 52, 50, 109, 27, 91, 51, 48, 109, c, 27, 91, 48, 109]

/-! ## Options -/

/-- The type `options` of `main.go`; the three numbers are parsed with
`ParseUint` and are never negative. -/
structure options where
  force_ascii : Bool
  debug : Bool
  max_guesses : Nat
  words : Nat
  chars : Nat
  deriving DecidableEq, Repr

/-! ## generate_hint -/

/-- The loop "count secret characters" of `generate_hint`. -/
def count_chars : List Rune → (Rune → Option Int) → (Rune → Option Int)
  | [], char_counts => char_counts
  | char :: rest, char_counts =>
    match char_counts char with
    | some n => count_chars rest (map_set char_counts char (n + 1))
    | none => count_chars rest (map_set char_counts char 1)

/-- The loop "find perfect matches" of `generate_hint`, over the pairs of
`range guess`; the state is `char_counts`, `perfect_letters` and `solved`. -/
def find_perfect (runes_secret : List Rune) :
    List (Nat × Rune) → (Rune → Option Int) × List Bool × Bool →
      Option ((Rune → Option Int) × List Bool × Bool)
  | [], st => some st
  | (i, char) :: rest, (char_counts, perfect_letters, solved) =>
    match runes_secret[i]? with
    | none => none
    | some secret_char =>
      if char = secret_char then
        if i < perfect_letters.length then
          find_perfect runes_secret rest
            (map_set char_counts char (map_get char_counts char - 1),
              perfect_letters.set i true, solved)
        else none
      else find_perfect runes_secret rest (char_counts, perfect_letters, false)

/-- The loop "find misplaced matches" of `generate_hint`; the state is
`char_counts` and `misplaced_letters`. -/
def find_misplaced :
    List (Nat × Rune) → (Rune → Option Int) × List Bool →
      Option ((Rune → Option Int) × List Bool)
  | [], st => some st
  | (i, char) :: rest, (char_counts, misplaced_letters) =>
    match char_counts char with
    | some n =>
      if n > 0 then
        if i < misplaced_letters.length then
          find_misplaced rest (map_set char_counts char (n - 1), misplaced_letters.set i true)
        else none
      else find_misplaced rest (char_counts, misplaced_letters)
    | none => find_misplaced rest (char_counts, misplaced_letters)

/-- The loop "append formatted letters" of `generate_hint`. -/
def format_letters (perfect_letters misplaced_letters : List Bool) :
    List (Nat × Rune) → GoString → Option GoString
  | [], hint => some hint
  | (i, char) :: rest, hint =>
    match perfect_letters[i]? with
    | none => none
    | some true =>
      format_letters perfect_letters misplaced_letters rest (hint ++ perfect_format char)
    | some false =>
      match misplaced_letters[i]? with
      | none => none
      | some true =>
        format_letters perfect_letters misplaced_letters rest (hint ++ misplaced_format char)
      | some false =>
        format_letters perfect_letters misplaced_letters rest (hint ++ regular_format char)

/-- The four results of `generate_hint`. -/
structure hint_result where
  hint : GoString
  solved : Bool
  perfect_letters : List Bool
  misplaced_letters : List Bool
  deriving DecidableEq, Repr

/-- The function `generate_hint`. -/
def generate_hint (opts : options) (guess secret : GoString) : Option hint_result :=
  let runes_secret := secret
  let char_counts := count_chars runes_secret map_empty
  match find_perfect runes_secret (range_string guess)
      (char_counts, List.replicate opts.chars false, true) with
  | none => none
  | some (char_counts, perfect_letters, solved) =>
    match find_misplaced (range_string guess)
        (char_counts, List.replicate opts.chars false) with
    | none => none
    | some (_, misplaced_letters) =>
      match format_letters perfect_letters misplaced_letters (range_string guess) [] with
      | none => none
      | some hint => some ⟨hint, solved, perfect_letters, misplaced_letters⟩

/-- The three classifications of a guessed letter. -/
inductive classification where
  | Perfect
  | Misplaced
  | Absent
  deriving DecidableEq, Repr

/-- The classification of position `i` read off the two result slices, with the
priority used by `generate_hint` for the hint and by `state.update`:
`perfect_letters[i]` first, then `misplaced_letters[i]`. -/
def classify (perfect_letters misplaced_letters : List Bool) (i : Nat) : classification :=
  if perfect_letters.getD i false then classification.Perfect
  else if misplaced_letters.getD i false then classification.Misplaced
  else classification.Absent

/-- The classifications of all positions of a guess of `n` letters. -/
def classifications (r : hint_result) (n : Nat) : List classification :=
  (List.range n).map (classify r.perfect_letters r.misplaced_letters)

/-- Reference evaluation, pass 1, following the words of the specification:
"for each position i in order, if guess[i] == secret[i], mark Perfect,
decrement that letter's remaining count in the multiset; otherwise
provisionally mark Absent".  The multiset is a function from letters to
remaining counts. -/
def spec_pass1 : List Rune → List Rune → (Rune → Nat) → List classification × (Rune → Nat)
  | g :: gs, s :: ss, remaining =>
    if g = s then
      let r := spec_pass1 gs ss (fun x => if x = g then remaining x - 1 else remaining x)
      (classification.Perfect :: r.1, r.2)
    else
      let r := spec_pass1 gs ss remaining
      (classification.Absent :: r.1, r.2)
  | _, _, remaining => ([], remaining)

/-- Reference evaluation, pass 2, following the words of the specification:
"for each position not already Perfect, in left-to-right order, if the guess
letter still has remaining count > 0 in the multiset, mark Misplaced and
decrement the count; otherwise leave Absent". -/
def spec_pass2 : List Rune → List classification → (Rune → Nat) → List classification
  | g :: gs, c :: cs, remaining =>
    if c = classification.Perfect then c :: spec_pass2 gs cs remaining
    else if remaining g > 0 then
      classification.Misplaced ::
        spec_pass2 gs cs (fun x => if x = g then remaining x - 1 else remaining x)
    else classification.Absent :: spec_pass2 gs cs remaining
  | _, _, _ => []

/-- Reference evaluation of the specification (section 4.1): the multiset of
the secret, pass 1, pass 2, and "solved is true iff every position was
Perfect". -/
def spec_evaluate (guess secret : List Rune) : List classification × Bool :=
  let p1 := spec_pass1 guess secret (fun x => secret.count x)
  let cls := spec_pass2 guess p1.1 p1.2
  (cls, cls.all (fun c => decide (c = classification.Perfect)))

/-! ## bitfield -/

/-- The type `bitfield`, a `uint32`: a natural number below `2 ^ 32`. -/
abbrev bitfield := Nat

/-- The value of `1 << index` in the type `bitfield`: bits shifted past the
32nd are lost. -/
def bitfield.bit (index : Nat) : bitfield := if index < 32 then 2 ^ index else 0

/-- The method `bitfield.set`. -/
def bitfield.set (b : bitfield) (index : Nat) (bit : Bool) : bitfield :=
  if bit then b ||| bitfield.bit index
  else b &&& (4294967295 ^^^ bitfield.bit index)

/-- The method `bitfield.get`. -/
def bitfield.get (b : bitfield) (index : Nat) : Bool :=
  b &&& bitfield.bit index != 0

/-- The loop of `bitfield.ones`, run for at most `fuel` iterations; `b - 1`
is computed only for `b != 0`. -/
def bitfield.ones_loop : Nat → bitfield → Int → Option Int
  | 0, b, amount => if b != 0 then none else some amount
  | fuel + 1, b, amount =>
    if b != 0 then bitfield.ones_loop fuel (b &&& (b - 1)) (amount + 1) else some amount

/-- The method `bitfield.ones`; every iteration clears one of at most 32 set
bits, so 32 iterations are enough. -/
def bitfield.ones (b : bitfield) : Option Int := bitfield.ones_loop 32 b 0

/-! ## State -/

/-- The type `dict` of `dict.go`. -/
structure dict where
  words : List GoString
  letter_set : List Rune

/-- The type `column`. -/
structure column where
  hints : List GoString
  solved : Bool
  wrong_letters : Rune → Option Bool
  contained_letters : Rune → Option Int
  perfect_letters : Rune → Option bitfield

/-- The type `state`. -/
structure state where
  secrets : List GoString
  guesses : List GoString
  columns : List column
  round : Nat
  solved : Bool
  exit : Bool
  empty_word : GoString
  empty_letters : GoString
  horizontal_line : GoString
  padding : Nat
  separator_left : GoString
  separator_right : GoString
  separator_between : GoString
  space_left : GoString
  space_between : GoString

/-- The read `m[k]` of a bitfield valued map: zero for a missing key. -/
def map_get_bits (m : Rune → Option bitfield) (k : Rune) : bitfield := (m k).getD 0

/-- The function `change_count`. -/
def change_count (list : Rune → Option Int) (letter : Rune) (change init : Int) :
    Rune → Option Int :=
  match list letter with
  | some count =>
    if count + change > 0 then map_set list letter (count + change)
    else map_delete list letter
  | none => if init ≠ 0 then map_set list letter init else list

/-- The function `contains_bool`. -/
def contains_bool (list : Rune → Option Bool) (char : Rune) : Bool := (list char).isSome

/-- The function `contains_int`. -/
def contains_int (list : Rune → Option Int) (char : Rune) : Bool := (list char).isSome

/-- The function `contains_bitfield`. -/
def contains_bitfield (list : Rune → Option bitfield) (char : Rune) : Bool :=
  (list char).isSome

/-- The first loop of `state.init`: every secret is the dictionary word at
index `rand.Intn(len(dict.words))`, which fails for an empty dictionary.  The
random source is the sequence `rnd` of raw draws, one per column in `ws`. -/
def pick_secrets (d : dict) (rnd : Nat → Nat) : List Nat → Option (List GoString)
  | [] => some []
  | i :: rest =>
    if d.words.length = 0 then none
    else
      match d.words[rnd i % d.words.length]?, pick_secrets d rnd rest with
      | some word, some secrets => some (word :: secrets)
      | _, _ => none

/-- The column built by the second loop of `state.init`. -/
def init_column (opts : options) (empty_word : GoString) : column :=
  { hints := List.replicate opts.max_guesses empty_word
    solved := false
    wrong_letters := map_empty
    contained_letters := map_empty
    perfect_letters := map_empty }

/-- The method `state.init`, with the draws of the random source as `rnd`. -/
def state.init (opts : options) (d : dict) (rnd : Nat → Nat) : Option state :=
  let padding : Nat := if 6 - (opts.chars / 2 : Int) < 1 then 1 else 6 - opts.chars / 2
  let empty_word := times 46 opts.chars
  match pick_secrets d rnd (List.range opts.words) with
  | none => none
  | some secrets =>
    some
      { secrets := secrets
        guesses := List.replicate opts.max_guesses []
        columns := List.replicate opts.words (init_column opts empty_word)
        round := 0
        solved := false
        exit := false
        empty_word := empty_word
        empty_letters := times 32 (opts.chars + 2 * padding)
        horizontal_line := times 45 (opts.words * (opts.chars + 2 * padding) + opts.words + 1)
        padding := padding
        separator_left := [124] ++ times 32 padding
        separator_right := times 32 padding ++ [124]
        separator_between := times 32 padding ++ [124] ++ times 32 padding
        space_left := [32]
        space_between := [32] }

/-- The first loop of the "update letters" block of `state.update`, over the
pairs of `range guess`; the state is the column and `temp_contained`. -/
def update_letters (perfect misplaced : List Bool) :
    List (Nat × Rune) → column × (Rune → Option Int) → Option (column × (Rune → Option Int))
  | [], st => some st
  | (i, letter) :: rest, (col, temp_contained) =>
    match perfect[i]? with
    | none => none
    | some true =>
      update_letters perfect misplaced rest
        ({ col with
            perfect_letters := map_set col.perfect_letters letter
              (bitfield.set (map_get_bits col.perfect_letters letter) i true)
            wrong_letters := map_delete col.wrong_letters letter },
          change_count temp_contained letter 1 1)
    | some false =>
      match misplaced[i]? with
      | none => none
      | some true =>
        update_letters perfect misplaced rest
          ({ col with wrong_letters := map_delete col.wrong_letters letter },
            change_count temp_contained letter 1 1)
      | some false =>
        if map_get_bits col.perfect_letters letter = 0 ∧
            map_get col.contained_letters letter = 0 ∧
            map_get temp_contained letter = 0 then
          update_letters perfect misplaced rest
            ({ col with wrong_letters := map_set col.wrong_letters letter true },
              temp_contained)
        else update_letters perfect misplaced rest (col, temp_contained)

/-- The second loop of the "update letters" block of `state.update`: keep the
maximum of the previous count and the count of this round. -/
def merge_contained (temp_contained : Rune → Option Int) :
    List (Nat × Rune) → column → column
  | [], col => col
  | (_, letter) :: rest, col =>
    if map_get temp_contained letter > map_get col.contained_letters letter then
      merge_contained temp_contained rest
        { col with
          contained_letters :=
            map_set col.contained_letters letter (map_get temp_contained letter) }
    else merge_contained temp_contained rest col

/-- The body of the column loop of `state.update` for column `w`, which is
`col` on entry; of the state it reads `s.empty_word`, `s.secrets` and
`s.round`. -/
def update_column (opts : options) (empty_word : GoString) (secrets : List GoString)
    (round : Nat) (guess : GoString) (w : Nat) (col : column) : Option column :=
  let generated : Option (GoString × Bool × List Bool × List Bool) :=
    if col.solved then some (empty_word, col.solved, [], [])
    else
      match secrets[w]? with
      | none => none
      | some secret =>
        match generate_hint opts guess secret with
        | none => none
        | some r =>
          some (r.hint, col.solved || r.solved, r.perfect_letters, r.misplaced_letters)
  match generated with
  | none => none
  | some (hint, solved, perfect, misplaced) =>
    if round < col.hints.length then
      let col := { col with hints := col.hints.set round hint, solved := solved }
      if !col.solved then
        match update_letters perfect misplaced (range_string guess) (col, map_empty) with
        | none => none
        | some (col, temp_contained) =>
          some (merge_contained temp_contained (range_string guess) col)
      else some col
    else none

/-- The column loop of `state.update` over the column indices `ws`. -/
def update_words (opts : options) (guess : GoString) : List Nat → state → Option state
  | [], s => some s
  | w :: rest, s =>
    match s.columns[w]? with
    | none => none
    | some col =>
      match update_column opts s.empty_word s.secrets s.round guess w col with
      | none => none
      | some col =>
        update_words opts guess rest
          { s with columns := s.columns.set w col, solved := s.solved && col.solved }

/-- The method `state.update`. -/
def state.update (opts : options) (s : state) : Option state :=
  match s.guesses[s.round]? with
  | none => none
  | some guess => update_words opts guess (List.range opts.words) { s with solved := true }

/-- The game loop of `run` in `game.go` from the current round on, with the
validated guesses that the player enters as the list `inputs`; the end of the
list is the end of the input, which sets `exit` and leaves the loop.  Each
round stores the guess, calls `state.update`, and stops when the state is
solved.  The calls of `state.render` are left out here: they do not change
the state, and the loop that makes them and fails where they fail is
`run_loop`. -/
def run_rounds (opts : options) : List GoString → state → Option state
  | [], s => if s.round < opts.max_guesses then some { s with exit := true } else some s
  | this_guess :: inputs, s =>
    if s.round < opts.max_guesses then
      if s.round < s.guesses.length then
        match state.update opts { s with guesses := s.guesses.set s.round this_guess } with
        | none => none
        | some s =>
          if s.solved then some s
          else run_rounds opts inputs { s with round := s.round + 1 }
      else none
    else some s

/-- The number of positions `i` of the guess that hold the letter `L` and are
classified Perfect or Misplaced (`perfect[i]` or `misplaced[i]`). -/
def classified_count (guess : GoString) (perfect misplaced : List Bool) (L : Rune) : Nat :=
  guess.enum.countP
    (fun p => p.2 = L ∧ (perfect.getD p.1 false || misplaced.getD p.1 false) = true)

/-- The letter `L` is known in the column: it has a non-empty position set in
`perfect_letters` or a positive count in `contained_letters`. -/
def known_letter (col : column) (L : Rune) : Prop :=
  map_get_bits col.perfect_letters L ≠ 0 ∨ 0 < map_get col.contained_letters L

/-- No known letter of the column is among its wrong letters. -/
def known_not_wrong (col : column) : Prop :=
  ∀ L, known_letter col L → col.wrong_letters L = none

/-- Every wrong letter of the column has no occurrence in `secret`. -/
def wrong_absent (secret : GoString) (col : column) : Prop :=
  ∀ L, col.wrong_letters L ≠ none → secret.count L = 0

/-! ## The hint grid of state.render -/

/-- The inner loop of the hint rows of `state.render` for the round `r`, over
the column indices `cs`: every cell is the hint of the column followed by
`separator_between`. -/
def render_row_cells (s : state) (r : Nat) : List Nat → GoString → Option GoString
  | [], output => some output
  | c :: rest, output =>
    match s.columns[c]? with
    | none => none
    | some col =>
      match col.hints[r]? with
      | none => none
      | some hint => render_row_cells s r rest (output ++ hint ++ s.separator_between)

/-- The text that `state.render` writes for the hint row of round `r`: the left
separator, the cells of all columns but the last, the hint of the last column
(index `cols - 1`, out of range without columns), the right separator and a
newline. -/
def render_row (s : state) (r : Nat) : Option GoString :=
  let cols := s.columns.length
  match render_row_cells s r (List.range (cols - 1)) s.separator_left with
  | none => none
  | some output =>
    if cols = 0 then none
    else
      match s.columns[cols - 1]? with
      | none => none
      | some col =>
        match col.hints[r]? with
        | none => none
        | some hint => some (output ++ hint ++ s.separator_right ++ [10])

/-- The hint rows that `state.render` writes, one per round below
`max_guesses`. -/
def render_rows (opts : options) (s : state) : List (Option GoString) :=
  (List.range opts.max_guesses).map (render_row s)

/-! ## display_builder and the letter key of state.render -/

/-- The type `display_builder`; `active_line` is the content of the string
builder. -/
structure display_builder where
  count : Int
  wrap : Int
  lines : List GoString
  active_line : GoString
  deriving DecidableEq, Repr

/-- The value of `new(display_builder)`. -/
def display_builder.new : display_builder :=
  { count := 0, wrap := 0, lines := [], active_line := [] }

/-- The method `display_builder.init`. -/
def display_builder.init (db : display_builder) (wrap : Int) : display_builder :=
  { db with active_line := [], wrap := wrap }

/-- The method `display_builder.append`. -/
def display_builder.append (db : display_builder) (str : GoString) : display_builder :=
  let db := { db with active_line := db.active_line ++ str, count := db.count + 1 }
  if db.count ≥ db.wrap then
    { db with lines := db.lines ++ [db.active_line], active_line := [], count := 0 }
  else db

/-- The loop of `display_builder.append_times` with `n` iterations left. -/
def display_builder.append_loop : Nat → display_builder → GoString → display_builder
  | 0, db, _ => db
  | n + 1, db, str => display_builder.append_loop n (db.append str) str

/-- The method `display_builder.append_times`: the loop `for i := 0; i <
amount; i++` runs `amount` times, not at all for a negative amount. -/
def display_builder.append_times (db : display_builder) (str : GoString) (amount : Int) :
    display_builder :=
  display_builder.append_loop amount.toNat db str

/-- The method `display_builder.finish`: the builder afterwards and the lines
returned. -/
def display_builder.finish (db : display_builder) : display_builder × List GoString :=
  if db.count ≠ 0 then
    let db := { db with active_line := db.active_line ++ times 32 (db.wrap - db.count).toNat }
    let db := { db with lines := db.lines ++ [db.active_line], count := 0 }
    (db, db.lines)
  else (db, db.lines)

/-- The body of the letter loop of `state.render` for the letter `char` of
`dict.letter_set`. -/
def render_letter (db : display_builder) (col : column) (char : Rune) :
    Option display_builder :=
  let perfect : Option (display_builder × Bool × Int) :=
    if contains_bitfield col.perfect_letters char then
      match bitfield.ones (map_get_bits col.perfect_letters char) with
      | none => none
      | some amount_perfect =>
        some (db.append_times (perfect_format char) amount_perfect, true, amount_perfect)
    else some (db, false, 0)
  match perfect with
  | none => none
  | some (db, printed, amount_perfect) =>
    let contained : display_builder × Bool :=
      if contains_int col.contained_letters char then
        (db.append_times (misplaced_format char)
          (map_get col.contained_letters char - amount_perfect), true)
      else (db, printed)
    let wrong : display_builder × Bool :=
      if contains_bool col.wrong_letters char then
        (contained.1.append (wrong_format char), true)
      else contained
    if !wrong.2 then some (wrong.1.append (regular_format char)) else some wrong.1

/-- The letter loop of `state.render` for one column. -/
def render_letters (col : column) : List Rune → display_builder → Option display_builder
  | [], db => some db
  | char :: rest, db =>
    match render_letter db col char with
    | none => none
    | some db => render_letters col rest db

/-- The letter display of one column in `state.render`: a builder of width
`chars + 2 * padding`, the letter loop over `dict.letter_set`, `finish`. -/
def render_display (opts : options) (s : state) (d : dict) (col : column) :
    Option (List GoString) :=
  match render_letters col d.letter_set
      (display_builder.new.init ((opts.chars : Int) + 2 * (s.padding : Int))) with
  | none => none
  | some db => some db.finish.2

/-! ## Command line arguments (main.go) -/

/-- A command line argument as the list of its bytes; `parse_flags` and
`parse_options` index and slice arguments by byte. -/
abbrev Arg := List Nat

/-- The outcome of `parse_args`: the options with a nil error, a non-nil
error, or the end of the process by `os.Exit(0)` after the help or version
text. -/
inductive parse_result where
  | accepted (o : options)
  | rejected
  | exited
  deriving DecidableEq, Repr

/-- The library function `strconv.ParseUint(value, 10, 32)`: the value of a
non-empty string of decimal digits that is below `2 ^ 32`, an error
otherwise. -/
def parse_uint32 (value : Arg) : Option Nat :=
  if value = [] then none
  else if value.all (fun b => decide (48 ≤ b ∧ b ≤ 57)) then
    let n := value.foldl (fun acc b => 10 * acc + (b - 48)) 0
    if n < 4294967296 then some n else none
  else none

/-- The loop of `parse_flags`: the outcome is the number of arguments consumed
and the options, an error, or the exit after `-h` or `-v`. -/
def parse_flags : List Arg → Nat → options → Option (Option (Nat × options))
  | [], i, o => some (some (i, o))
  | arg :: rest, i, o =>
    if arg.length < 2 ∨ arg[0]? ≠ some 45 then some none
    else
      let flag := if arg[1]? = some 45 then arg.drop 2 else arg.drop 1
      if flag = [104] ∨ flag = [104, 101, 108, 112] then none
      else if flag = [118] ∨ flag = [118, 101, 114, 115, 105, 111, 110] then none
      else if flag = [100, 101, 98, 117, 103] then parse_flags rest (i + 1) { o with debug := true }
      else some (some (i, o))

/-- The `switch opt` of `parse_options` with the error check after it: the
options and `set_guesses` afterwards, or an error.  The string options
`language` and `dict_path` are not part of the model. -/
def apply_option (opt value : Arg) (o : options) (set_guesses : Bool) :
    Option (options × Bool) :=
  if opt = [108] ∨ opt = [108, 105, 115, 116] then some (o, set_guesses)
  else if opt = [100] ∨ opt = [100, 105, 99, 116, 115] then some (o, set_guesses)
  else if opt = [119] ∨ opt = [119, 111, 114, 100, 115] then
    match parse_uint32 value with
    | some n => some ({ o with words := n }, set_guesses)
    | none => none
  else if opt = [103] ∨ opt = [103, 117, 101, 115, 115, 101, 115] then
    match parse_uint32 value with
    | some n => some ({ o with max_guesses := n }, true)
    | none => none
  else if opt = [99] ∨ opt = [99, 104, 97, 114, 115] then
    match parse_uint32 value with
    | some n => some ({ o with chars := n }, set_guesses)
    | none => none
  else if opt = [97] ∨ opt = [102, 111, 114, 99, 101, 45, 97, 115, 99, 105, 105] then
    if value = [121] ∨ value = [121, 101, 115] ∨ value = [116, 114, 117, 101] then
      some ({ o with force_ascii := true }, set_guesses)
    else if value = [110] ∨ value = [110, 111] ∨ value = [102, 97, 108, 115, 101] then
      some ({ o with force_ascii := false }, set_guesses)
    else none
  else none

/-- The loop of `parse_options`: an option with its value in the same token
(`-c7`) or in the next one (`-c 7`, `--chars 7`). -/
def parse_options_loop : List Arg → options → Bool → Option (options × Bool)
  | [], o, set_guesses => some (o, set_guesses)
  | arg :: rest, o, set_guesses =>
    if arg.length < 2 ∨ arg[0]? ≠ some 45 then none
    else if arg[1]? ≠ some 45 ∧ arg.length > 2 then
      match apply_option ((arg.drop 1).take 1) (arg.drop 2) o set_guesses with
      | none => none
      | some (o, set_guesses) => parse_options_loop rest o set_guesses
    else
      match rest with
      | [] => none
      | value :: rest =>
        let opt := if arg[1]? = some 45 then arg.drop 2 else arg.drop 1
        match apply_option opt value o set_guesses with
        | none => none
        | some (o, set_guesses) => parse_options_loop rest o set_guesses

/-- The function `parse_options`: the loop, then the default of
`max_guesses` when no `-g` option set it; the second component tells whether
a `-g` option was given. -/
def parse_options (args : List Arg) (o : options) : Option (options × Bool) :=
  match parse_options_loop args o false with
  | none => none
  | some (o, set_guesses) =>
    if !set_guesses then some ({ o with max_guesses := 3 + o.words + o.chars / 2 }, false)
    else some (o, true)

/-- The function `parse_args`, with the flag `set_guesses` of
`parse_options` next to the outcome. -/
def parse_args (args : List Arg) : parse_result × Bool :=
  let o : options :=
    { force_ascii := true, debug := false, max_guesses := 0, words := 1, chars := 5 }
  match parse_flags args 0 o with
  | none => (parse_result.exited, false)
  | some none => (parse_result.rejected, false)
  | some (some (n, o)) =>
    match parse_options (args.drop n) o with
    | none => (parse_result.rejected, false)
    | some (o, set_guesses) => (parse_result.accepted o, set_guesses)

/-! ## The dictionary check of the game loop (game.go) -/

/-- The comparison `a < b` of two strings: lexicographic on the bytes, which
on valid UTF-8 is lexicographic on the code points. -/
def string_lt : GoString → GoString → Bool
  | _, [] => false
  | [], _ :: _ => true
  | a :: as, b :: bs => if a < b then true else if b < a then false else string_lt as bs

/-- The loop of the library function `sort.Search(n, f)` on the interval from
`i` to `j`, run for at most `fuel` iterations; every iteration shrinks the
interval, so `j - i` iterations are enough. -/
def search_loop (f : Nat → Bool) : Nat → Nat → Nat → Option Nat
  | 0, i, j => if i < j then none else some i
  | fuel + 1, i, j =>
    if i < j then
      let h := (i + j) / 2
      if !f h then search_loop f fuel (h + 1) j else search_loop f fuel i h
    else some i

/-- The library function `sort.SearchStrings(a, x)`: `sort.Search` with the
test `a[i] >= x`. -/
def search_strings (a : List GoString) (x : GoString) : Option Nat :=
  search_loop (fun i => !string_lt (a.getD i []) x) a.length 0 a.length

/-- The outcome of the dictionary check of a guess in `run`. -/
inductive check_result where
  | in_dictionary
  | not_in_dictionary
  | index_out_of_range
  | search_unfinished
  deriving DecidableEq, Repr

/-- The dictionary check of `run`: `i := sort.SearchStrings(dict.words,
this_guess)` and the test `dict.words[i] == this_guess`. -/
def dictionary_check (words : List GoString) (this_guess : GoString) : check_result :=
  match search_strings words this_guess with
  | none => check_result.search_unfinished
  | some i =>
    match words[i]? with
    | none => check_result.index_out_of_range
    | some word =>
      if word = this_guess then check_result.in_dictionary
      else check_result.not_in_dictionary

/-! ## state.render and the function run -/

/-- The concatenation of the pieces of output written one after the other,
each of which may fail. -/
def write_all : List (Option GoString) → Option GoString
  | [] => some []
  | none :: _ => none
  | some piece :: rest =>
    match write_all rest with
    | none => none
    | some output => some (piece ++ output)

/-- The loop "build letter display of each column" of `state.render` from
column index `c` on: `builders` and `displays` have `options.words`
entries, so a column index from `options.words` on is out of range. -/
def render_displays (opts : options) (s : state) (d : dict) :
    List column → Nat → Option (List (List GoString))
  | [], _ => some []
  | col :: rest, c =>
    if c < opts.words then
      match render_display opts s d col with
      | none => none
      | some display =>
        match render_displays opts s d rest (c + 1) with
        | none => none
        | some displays => some (display :: displays)
    else none

/-- The value of `max_rows` after the display loop of `state.render`: the
largest number of lines among the displays of the unsolved columns. -/
def max_rows : List column → List (List GoString) → Nat → Nat
  | col :: cols, display :: displays, m =>
    if !col.solved ∧ display.length > m then max_rows cols displays display.length
    else max_rows cols displays m
  | _, _, m => m

/-- The inner loop of "print the letter displays" of `state.render` for the
row `r`, from the entry `c` of `displays` on. -/
def render_key_cells (s : state) (r : Nat) : List (List GoString) → Nat → GoString →
    Option GoString
  | [], _, output => some output
  | display :: rest, c, output =>
    match s.columns[c]? with
    | none => none
    | some col =>
      let cell := if !col.solved ∧ r < display.length then display.getD r [] else s.empty_letters
      render_key_cells s r rest (c + 1) (output ++ cell ++ s.space_between)

/-- The method `state.render`: the text it prints, or a failure.  It writes
the top line, the hint rows of all rounds, the bottom line and the rows of
the letter displays; `displays` has `options.words` entries, those without
a column empty. -/
def state.render (opts : options) (d : dict) (s : state) : Option GoString :=
  match write_all (render_rows opts s) with
  | none => none
  | some rows =>
    match render_displays opts s d s.columns 0 with
    | none => none
    | some built =>
      let displays := built ++ List.replicate (opts.words - built.length) []
      let key := (List.range (max_rows s.columns built 0)).map
        (fun r => (render_key_cells s r displays 0 s.space_left).map (fun row => row ++ [10]))
      match write_all key with
      | none => none
      | some key_rows =>
        some (s.horizontal_line ++ [10] ++ rows ++ s.horizontal_line ++ [10, 10] ++ key_rows)

/-- The game loop of `run` with its call of `state.render` at the start of
every round; otherwise as `run_rounds`. -/
def run_loop (opts : options) (d : dict) : List GoString → state → Option state
  | [], s =>
    if s.round < opts.max_guesses then
      match state.render opts d s with
      | none => none
      | some _ => some { s with exit := true }
    else some s
  | this_guess :: inputs, s =>
    if s.round < opts.max_guesses then
      match state.render opts d s with
      | none => none
      | some _ =>
        if s.round < s.guesses.length then
          match state.update opts { s with guesses := s.guesses.set s.round this_guess } with
          | none => none
          | some s =>
            if s.solved then some s
            else run_loop opts d inputs { s with round := s.round + 1 }
        else none
    else some s

/-- The function `run` of `game.go` on the validated guesses `inputs`, with
the draws `rnd` of the random source: `init`, the game loop, the last
`render`; the result is the last state and the last board printed. -/
def run (opts : options) (d : dict) (rnd : Nat → Nat) (inputs : List GoString) :
    Option (state × GoString) :=
  match state.init opts d rnd with
  | none => none
  | some game =>
    match run_loop opts d inputs { game with round := 0 } with
    | none => none
    | some game =>
      match state.render opts d game with
      | none => none
      | some board => some (game, board)

/-! ## Byte offsets and code point positions -/

theorem utf8_len_pos (c : Rune) : 1 ≤ utf8_len c := by
  unfold utf8_len
  split_ifs <;> omega

theorem utf8_len_ascii {c : Rune} (h : c < 128) : utf8_len c = 1 := by
  unfold utf8_len
  simp [h]

/-- On single-byte letters the byte offsets are the positions. -/
theorem range_string_from_ascii (s : GoString) (off : Nat) (h : ∀ c ∈ s, c < 128) :
    range_string_from off s = s.enumFrom off := by
  induction s generalizing off with
  | nil => rfl
  | cons c cs ih =>
    have hc : utf8_len c = 1 := utf8_len_ascii (h c (List.mem_cons_self _ _))
    simp only [range_string_from, List.enumFrom_cons, hc]
    rw [ih (off + 1) (fun x hx => h x (List.mem_cons_of_mem _ hx))]

/-- The last offset of a non-empty string is at least the number of code
points before it. -/
theorem range_string_from_exists_ge (s : GoString) (off : Nat) (hs : s ≠ []) :
    ∃ p ∈ range_string_from off s, off + s.length ≤ p.1 + 1 := by
  induction s generalizing off with
  | nil => exact absurd rfl hs
  | cons c cs ih =>
    cases cs with
    | nil => exact ⟨(off, c), by simp [range_string_from], by simp⟩
    | cons d ds =>
      obtain ⟨p, hp, hle⟩ := ih (off + utf8_len c) (by simp)
      refine ⟨p, ?_, ?_⟩
      · rw [range_string_from]
        exact List.mem_cons_of_mem _ hp
      · have := utf8_len_pos c
        simp only [List.length_cons] at hle ⊢
        omega

/-- When every offset stays below the number of code points, the byte offsets
are the positions. -/
theorem range_string_from_bounded (s : GoString) (off : Nat)
    (h : ∀ p ∈ range_string_from off s, p.1 < off + s.length) :
    range_string_from off s = s.enumFrom off := by
  induction s generalizing off with
  | nil => rfl
  | cons c cs ih =>
    have hc : utf8_len c = 1 ∨ cs = [] := by
      by_cases hcs : cs = []
      · exact Or.inr hcs
      · left
        obtain ⟨p, hp, hle⟩ := range_string_from_exists_ge cs (off + utf8_len c) hcs
        have hlt := h p (by rw [range_string_from]; exact List.mem_cons_of_mem _ hp)
        have := utf8_len_pos c
        simp only [List.length_cons] at hlt
        omega
    rcases hc with hc | hc
    · simp only [range_string_from, List.enumFrom_cons, hc]
      rw [ih (off + 1)]
      intro p hp
      have hlt := h p (by rw [range_string_from, hc]; exact List.mem_cons_of_mem _ hp)
      simp only [List.length_cons] at hlt
      omega
    · subst hc
      simp [range_string_from]

theorem mem_enumFrom_lt {α : Type} (l : List α) (k : Nat) :
    ∀ p ∈ l.enumFrom k, p.1 < k + l.length := by
  induction l generalizing k with
  | nil => simp
  | cons a as ih =>
    intro p hp
    simp only [List.enumFrom_cons, List.mem_cons] at hp
    rcases hp with rfl | hp
    · simp
    · have := ih (k + 1) p hp
      simp only [List.length_cons]
      omega

/-! ## Pass 1 of generate_hint -/

theorem getD_set_bool (l : List Bool) (i j : Nat) (hi : i < l.length) :
    (l.set i true).getD j false = (if j = i then true else l.getD j false) := by
  simp only [List.getD_eq_getElem?_getD, List.getElem?_set]
  by_cases hij : i = j
  · subst hij
    simp [hi]
  · have : ¬ j = i := fun h => hij h.symm
    simp [hij, this]

theorem find_perfect_facts (rs : List Rune) (ps : List (Nat × Rune))
    (st res : (Rune → Option Int) × List Bool × Bool)
    (h : find_perfect rs ps st = some res) :
    (∀ p ∈ ps, p.1 < rs.length) ∧ res.2.1.length = st.2.1.length ∧
    (∀ j, res.2.1.getD j false = true ↔
      st.2.1.getD j false = true ∨ ∃ c, (j, c) ∈ ps ∧ rs[j]? = some c) ∧
    (res.2.2 = true ↔ st.2.2 = true ∧ ∀ p ∈ ps, rs[p.1]? = some p.2) ∧
    (∀ L, map_get res.1 L =
      map_get st.1 L - (ps.filter (fun p => p.2 = L ∧ rs[p.1]? = some L)).length) := by
  induction ps generalizing st with
  | nil =>
    simp only [find_perfect, Option.some.injEq] at h
    subst h
    simp
  | cons p ps ih =>
    obtain ⟨i, char⟩ := p
    obtain ⟨cc, pl, sv⟩ := st
    simp only [find_perfect] at h
    split at h
    · exact absurd h (by simp)
    · rename_i secret_char hsc
      have hi : i < rs.length := by
        by_contra hn
        rw [List.getElem?_eq_none (by omega)] at hsc
        exact absurd hsc (by simp)
      split at h
      · rename_i heq
        subst heq
        split at h
        · rename_i hlen
          obtain ⟨h1, h2, h3, h4, h5⟩ := ih _ h
          refine ⟨?_, ?_, ?_, ?_, ?_⟩
          · intro p hp
            rcases List.mem_cons.1 hp with rfl | hp
            · exact hi
            · exact h1 p hp
          · simpa using h2
          · intro j
            rw [h3 j]
            simp only [getD_set_bool pl i j hlen, List.mem_cons, Prod.mk.injEq]
            constructor
            · rintro (hj | ⟨c, hc, hr⟩)
              · by_cases hji : j = i
                · subst hji
                  exact Or.inr ⟨char, Or.inl ⟨rfl, rfl⟩, hsc⟩
                · simp only [hji, if_false] at hj
                  exact Or.inl hj
              · exact Or.inr ⟨c, Or.inr hc, hr⟩
            · rintro (hj | ⟨c, (⟨hji, _⟩ | hc), hr⟩)
              · left
                by_cases hji : j = i
                · simp [hji]
                · simpa [hji] using hj
              · left
                simp [hji]
              · exact Or.inr ⟨c, hc, hr⟩
          · rw [h4]
            simp only [List.mem_cons, forall_eq_or_imp, hsc, true_and]
          · intro L
            rw [h5 L]
            simp only [map_get, map_set, List.filter_cons]
            by_cases hL : L = char
            · subst hL
              simp [hsc]
              omega
            · have hL2 : ¬ char = L := fun h => hL h.symm
              simp [hL, hL2]
        · exact absurd h (by simp)
      · rename_i hne
        obtain ⟨h1, h2, h3, h4, h5⟩ := ih _ h
        refine ⟨?_, ?_, ?_, ?_, ?_⟩
        · intro p hp
          rcases List.mem_cons.1 hp with rfl | hp
          · exact hi
          · exact h1 p hp
        · simpa using h2
        · intro j
          rw [h3 j]
          simp only [List.mem_cons, Prod.mk.injEq]
          constructor
          · rintro (hj | ⟨c, hc, hr⟩)
            · exact Or.inl hj
            · exact Or.inr ⟨c, Or.inr hc, hr⟩
          · rintro (hj | ⟨c, (⟨hji, hcc⟩ | hc), hr⟩)
            · exact Or.inl hj
            · subst hji hcc
              rw [hsc] at hr
              exact absurd (Option.some.inj hr).symm hne
            · exact Or.inr ⟨c, hc, hr⟩
        · rw [h4]
          simp only [List.mem_cons, forall_eq_or_imp, hsc]
          constructor
          · intro hh
            exact absurd hh.1 (by simp)
          · intro hh
            exact absurd (Option.some.inj hh.2.1).symm hne
        · intro L
          rw [h5 L]
          simp only [List.filter_cons]
          by_cases hL : char = L
          · subst hL
            have : ¬ (rs[i]? = some char) := by
              rw [hsc]
              intro hh
              exact hne (Option.some.inj hh).symm
            simp [this]
          · simp [hL]

theorem count_chars_get (rs : List Rune) (cc : Rune → Option Int) (L : Rune) :
    map_get (count_chars rs cc) L = map_get cc L + rs.count L := by
  induction rs generalizing cc with
  | nil => simp [count_chars]
  | cons c rs ih =>
    simp only [count_chars]
    split
    · rename_i n hn
      rw [ih]
      simp only [map_get, map_set, List.count_cons]
      by_cases hL : L = c
      · subst hL
        simp [hn]
        omega
      · have : ¬ c = L := fun h => hL h.symm
        simp [hL, this]
    · rename_i hn
      rw [ih]
      simp only [map_get, map_set, List.count_cons]
      by_cases hL : L = c
      · subst hL
        simp [hn]
        omega
      · have : ¬ c = L := fun h => hL h.symm
        simp [hL, this]

/-- Exact matches of a letter are no more than its occurrences in the secret. -/
theorem perfect_hits_le (rs gs : List Rune) (k : Nat) (L : Rune) :
    (gs.enumFrom k).countP (fun p => p.2 = L ∧ rs[p.1]? = some L) ≤ (rs.drop k).count L := by
  induction gs generalizing k with
  | nil => simp
  | cons g gs ih =>
    simp only [List.enumFrom_cons, List.countP_cons]
    have h1 := ih (k + 1)
    by_cases hc : g = L ∧ rs[k]? = some L
    · have hk : k < rs.length := by
        by_contra hn
        rw [List.getElem?_eq_none (by omega)] at hc
        exact absurd hc.2 (by simp)
      have hrk : rs[k] = L := by
        have := hc.2
        rw [List.getElem?_eq_getElem hk] at this
        exact Option.some.inj this
      rw [List.drop_eq_getElem_cons hk, hrk, List.count_cons_self]
      simp only [hc, and_self, decide_True, if_true]
      omega
    · have hsub : (rs.drop (k + 1)).count L ≤ (rs.drop k).count L := by
        apply List.Sublist.count_le
        have hdd : rs.drop (k + 1) = (rs.drop k).drop 1 := by
          simp [List.drop_drop, Nat.add_comm]
        rw [hdd]
        exact List.drop_sublist _ _
      simp only [hc, decide_False]
      simp only [Bool.false_eq_true, if_false]
      omega

/-! ## Pass 2 of generate_hint -/

theorem find_misplaced_length (ps : List (Nat × Rune)) (st res : (Rune → Option Int) × List Bool)
    (h : find_misplaced ps st = some res) : res.2.length = st.2.length := by
  induction ps generalizing st with
  | nil =>
    simp only [find_misplaced, Option.some.injEq] at h
    subst h
    rfl
  | cons p ps ih =>
    obtain ⟨i, char⟩ := p
    obtain ⟨cc, ml⟩ := st
    simp only [find_misplaced] at h
    split at h
    · split at h
      · split at h
        · simpa using ih _ h
        · exact absurd h (by simp)
      · exact ih _ h
    · exact ih _ h

theorem find_misplaced_facts (gs : List Rune) (k : Nat) (st res : (Rune → Option Int) × List Bool)
    (h : find_misplaced (gs.enumFrom k) st = some res)
    (hfalse : ∀ j, k ≤ j → st.2.getD j false = false) :
    (∀ j, j < k → res.2.getD j false = st.2.getD j false) ∧
    (∀ L, map_get res.1 L = map_get st.1 L -
      (gs.enumFrom k).countP (fun p => p.2 = L ∧ res.2.getD p.1 false = true)) ∧
    (∀ L, 0 ≤ map_get st.1 L → 0 ≤ map_get res.1 L) ∧
    (∀ L, L ∈ gs → 0 < map_get st.1 L → map_get res.1 L < map_get st.1 L) := by
  induction gs generalizing k st with
  | nil =>
    simp only [List.enumFrom_nil, find_misplaced, Option.some.injEq] at h
    subst h
    simp
  | cons g gs ih =>
    obtain ⟨cc, ml⟩ := st
    simp only [List.enumFrom_cons, find_misplaced] at h
    have hmiss :
        find_misplaced (gs.enumFrom (k + 1)) (cc, ml) = some res → map_get cc g ≤ 0 →
        (∀ j, j < k → res.2.getD j false = ml.getD j false) ∧
        (∀ L, map_get res.1 L = map_get cc L -
          ((k, g) :: gs.enumFrom (k + 1)).countP
            (fun p => p.2 = L ∧ res.2.getD p.1 false = true)) ∧
        (∀ L, 0 ≤ map_get cc L → 0 ≤ map_get res.1 L) ∧
        (∀ L, L ∈ g :: gs → 0 < map_get cc L → map_get res.1 L < map_get cc L) := by
      intro h1 hle
      obtain ⟨h2, h3, h4, h5⟩ := ih (k + 1) (cc, ml) h1 (fun j hj => hfalse j (by omega))
      have hk : res.2.getD k false = false := by
        rw [h2 k (by omega)]
        exact hfalse k (le_refl _)
      refine ⟨fun j hj => h2 j (by omega), ?_, h4, ?_⟩
      · intro L
        have hd : decide (g = L ∧ res.2.getD k false = true) = false := by
          rw [hk]
          simp
        rw [h3 L, List.countP_cons]
        simp only [hd]
        simp
      · intro L hL hpos
        rcases List.mem_cons.1 hL with rfl | hL
        · omega
        · exact h5 L hL hpos
    split at h
    · rename_i n hn
      split at h
      · rename_i hpos
        split at h
        · rename_i hlen
          have hfalse1 : ∀ j, k + 1 ≤ j → (ml.set k true).getD j false = false := by
            intro j hj
            rw [getD_set_bool ml k j hlen]
            have : ¬ j = k := by omega
            simp only [this, if_false]
            exact hfalse j (by omega)
          obtain ⟨h2, h3, h4, h5⟩ := ih (k + 1) _ h hfalse1
          have hk : res.2.getD k false = true := by
            rw [h2 k (by omega), getD_set_bool ml k k hlen]
            simp
          have hget : ∀ L, map_get (map_set cc g (n - 1)) L =
              if L = g then map_get cc L - 1 else map_get cc L := by
            intro L
            simp only [map_get, map_set]
            by_cases hL : L = g
            · subst hL
              simp [hn]
            · simp [hL]
          dsimp only at h2 h3 h4 h5 ⊢
          refine ⟨?_, ?_, ?_, ?_⟩
          · intro j hj
            rw [h2 j (by omega), getD_set_bool ml k j hlen]
            have : ¬ j = k := by omega
            simp [this]
          · intro L
            have h3L := h3 L
            simp only [hget] at h3L
            rw [h3L, List.enumFrom_cons, List.countP_cons]
            by_cases hL : L = g
            · subst hL
              rw [hk, if_pos rfl]
              have hone : (if decide (L = L ∧ true = true) = true then 1 else 0) = 1 := by simp
              rw [hone]
              push_cast
              omega
            · have hd : decide (g = L ∧ res.2.getD k false = true) = false := by
                have : ¬ g = L := fun h => hL h.symm
                simp [this]
              simp only [hd, hL, if_false]
              simp
          · intro L hL
            apply h4
            simp only [hget]
            have hg : map_get cc g = n := by simp [map_get, hn]
            by_cases hLg : L = g
            · subst hLg
              simp
              omega
            · simp [hLg, hL]
          · intro L hL hposL
            have h3L := h3 L
            simp only [hget] at h3L
            by_cases hLg : L = g
            · subst hLg
              simp only [if_true] at h3L
              omega
            · simp only [hLg, if_false] at h3L
              rcases List.mem_cons.1 hL with rfl | hL
              · exact absurd rfl hLg
              · have := h5 L hL (by simp only [hget, hLg, if_false]; exact hposL)
                simp only [hget, hLg, if_false] at this
                exact this
        · exact absurd h (by simp)
      · rename_i hnpos
        exact hmiss h (by simp only [map_get, hn, Option.getD_some]; omega)
    · rename_i hn
      exact hmiss h (by simp [map_get, hn])

/-! ## Totality of the three loops -/

theorem find_perfect_total (rs : List Rune) (ps : List (Nat × Rune))
    (st : (Rune → Option Int) × List Bool × Bool)
    (hidx : ∀ p ∈ ps, p.1 < rs.length ∧ p.1 < st.2.1.length) :
    ∃ res, find_perfect rs ps st = some res := by
  induction ps generalizing st with
  | nil => exact ⟨st, rfl⟩
  | cons p ps ih =>
    obtain ⟨i, char⟩ := p
    obtain ⟨cc, pl, sv⟩ := st
    have hi := hidx (i, char) (List.mem_cons_self _ _)
    have hrest : ∀ q ∈ ps, q.1 < rs.length ∧ q.1 < pl.length :=
      fun q hq => hidx q (List.mem_cons_of_mem _ hq)
    simp only [find_perfect, List.getElem?_eq_getElem hi.1]
    split
    · rw [if_pos hi.2]
      exact ih _ (by simpa using hrest)
    · exact ih _ (by simpa using hrest)

theorem find_misplaced_total (ps : List (Nat × Rune)) (st : (Rune → Option Int) × List Bool)
    (hidx : ∀ p ∈ ps, p.1 < st.2.length) :
    ∃ res, find_misplaced ps st = some res := by
  induction ps generalizing st with
  | nil => exact ⟨st, rfl⟩
  | cons p ps ih =>
    obtain ⟨i, char⟩ := p
    obtain ⟨cc, ml⟩ := st
    have hi : i < ml.length := hidx (i, char) (List.mem_cons_self _ _)
    have hrest : ∀ q ∈ ps, q.1 < ml.length :=
      fun q hq => hidx q (List.mem_cons_of_mem _ hq)
    simp only [find_misplaced, hi, if_true]
    split
    · split
      · exact ih _ (by simpa using hrest)
      · exact ih _ hrest
    · exact ih _ hrest

theorem format_letters_total (pl ml : List Bool) (ps : List (Nat × Rune)) (hint : GoString)
    (hidx : ∀ p ∈ ps, p.1 < pl.length ∧ p.1 < ml.length) :
    ∃ res, format_letters pl ml ps hint = some res := by
  induction ps generalizing hint with
  | nil => exact ⟨hint, rfl⟩
  | cons p ps ih =>
    obtain ⟨i, char⟩ := p
    have hi := hidx (i, char) (List.mem_cons_self _ _)
    have hrest : ∀ q ∈ ps, q.1 < pl.length ∧ q.1 < ml.length :=
      fun q hq => hidx q (List.mem_cons_of_mem _ hq)
    simp only [format_letters, List.getElem?_eq_getElem hi.1, List.getElem?_eq_getElem hi.2]
    split
    · rename_i heq
      exact absurd heq (by simp)
    · exact ih _ hrest
    · split
      · rename_i heq
        exact absurd heq (by simp)
      · exact ih _ hrest
      · exact ih _ hrest

/-! ## Facts about generate_hint -/

theorem generate_hint_unfold (opts : options) (guess secret : GoString) (r : hint_result)
    (h : generate_hint opts guess secret = some r) :
    ∃ cc1 cc2,
      find_perfect secret (range_string guess)
        (count_chars secret map_empty, List.replicate opts.chars false, true) =
          some (cc1, r.perfect_letters, r.solved) ∧
      find_misplaced (range_string guess) (cc1, List.replicate opts.chars false) =
          some (cc2, r.misplaced_letters) ∧
      format_letters r.perfect_letters r.misplaced_letters (range_string guess) [] =
          some r.hint := by
  simp only [generate_hint] at h
  split at h
  · exact absurd h (by simp)
  · rename_i cc1 pl sv h1
    split at h
    · exact absurd h (by simp)
    · rename_i cc2 ml h2
      split at h
      · exact absurd h (by simp)
      · rename_i hint h3
        simp only [Option.some.injEq] at h
        subst h
        exact ⟨cc1, cc2, h1, h2, h3⟩

/-- The function returns whenever every byte offset of the guess is below
`chars`, the length of the secret. -/
theorem generate_hint_total (opts : options) (guess secret : GoString)
    (hs : secret.length = opts.chars)
    (hidx : ∀ p ∈ range_string guess, p.1 < opts.chars) :
    ∃ r, generate_hint opts guess secret = some r := by
  obtain ⟨⟨cc1, pl, sv⟩, h1⟩ := find_perfect_total secret (range_string guess)
    (count_chars secret map_empty, List.replicate opts.chars false, true)
    (fun p hp => by simpa [hs] using hidx p hp)
  obtain ⟨⟨cc2, ml⟩, h2⟩ := find_misplaced_total (range_string guess)
    (cc1, List.replicate opts.chars false) (fun p hp => by simpa using hidx p hp)
  have hpl : pl.length = opts.chars := by
    have := (find_perfect_facts _ _ _ _ h1).2.1
    simpa using this
  have hml : ml.length = opts.chars := by
    have := find_misplaced_length _ _ _ h2
    simpa using this
  obtain ⟨hint, h3⟩ := format_letters_total pl ml (range_string guess) []
    (fun p hp => by rw [hpl, hml]; exact ⟨hidx p hp, hidx p hp⟩)
  exact ⟨⟨hint, sv, pl, ml⟩, by simp only [generate_hint, h1, h2, h3]⟩

/-- A guess of single-byte letters is always evaluated. -/
theorem generate_hint_total_ascii (opts : options) (guess secret : GoString)
    (hs : secret.length = opts.chars) (hg : guess.length = opts.chars)
    (hascii : ∀ c ∈ guess, c < 128) :
    ∃ r, generate_hint opts guess secret = some r := by
  apply generate_hint_total opts guess secret hs
  intro p hp
  rw [range_string, range_string_from_ascii guess 0 hascii] at hp
  have := mem_enumFrom_lt guess 0 p hp
  omega

/-- When `generate_hint` returns on words of `chars` code points, the byte
offsets of the guess are its positions. -/
theorem generate_hint_offsets (opts : options) (guess secret : GoString) (r : hint_result)
    (hs : secret.length = opts.chars) (hg : guess.length = opts.chars)
    (h : generate_hint opts guess secret = some r) :
    range_string guess = guess.enumFrom 0 := by
  obtain ⟨cc1, cc2, h1, _, _⟩ := generate_hint_unfold opts guess secret r h
  have hlt := (find_perfect_facts _ _ _ _ h1).1
  apply range_string_from_bounded
  intro p hp
  have := hlt p hp
  omega

theorem replicate_false_getD (n j : Nat) : (List.replicate n false).getD j false = false := by
  simp only [List.getD_eq_getElem?_getD, List.getElem?_replicate]
  split <;> rfl

theorem countP_or_le {α : Type} (l : List α) (p q r : α → Bool)
    (h : ∀ x ∈ l, r x = true → p x = true ∨ q x = true) :
    l.countP r ≤ l.countP p + l.countP q := by
  induction l with
  | nil => simp
  | cons a as ih =>
    have ih1 := ih (fun x hx => h x (List.mem_cons_of_mem _ hx))
    have ha := h a (List.mem_cons_self _ _)
    have key : (if r a = true then 1 else 0) ≤
        (if p a = true then 1 else 0) + (if q a = true then 1 else 0) := by
      cases hra : r a
      · simp
      · rcases ha hra with hp | hq
        · simp [hp]
        · simp [hq]
    simp only [List.countP_cons]
    omega

theorem countP_le_of_imp {α : Type} (l : List α) (p q : α → Bool)
    (h : ∀ x ∈ l, p x = true → q x = true) : l.countP p ≤ l.countP q := by
  induction l with
  | nil => simp
  | cons a as ih =>
    have ih1 := ih (fun x hx => h x (List.mem_cons_of_mem _ hx))
    have ha := h a (List.mem_cons_self _ _)
    have key : (if p a = true then 1 else 0) ≤ (if q a = true then 1 else 0) := by
      cases hpa : p a
      · simp
      · simp [ha hpa]
    simp only [List.countP_cons]
    omega

theorem mem_enumFrom_zero {α : Type} (l : List α) (j : Nat) (c : α) :
    (j, c) ∈ l.enumFrom 0 ↔ l[j]? = some c := by
  rw [List.mk_mem_enumFrom_iff_le_and_getElem?_sub]
  simp

/-- Position `j` is flagged perfect exactly when the guess and the secret hold
the same letter there. -/
theorem generate_hint_perfect_iff (opts : options) (guess secret : GoString) (r : hint_result)
    (hs : secret.length = opts.chars) (hg : guess.length = opts.chars)
    (h : generate_hint opts guess secret = some r) (j : Nat) :
    r.perfect_letters.getD j false = true ↔ ∃ c, guess[j]? = some c ∧ secret[j]? = some c := by
  have hoff := generate_hint_offsets opts guess secret r hs hg h
  obtain ⟨cc1, cc2, h1, _, _⟩ := generate_hint_unfold opts guess secret r h
  have h3 := (find_perfect_facts _ _ _ _ h1).2.2.1 j
  simp only [replicate_false_getD, Bool.false_eq_true, false_or, hoff] at h3
  rw [h3]
  constructor
  · rintro ⟨c, hc, hr⟩
    exact ⟨c, (mem_enumFrom_zero guess j c).1 hc, hr⟩
  · rintro ⟨c, hc, hr⟩
    exact ⟨c, (mem_enumFrom_zero guess j c).2 hc, hr⟩

theorem generate_hint_lengths (opts : options) (guess secret : GoString) (r : hint_result)
    (h : generate_hint opts guess secret = some r) :
    r.perfect_letters.length = opts.chars ∧ r.misplaced_letters.length = opts.chars := by
  obtain ⟨cc1, cc2, h1, h2, _⟩ := generate_hint_unfold opts guess secret r h
  have a := (find_perfect_facts _ _ _ _ h1).2.1
  have b := find_misplaced_length _ _ _ h2
  simp only [List.length_replicate] at a b
  exact ⟨a, b⟩

theorem generate_hint_solved_iff (opts : options) (guess secret : GoString) (r : hint_result)
    (hs : secret.length = opts.chars) (hg : guess.length = opts.chars)
    (h : generate_hint opts guess secret = some r) :
    r.solved = true ↔ ∀ (j : Nat) (c : Rune), guess[j]? = some c → secret[j]? = some c := by
  have hoff := generate_hint_offsets opts guess secret r hs hg h
  obtain ⟨cc1, cc2, h1, _, _⟩ := generate_hint_unfold opts guess secret r h
  have h4 := (find_perfect_facts _ _ _ _ h1).2.2.2.1
  simp only [true_and, hoff] at h4
  rw [h4]
  constructor
  · intro hall j c hc
    exact hall (j, c) ((mem_enumFrom_zero guess j c).2 hc)
  · rintro hall ⟨j, c⟩ hp
    exact hall j c ((mem_enumFrom_zero guess j c).1 hp)

/-- The letters flagged in the two passes: for every letter the two counts
together stay within the occurrences in the secret, and a letter of the guess
that occurs in the secret is flagged at least once. -/
theorem generate_hint_counts (opts : options) (guess secret : GoString) (r : hint_result)
    (hs : secret.length = opts.chars) (hg : guess.length = opts.chars)
    (h : generate_hint opts guess secret = some r) (L : Rune) :
    (guess.enumFrom 0).countP (fun p => p.2 = L ∧ r.perfect_letters.getD p.1 false = true) +
      (guess.enumFrom 0).countP (fun p => p.2 = L ∧ r.misplaced_letters.getD p.1 false = true)
        ≤ secret.count L ∧
    (L ∈ guess → L ∈ secret →
      1 ≤ (guess.enumFrom 0).countP
            (fun p => p.2 = L ∧ r.perfect_letters.getD p.1 false = true) +
          (guess.enumFrom 0).countP
            (fun p => p.2 = L ∧ r.misplaced_letters.getD p.1 false = true)) := by
  have hoff := generate_hint_offsets opts guess secret r hs hg h
  obtain ⟨cc1, cc2, h1, h2, _⟩ := generate_hint_unfold opts guess secret r h
  rw [hoff] at h1 h2
  have h5 := (find_perfect_facts _ _ _ _ h1).2.2.2.2 L
  obtain ⟨_, m3, m4, m5⟩ := find_misplaced_facts guess 0 _ _ h2
    (fun j _ => replicate_false_getD _ _)
  have hcongr : (guess.enumFrom 0).countP
        (fun p => p.2 = L ∧ r.perfect_letters.getD p.1 false = true) =
      (guess.enumFrom 0).countP (fun p => p.2 = L ∧ secret[p.1]? = some L) := by
    apply List.countP_congr
    rintro ⟨j, c⟩ hp
    have hjc := (mem_enumFrom_zero guess j c).1 hp
    simp only [decide_eq_true_eq]
    rw [generate_hint_perfect_iff opts guess secret r hs hg h j]
    constructor
    · rintro ⟨hL, c2, hc2, hr⟩
      rw [hjc] at hc2
      have : c = c2 := Option.some.inj hc2
      subst this
      subst hL
      exact ⟨rfl, hr⟩
    · rintro ⟨hL, hr⟩
      subst hL
      exact ⟨rfl, c, hjc, hr⟩
  have hle := perfect_hits_le secret guess 0 L
  simp only [List.drop_zero] at hle
  have h0 : map_get (count_chars secret map_empty) L = secret.count L := by
    rw [count_chars_get]
    simp [map_get, map_empty]
  rw [← List.countP_eq_length_filter] at h5
  dsimp only at h5
  rw [h0] at h5
  have m3L := m3 L
  have m4L := m4 L
  dsimp only at m3L m4L
  rw [hcongr]
  constructor
  · omega
  · intro hLg hLs
    have hpos : 0 < secret.count L := List.count_pos_iff.2 hLs
    have m5L := m5 L hLg
    dsimp only at m5L
    omega

/-- The classified positions of a letter are at most the flagged ones of both
passes and at least those of each pass. -/
theorem classified_count_bounds (guess : GoString) (perfect misplaced : List Bool) (L : Rune) :
    classified_count guess perfect misplaced L ≤
      (guess.enumFrom 0).countP (fun p => p.2 = L ∧ perfect.getD p.1 false = true) +
      (guess.enumFrom 0).countP (fun p => p.2 = L ∧ misplaced.getD p.1 false = true) ∧
    (guess.enumFrom 0).countP (fun p => p.2 = L ∧ perfect.getD p.1 false = true) ≤
      classified_count guess perfect misplaced L ∧
    (guess.enumFrom 0).countP (fun p => p.2 = L ∧ misplaced.getD p.1 false = true) ≤
      classified_count guess perfect misplaced L := by
  unfold classified_count List.enum
  refine ⟨?_, ?_, ?_⟩
  · apply countP_or_le
    intro x _ hx
    simp only [decide_eq_true_eq, Bool.or_eq_true] at hx ⊢
    rcases hx.2 with hp | hm
    · exact Or.inl ⟨hx.1, hp⟩
    · exact Or.inr ⟨hx.1, hm⟩
  · apply countP_le_of_imp
    intro x _ hx
    simp only [decide_eq_true_eq, Bool.or_eq_true] at hx ⊢
    exact ⟨hx.1, Or.inl hx.2⟩
  · apply countP_le_of_imp
    intro x _ hx
    simp only [decide_eq_true_eq, Bool.or_eq_true] at hx ⊢
    exact ⟨hx.1, Or.inr hx.2⟩

/-! ## The letter update of one column -/

theorem change_count_bump (temp : Rune → Option Int) (letter L : Rune)
    (h : 0 ≤ map_get temp letter) :
    map_get (change_count temp letter 1 1) L =
      map_get temp L + (if L = letter then 1 else 0) := by
  unfold change_count
  cases ht : temp letter with
  | none =>
    by_cases hL : L = letter
    · subst hL
      simp [map_get, map_set, ht]
    · simp [map_get, map_set, hL]
  | some count =>
    have hc : 0 ≤ count := by simpa [map_get, ht] using h
    have hpos : count + 1 > 0 := by omega
    by_cases hL : L = letter
    · subst hL
      simp [map_get, map_set, ht, hpos]
    · simp [map_get, map_set, hL, hpos]

theorem bitfield_set_ne_zero (b : bitfield) (i : Nat) (h : b ≠ 0) :
    bitfield.set b i true ≠ 0 := by
  obtain ⟨j, hj⟩ := Nat.ne_zero_implies_bit_true h
  intro h0
  have : (bitfield.set b i true).testBit j = true := by
    simp [bitfield.set, Nat.testBit_or, hj]
  rw [h0] at this
  simp at this

/-- One iteration of the first loop of the letter update: either the letter is
counted (the position is perfect or misplaced), or it is neither and is
possibly recorded as wrong. -/
theorem update_letters_step (pf mp : List Bool) (i : Nat) (letter : Rune)
    (rest : List (Nat × Rune)) (col : column) (temp : Rune → Option Int)
    (res : column × (Rune → Option Int))
    (h : update_letters pf mp ((i, letter) :: rest) (col, temp) = some res) :
    ∃ col1 temp1, update_letters pf mp rest (col1, temp1) = some res ∧
      col1.hints = col.hints ∧ col1.solved = col.solved ∧
      col1.contained_letters = col.contained_letters ∧
      (((pf.getD i false || mp.getD i false) = true ∧
          temp1 = change_count temp letter 1 1 ∧
          col1.wrong_letters = map_delete col.wrong_letters letter ∧
          (col1.perfect_letters = col.perfect_letters ∨
            (pf.getD i false = true ∧
              col1.perfect_letters = map_set col.perfect_letters letter
                (bitfield.set (map_get_bits col.perfect_letters letter) i true)))) ∨
        ((pf.getD i false || mp.getD i false) = false ∧ temp1 = temp ∧
          col1.perfect_letters = col.perfect_letters ∧
          ((col1.wrong_letters = map_set col.wrong_letters letter true ∧
              map_get_bits col.perfect_letters letter = 0 ∧
              map_get col.contained_letters letter = 0 ∧ map_get temp letter = 0) ∨
            col1.wrong_letters = col.wrong_letters))) := by
  simp only [update_letters] at h
  split at h
  · exact absurd h (by simp)
  · rename_i hp
    have hpf : pf.getD i false = true := by simp [List.getD_eq_getElem?_getD, hp]
    exact ⟨_, _, h, rfl, rfl, rfl, Or.inl ⟨by rw [hpf]; rfl, rfl, rfl, Or.inr ⟨hpf, rfl⟩⟩⟩
  · rename_i hp
    have hpf : pf.getD i false = false := by simp [List.getD_eq_getElem?_getD, hp]
    split at h
    · exact absurd h (by simp)
    · rename_i hm
      have hmp : mp.getD i false = true := by simp [List.getD_eq_getElem?_getD, hm]
      exact ⟨_, _, h, rfl, rfl, rfl, Or.inl ⟨by rw [hpf, hmp]; rfl, rfl, rfl, Or.inl rfl⟩⟩
    · rename_i hm
      have hmp : mp.getD i false = false := by simp [List.getD_eq_getElem?_getD, hm]
      split at h
      · rename_i hcond
        exact ⟨_, _, h, rfl, rfl, rfl,
          Or.inr ⟨by rw [hpf, hmp]; rfl, rfl, rfl, Or.inl ⟨rfl, hcond.1, hcond.2.1, hcond.2.2⟩⟩⟩
      · exact ⟨_, _, h, rfl, rfl, rfl, Or.inr ⟨by rw [hpf, hmp]; rfl, rfl, rfl, Or.inr rfl⟩⟩

/-- The first loop leaves hints, solved flag and contained counts alone, and
`temp_contained` ends as the number of counted positions of every letter. -/
theorem update_letters_counts (pf mp : List Bool) (ps : List (Nat × Rune))
    (st res : column × (Rune → Option Int))
    (h : update_letters pf mp ps st = some res) (hnn : ∀ L, 0 ≤ map_get st.2 L) :
    res.1.hints = st.1.hints ∧ res.1.solved = st.1.solved ∧
    res.1.contained_letters = st.1.contained_letters ∧
    (∀ L, map_get res.2 L = map_get st.2 L +
      ps.countP (fun p => p.2 = L ∧ (pf.getD p.1 false || mp.getD p.1 false) = true)) := by
  induction ps generalizing st with
  | nil =>
    simp only [update_letters, Option.some.injEq] at h
    subst h
    simp
  | cons p ps ih =>
    obtain ⟨i, letter⟩ := p
    obtain ⟨col, temp⟩ := st
    obtain ⟨col1, temp1, h1, e1, e2, e3, hcase⟩ := update_letters_step pf mp i letter ps col temp res h
    have hbump := fun L => change_count_bump temp letter L (hnn letter)
    have hnn1 : ∀ L, 0 ≤ map_get temp1 L := by
      intro L
      rcases hcase with ⟨_, ht, _⟩ | ⟨_, ht, _⟩
      · rw [ht, hbump L]
        have := hnn L
        dsimp only at this
        split <;> omega
      · rw [ht]
        exact hnn L
    obtain ⟨a1, a2, a3, a4⟩ := ih (col1, temp1) h1 hnn1
    dsimp only at a1 a2 a3 a4 ⊢
    refine ⟨a1.trans e1, a2.trans e2, a3.trans e3, ?_⟩
    intro L
    rw [a4 L, List.countP_cons]
    rcases hcase with ⟨hb, ht, _⟩ | ⟨hb, ht, _⟩
    · rw [ht, hbump L, hb]
      by_cases hL : L = letter
      · subst hL
        simp
        omega
      · have : ¬ letter = L := fun h => hL h.symm
        simp [hL, this]
    · rw [ht, hb]
      simp

/-- The first loop keeps every letter that was counted in this round, and
every letter already known perfect or contained, out of the wrong letters;
it does not touch the letters that are not in the guess and never clears a
perfect position. -/
theorem update_letters_wrong (pf mp : List Bool) (ps : List (Nat × Rune))
    (st res : column × (Rune → Option Int))
    (h : update_letters pf mp ps st = some res) (hnn : ∀ L, 0 ≤ map_get st.2 L) :
    ((∀ L, 0 < map_get st.2 L → st.1.wrong_letters L = none) →
      ∀ L, 0 < map_get res.2 L → res.1.wrong_letters L = none) ∧
    ((∀ L, (map_get_bits st.1.perfect_letters L ≠ 0 ∨ 0 < map_get st.1.contained_letters L) →
        st.1.wrong_letters L = none) →
      ∀ L, (map_get_bits res.1.perfect_letters L ≠ 0 ∨
          0 < map_get res.1.contained_letters L) → res.1.wrong_letters L = none) ∧
    (∀ L, (∀ p ∈ ps, p.2 ≠ L) →
      res.1.wrong_letters L = st.1.wrong_letters L ∧
      res.1.perfect_letters L = st.1.perfect_letters L) ∧
    (∀ L, map_get_bits st.1.perfect_letters L ≠ 0 →
      map_get_bits res.1.perfect_letters L ≠ 0) := by
  induction ps generalizing st with
  | nil =>
    simp only [update_letters, Option.some.injEq] at h
    subst h
    simp
  | cons p ps ih =>
    obtain ⟨i, letter⟩ := p
    obtain ⟨col, temp⟩ := st
    obtain ⟨col1, temp1, h1, e1, e2, e3, hcase⟩ := update_letters_step pf mp i letter ps col temp res h
    have hbump := fun L => change_count_bump temp letter L (hnn letter)
    have hnn1 : ∀ L, 0 ≤ map_get temp1 L := by
      intro L
      rcases hcase with ⟨_, ht, _⟩ | ⟨_, ht, _⟩
      · rw [ht, hbump L]
        have := hnn L
        dsimp only at this
        split <;> omega
      · rw [ht]
        exact hnn L
    obtain ⟨a1, a2, a3, a4⟩ := ih (col1, temp1) h1 hnn1
    dsimp only at a1 a2 a3 a4 hnn ⊢
    refine ⟨?_, ?_, ?_, ?_⟩
    · intro hJ
      apply a1
      intro L hL
      rcases hcase with ⟨_, ht, hw, _⟩ | ⟨_, ht, _, hw⟩
      · rw [hw]
        simp only [map_delete]
        by_cases hLl : L = letter
        · simp [hLl]
        · simp only [hLl, if_false]
          apply hJ
          rw [ht, hbump L] at hL
          simpa [hLl] using hL
      · rw [ht] at hL
        rcases hw with ⟨hw, _, _, ht0⟩ | hw
        · rw [hw]
          simp only [map_set]
          by_cases hLl : L = letter
          · subst hLl
            omega
          · simp only [hLl, if_false]
            exact hJ L hL
        · rw [hw]
          exact hJ L hL
    · intro hK
      apply a2
      intro L hL
      rw [e3] at hL
      rcases hcase with ⟨_, _, hw, hp⟩ | ⟨_, _, hp, hw⟩
      · rw [hw]
        simp only [map_delete]
        by_cases hLl : L = letter
        · simp [hLl]
        · simp only [hLl, if_false]
          apply hK
          rcases hp with hp | ⟨_, hp⟩
          · rw [hp] at hL
            exact hL
          · rw [hp] at hL
            simpa [map_get_bits, map_set, hLl] using hL
      · rw [hp] at hL
        rcases hw with ⟨hw, hb0, hc0, _⟩ | hw
        · rw [hw]
          simp only [map_set]
          by_cases hLl : L = letter
          · subst hLl
            rcases hL with hL | hL
            · exact absurd hb0 hL
            · omega
          · simp only [hLl, if_false]
            exact hK L hL
        · rw [hw]
          exact hK L hL
    · intro L hL
      have hLl : L ≠ letter := fun hh => hL (i, letter) (List.mem_cons_self _ _) hh.symm
      obtain ⟨b1, b2⟩ := a3 L (fun p hp => hL p (List.mem_cons_of_mem _ hp))
      rw [b1, b2]
      rcases hcase with ⟨_, _, hw, hp⟩ | ⟨_, _, hp, hw⟩
      · constructor
        · rw [hw]
          simp [map_delete, hLl]
        · rcases hp with hp | ⟨_, hp⟩
          · rw [hp]
          · rw [hp]
            simp [map_set, hLl]
      · constructor
        · rcases hw with ⟨hw, _⟩ | hw
          · rw [hw]
            simp [map_set, hLl]
          · rw [hw]
        · rw [hp]
    · intro L hL
      apply a4
      rcases hcase with ⟨_, _, _, hp⟩ | ⟨_, _, hp, _⟩
      · rcases hp with hp | ⟨_, hp⟩
        · rw [hp]
          exact hL
        · rw [hp]
          by_cases hLl : L = letter
          · subst hLl
            simp only [map_get_bits, map_set, if_true, Option.getD_some]
            exact bitfield_set_ne_zero _ i hL
          · simpa [map_get_bits, map_set, hLl] using hL
      · rw [hp]
        exact hL

theorem merge_contained_facts (temp : Rune → Option Int) (ps : List (Nat × Rune))
    (col : column) :
    (merge_contained temp ps col).hints = col.hints ∧
    (merge_contained temp ps col).solved = col.solved ∧
    (merge_contained temp ps col).wrong_letters = col.wrong_letters ∧
    (merge_contained temp ps col).perfect_letters = col.perfect_letters ∧
    (∀ L, (∃ p ∈ ps, p.2 = L) →
      map_get (merge_contained temp ps col).contained_letters L =
        max (map_get col.contained_letters L) (map_get temp L)) ∧
    (∀ L, (∀ p ∈ ps, p.2 ≠ L) →
      (merge_contained temp ps col).contained_letters L = col.contained_letters L) ∧
    (∀ L, map_get col.contained_letters L ≤
      map_get (merge_contained temp ps col).contained_letters L) ∧
    (∀ L, map_get (merge_contained temp ps col).contained_letters L =
        map_get col.contained_letters L ∨
      map_get (merge_contained temp ps col).contained_letters L = map_get temp L) := by
  induction ps generalizing col with
  | nil => simp [merge_contained]
  | cons p ps ih =>
    obtain ⟨i, letter⟩ := p
    have hstep : ∃ col1, merge_contained temp ((i, letter) :: ps) col =
          merge_contained temp ps col1 ∧
        col1.hints = col.hints ∧ col1.solved = col.solved ∧
        col1.wrong_letters = col.wrong_letters ∧
        col1.perfect_letters = col.perfect_letters ∧
        (∀ L, L ≠ letter → col1.contained_letters L = col.contained_letters L) ∧
        map_get col1.contained_letters letter =
          max (map_get col.contained_letters letter) (map_get temp letter) := by
      by_cases hc : map_get temp letter > map_get col.contained_letters letter
      · refine ⟨{ col with
            contained_letters :=
              map_set col.contained_letters letter (map_get temp letter) },
          by simp only [merge_contained, hc, if_true], rfl, rfl, rfl, rfl, ?_, ?_⟩
        · intro L hL
          simp [map_set, hL]
        · rw [max_eq_right (le_of_lt hc)]
          simp [map_get, map_set]
      · refine ⟨col, by simp only [merge_contained, hc, if_false], rfl, rfl, rfl, rfl,
          fun _ _ => rfl, ?_⟩
        rw [max_eq_left (not_lt.1 hc)]
    obtain ⟨col1, e0, e1, e2, e3, e4, e5, e6⟩ := hstep
    obtain ⟨a1, a2, a3, a4, a5, a6, a7, a8⟩ := ih col1
    have hget : ∀ L, L ≠ letter →
        map_get col1.contained_letters L = map_get col.contained_letters L := by
      intro L hL
      simp only [map_get, e5 L hL]
    rw [e0]
    refine ⟨a1.trans e1, a2.trans e2, a3.trans e3, a4.trans e4, ?_, ?_, ?_, ?_⟩
    · rintro L ⟨q, hq, hqL⟩
      by_cases hin : ∃ p ∈ ps, p.2 = L
      · rw [a5 L hin]
        by_cases hL : L = letter
        · subst hL
          rw [e6, max_assoc, max_self]
        · rw [hget L hL]
      · have hnot : ∀ p ∈ ps, p.2 ≠ L := fun p hp hpL => hin ⟨p, hp, hpL⟩
        have hL : L = letter := by
          rcases List.mem_cons.1 hq with rfl | hq
          · exact hqL.symm
          · exact absurd hqL (hnot q hq)
        subst hL
        simp only [map_get, a6 L hnot]
        exact e6
    · intro L hL
      have hLl : L ≠ letter := fun hh => hL (i, letter) (List.mem_cons_self _ _) hh.symm
      rw [a6 L (fun p hp => hL p (List.mem_cons_of_mem _ hp)), e5 L hLl]
    · intro L
      have := a7 L
      by_cases hL : L = letter
      · subst hL
        exact le_trans (by rw [e6]; exact le_max_left _ _) this
      · rw [hget L hL] at this
        exact this
    · intro L
      by_cases hL : L = letter
      · subst hL
        rcases a8 L with h8 | h8
        · rw [h8, e6]
          rcases max_cases (map_get col.contained_letters L) (map_get temp L) with ⟨hm, _⟩ | ⟨hm, _⟩
          · exact Or.inl hm
          · exact Or.inr hm
        · exact Or.inr h8
      · rcases a8 L with h8 | h8
        · rw [h8, hget L hL]
          exact Or.inl rfl
        · exact Or.inr h8

/-! ## One column in one round -/

theorem update_column_solved (opts : options) (empty_word : GoString)
    (secrets : List GoString) (round : Nat) (guess : GoString) (w : Nat) (col : column)
    (hsolved : col.solved = true) (hround : round < col.hints.length) :
    update_column opts empty_word secrets round guess w col =
      some { col with hints := col.hints.set round empty_word } := by
  obtain ⟨hints, solved, wl, cl, pl⟩ := col
  simp only at hsolved hround
  subst hsolved
  simp [update_column, hround]

theorem update_column_round (opts : options) (empty_word : GoString)
    (secrets : List GoString) (round : Nat) (guess : GoString) (w : Nat) (col col1 : column)
    (h : update_column opts empty_word secrets round guess w col = some col1) :
    round < col.hints.length := by
  by_contra hn
  simp only [update_column] at h
  split at h
  · exact absurd h (by simp)
  · simp only [hn, if_false] at h
    exact absurd h (by simp)

theorem update_column_unsolved (opts : options) (empty_word : GoString)
    (secrets : List GoString) (round : Nat) (guess : GoString) (w : Nat) (col col1 : column)
    (hsolved : col.solved = false)
    (h : update_column opts empty_word secrets round guess w col = some col1) :
    ∃ secret r, secrets[w]? = some secret ∧ generate_hint opts guess secret = some r ∧
      ((r.solved = true ∧
          col1 = { col with hints := col.hints.set round r.hint, solved := true }) ∨
        (r.solved = false ∧ ∃ col2 temp,
          update_letters r.perfect_letters r.misplaced_letters (range_string guess)
            ({ col with hints := col.hints.set round r.hint, solved := false }, map_empty) =
              some (col2, temp) ∧
          col1 = merge_contained temp (range_string guess) col2)) := by
  have hround := update_column_round opts empty_word secrets round guess w col col1 h
  obtain ⟨hints, solved, wl, cl, pl⟩ := col
  simp only at hsolved hround
  subst hsolved
  simp only [update_column, Bool.false_eq_true, if_false, Bool.false_or] at h
  cases hsec : secrets[w]? with
  | none =>
    simp [hsec] at h
  | some secret =>
    cases hgen : generate_hint opts guess secret with
    | none =>
      simp [hsec, hgen] at h
    | some r =>
      refine ⟨secret, r, rfl, hgen, ?_⟩
      simp only [hsec, hgen, hround, if_true] at h
      cases hrs : r.solved with
      | true =>
        left
        simp only [hrs, Bool.not_true, Bool.false_eq_true, if_false, Option.some.injEq] at h
        exact ⟨rfl, h.symm⟩
      | false =>
        right
        simp only [hrs, Bool.not_false, if_true] at h
        split at h
        · exact absurd h (by simp)
        · rename_i col2 temp hul
          simp only [Option.some.injEq] at h
          exact ⟨rfl, col2, temp, hul, h.symm⟩

theorem map_get_empty (L : Rune) : map_get map_empty L = 0 := rfl

theorem mem_of_mem_enumFrom_zero (guess : GoString) (p : Nat × Rune)
    (h : p ∈ guess.enumFrom 0) : p.2 ∈ guess := by
  obtain ⟨j, c⟩ := p
  exact List.getElem?_mem ((mem_enumFrom_zero guess j c).1 h)

/-- The round update of a column keeps the known letters out of the wrong
letters, and a known letter stays known. -/
theorem update_column_known (opts : options) (empty_word : GoString)
    (secrets : List GoString) (round : Nat) (guess : GoString) (w : Nat) (col col1 : column)
    (h : update_column opts empty_word secrets round guess w col = some col1) :
    (known_not_wrong col → known_not_wrong col1) ∧
    (∀ L, known_letter col L → known_letter col1 L) := by
  have hround := update_column_round opts empty_word secrets round guess w col col1 h
  cases hsolved : col.solved with
  | true =>
    rw [update_column_solved opts empty_word secrets round guess w col hsolved hround] at h
    simp only [Option.some.injEq] at h
    subst h
    exact ⟨fun hk => hk, fun L hL => hL⟩
  | false =>
    obtain ⟨secret, r, _, _, hcase⟩ :=
      update_column_unsolved opts empty_word secrets round guess w col col1 hsolved h
    rcases hcase with ⟨_, hcol⟩ | ⟨_, col2, temp, hul, hcol⟩
    · subst hcol
      exact ⟨fun hk => hk, fun L hL => hL⟩
    · obtain ⟨_, _, c3, _⟩ := update_letters_counts _ _ _ _ _ hul
        (fun L => by simp [map_get_empty])
      obtain ⟨w1, w2, _, w4⟩ := update_letters_wrong _ _ _ _ _ hul
        (fun L => by simp [map_get_empty])
      obtain ⟨_, _, m3, m4, _, _, m7, m8⟩ :=
        merge_contained_facts temp (range_string guess) col2
      dsimp only at c3 w1 w2 w4
      have hW1 := w1 (fun L hL => by simp [map_get_empty] at hL)
      subst hcol
      constructor
      · intro hk L hL
        have hW2 := w2 hk
        rw [m3]
        unfold known_letter at hL
        rw [m4] at hL
        rcases hL with hL | hL
        · exact hW2 L (Or.inl hL)
        · rcases m8 L with h8 | h8
          · rw [h8] at hL
            exact hW2 L (Or.inr hL)
          · rw [h8] at hL
            exact hW1 L hL
      · intro L hL
        unfold known_letter at hL ⊢
        rw [m4]
        rcases hL with hL | hL
        · exact Or.inl (w4 L hL)
        · right
          have := m7 L
          rw [c3] at this
          omega

/-- In an unsolved round on words of `chars` code points, `temp_contained`
ends as the classified count of every letter. -/
theorem update_letters_temp (opts : options) (guess secret : GoString) (r : hint_result)
    (hs : secret.length = opts.chars) (hg : guess.length = opts.chars)
    (hgen : generate_hint opts guess secret = some r)
    (col col2 : column) (temp : Rune → Option Int)
    (hul : update_letters r.perfect_letters r.misplaced_letters (range_string guess)
      (col, map_empty) = some (col2, temp)) (L : Rune) :
    map_get temp L = classified_count guess r.perfect_letters r.misplaced_letters L := by
  obtain ⟨_, _, _, c4⟩ := update_letters_counts _ _ _ _ _ hul (fun L => by simp [map_get_empty])
  have := c4 L
  rw [generate_hint_offsets opts guess secret r hs hg hgen] at this
  simpa [map_get_empty, classified_count, List.enum] using this

/-- The round update of a column never records a letter of the secret as
wrong. -/
theorem update_column_wrong_absent (opts : options) (empty_word : GoString)
    (secrets : List GoString) (round : Nat) (guess : GoString) (w : Nat) (col col1 : column)
    (secret : GoString) (hsec : secrets[w]? = some secret)
    (hs : secret.length = opts.chars) (hg : guess.length = opts.chars)
    (h : update_column opts empty_word secrets round guess w col = some col1)
    (hwa : wrong_absent secret col) : wrong_absent secret col1 := by
  have hround := update_column_round opts empty_word secrets round guess w col col1 h
  cases hsolved : col.solved with
  | true =>
    rw [update_column_solved opts empty_word secrets round guess w col hsolved hround] at h
    simp only [Option.some.injEq] at h
    subst h
    exact hwa
  | false =>
    obtain ⟨secret2, r, hsec2, hgen, hcase⟩ :=
      update_column_unsolved opts empty_word secrets round guess w col col1 hsolved h
    rw [hsec] at hsec2
    have := Option.some.inj hsec2
    subst this
    rcases hcase with ⟨_, hcol⟩ | ⟨_, col2, temp, hul, hcol⟩
    · subst hcol
      exact hwa
    · obtain ⟨w1, _, w3, _⟩ := update_letters_wrong _ _ _ _ _ hul
        (fun L => by simp [map_get_empty])
      obtain ⟨_, _, m3, _⟩ := merge_contained_facts temp (range_string guess) col2
      dsimp only at w1 w3
      have hW1 := w1 (fun L hL => by simp [map_get_empty] at hL)
      have htemp := update_letters_temp opts guess secret r hs hg hgen _ col2 temp hul
      subst hcol
      intro L hL
      rw [m3] at hL
      by_contra hcount
      have hLs : L ∈ secret := List.count_pos_iff.1 (Nat.pos_of_ne_zero hcount)
      by_cases hLg : L ∈ guess
      · have hc := (generate_hint_counts opts guess secret r hs hg hgen L).2 hLg hLs
        have hb := classified_count_bounds guess r.perfect_letters r.misplaced_letters L
        have hpos : 0 < map_get temp L := by
          rw [htemp L]
          omega
        exact hL (hW1 L hpos)
      · have hnot : ∀ p ∈ range_string guess, p.2 ≠ L := by
          intro p hp hpL
          rw [generate_hint_offsets opts guess secret r hs hg hgen] at hp
          exact hLg (hpL ▸ mem_of_mem_enumFrom_zero guess p hp)
        rw [(w3 L hnot).1] at hL
        exact hcount (hwa L hL)

/-- In a round that leaves the column unsolved the contained count of every
letter of the guess becomes the maximum of the previous count and the
classified count of the round, and the other letters keep their entry. -/
theorem update_column_contained (opts : options) (empty_word : GoString)
    (secrets : List GoString) (round : Nat) (guess : GoString) (w : Nat) (col col1 : column)
    (secret : GoString) (hsec : secrets[w]? = some secret)
    (hs : secret.length = opts.chars) (hg : guess.length = opts.chars)
    (h : update_column opts empty_word secrets round guess w col = some col1)
    (hunsolved : col1.solved = false) :
    ∃ r, generate_hint opts guess secret = some r ∧
      ∀ L, (L ∈ guess → map_get col1.contained_letters L =
          max (map_get col.contained_letters L)
            (classified_count guess r.perfect_letters r.misplaced_letters L)) ∧
        (L ∉ guess → col1.contained_letters L = col.contained_letters L) ∧
        map_get col.contained_letters L ≤ map_get col1.contained_letters L := by
  have hround := update_column_round opts empty_word secrets round guess w col col1 h
  cases hsolved : col.solved with
  | true =>
    rw [update_column_solved opts empty_word secrets round guess w col hsolved hround] at h
    simp only [Option.some.injEq] at h
    subst h
    simp only [hsolved] at hunsolved
    exact absurd hunsolved (by simp)
  | false =>
    obtain ⟨secret2, r, hsec2, hgen, hcase⟩ :=
      update_column_unsolved opts empty_word secrets round guess w col col1 hsolved h
    rw [hsec] at hsec2
    have := Option.some.inj hsec2
    subst this
    rcases hcase with ⟨_, hcol⟩ | ⟨_, col2, temp, hul, hcol⟩
    · subst hcol
      exact absurd hunsolved (by simp)
    · obtain ⟨_, _, c3, _⟩ := update_letters_counts _ _ _ _ _ hul
        (fun L => by simp [map_get_empty])
      obtain ⟨_, _, _, _, m5, m6, m7, _⟩ :=
        merge_contained_facts temp (range_string guess) col2
      have htemp := update_letters_temp opts guess secret r hs hg hgen _ col2 temp hul
      have hoff := generate_hint_offsets opts guess secret r hs hg hgen
      dsimp only at c3
      subst hcol
      refine ⟨r, hgen, fun L => ⟨?_, ?_, ?_⟩⟩
      · intro hLg
        obtain ⟨j, hj, hjL⟩ := List.getElem_of_mem hLg
        have hmem : (j, L) ∈ range_string guess := by
          rw [hoff]
          exact (mem_enumFrom_zero guess j L).2 (by rw [List.getElem?_eq_getElem hj, hjL])
        rw [m5 L ⟨(j, L), hmem, rfl⟩, c3, htemp L]
      · intro hLg
        have hnot : ∀ p ∈ range_string guess, p.2 ≠ L := by
          intro p hp hpL
          rw [hoff] at hp
          exact hLg (hpL ▸ mem_of_mem_enumFrom_zero guess p hp)
        rw [m6 L hnot, c3]
      · have := m7 L
        rw [c3] at this
        exact this

/-! ## The state in one round and over the game loop -/

theorem update_words_facts (opts : options) (guess : GoString) (ws : List Nat)
    (s s1 : state) (h : update_words opts guess ws s = some s1) (hnd : ws.Nodup) :
    s1.secrets = s.secrets ∧ s1.guesses = s.guesses ∧ s1.round = s.round ∧
    s1.empty_word = s.empty_word ∧ s1.columns.length = s.columns.length ∧
    (∀ w, w ∉ ws → s1.columns[w]? = s.columns[w]?) ∧
    (∀ w, w ∈ ws → ∃ col col1, s.columns[w]? = some col ∧
      update_column opts s.empty_word s.secrets s.round guess w col = some col1 ∧
      s1.columns[w]? = some col1) := by
  induction ws generalizing s with
  | nil =>
    simp only [update_words, Option.some.injEq] at h
    subst h
    simp
  | cons w0 rest ih =>
    simp only [update_words] at h
    split at h
    · exact absurd h (by simp)
    · rename_i col hcol
      split at h
      · exact absurd h (by simp)
      · rename_i col1 hupd
        have hw0 : w0 < s.columns.length := by
          by_contra hn
          rw [List.getElem?_eq_none (by omega)] at hcol
          exact absurd hcol (by simp)
        obtain ⟨a1, a2, a3, a4, a5, a6, a7⟩ := ih _ h (List.nodup_cons.1 hnd).2
        dsimp only at a1 a2 a3 a4 a5 a6 a7
        refine ⟨a1, a2, a3, a4, by simpa using a5, ?_, ?_⟩
        · intro w hw
          have hne : w ≠ w0 := fun hh => hw (hh ▸ List.mem_cons_self _ _)
          rw [a6 w (fun hh => hw (List.mem_cons_of_mem _ hh))]
          simp [List.getElem?_set, Ne.symm hne]
        · intro w hw
          rcases List.mem_cons.1 hw with rfl | hw
          · refine ⟨col, col1, hcol, hupd, ?_⟩
            rw [a6 w (List.nodup_cons.1 hnd).1]
            simp [List.getElem?_set, hw0]
          · have hne : w ≠ w0 := fun hh => (List.nodup_cons.1 hnd).1 (hh ▸ hw)
            obtain ⟨c, c1, hc, hu, hc1⟩ := a7 w hw
            refine ⟨c, c1, ?_, hu, hc1⟩
            rw [← hc]
            simp [List.getElem?_set, Ne.symm hne]

theorem update_facts (opts : options) (s s1 : state) (h : state.update opts s = some s1) :
    ∃ guess, s.guesses[s.round]? = some guess ∧
      s1.secrets = s.secrets ∧ s1.guesses = s.guesses ∧ s1.round = s.round ∧
      s1.empty_word = s.empty_word ∧ s1.columns.length = s.columns.length ∧
      (∀ w, opts.words ≤ w → s1.columns[w]? = s.columns[w]?) ∧
      (∀ w, w < opts.words → ∃ col col1, s.columns[w]? = some col ∧
        update_column opts s.empty_word s.secrets s.round guess w col = some col1 ∧
        s1.columns[w]? = some col1) := by
  simp only [state.update] at h
  split at h
  · exact absurd h (by simp)
  · rename_i guess hguess
    obtain ⟨a1, a2, a3, a4, a5, a6, a7⟩ :=
      update_words_facts opts guess (List.range opts.words) _ s1 h (List.nodup_range _)
    dsimp only at a1 a2 a3 a4 a5 a6 a7
    refine ⟨guess, hguess, a1, a2, a3, a4, a5, ?_, ?_⟩
    · intro w hw
      exact a6 w (by simp only [List.mem_range]; omega)
    · intro w hw
      exact a7 w (List.mem_range.2 hw)

/-- A property of the columns that every round update of a column preserves,
for guesses satisfying `G`, holds after the game loop when it holds before;
the secrets stay as they are. -/
theorem run_rounds_invariant (opts : options) (secrets : List GoString)
    (G : GoString → Prop) (Q : Nat → column → Prop)
    (hstep : ∀ ew round g w col col1, G g → Q w col →
      update_column opts ew secrets round g w col = some col1 → Q w col1)
    (inputs : List GoString) (s s1 : state) (hin : ∀ g ∈ inputs, G g)
    (hsec : s.secrets = secrets) (h : run_rounds opts inputs s = some s1)
    (hQ : ∀ w col, s.columns[w]? = some col → Q w col) :
    s1.secrets = secrets ∧ ∀ w col, s1.columns[w]? = some col → Q w col := by
  induction inputs generalizing s with
  | nil =>
    simp only [run_rounds] at h
    split at h
    · simp only [Option.some.injEq] at h
      subst h
      exact ⟨hsec, hQ⟩
    · simp only [Option.some.injEq] at h
      subst h
      exact ⟨hsec, hQ⟩
  | cons g rest ih =>
    simp only [run_rounds] at h
    split at h
    · split at h
      · rename_i hlen
        split at h
        · exact absurd h (by simp)
        · rename_i s2 hupd
          obtain ⟨guess, hguess, a1, _, _, _, _, a6, a7⟩ := update_facts opts _ s2 hupd
          dsimp only at hguess a1 a6 a7
          have hgg : guess = g := by
            simp only [List.getElem?_set, hlen, if_true] at hguess
            exact (Option.some.inj hguess).symm
          subst hgg
          have hQ2 : ∀ w col, s2.columns[w]? = some col → Q w col := by
            intro w col hcol
            by_cases hw : w < opts.words
            · obtain ⟨c, c1, hc, hu, hc1⟩ := a7 w hw
              rw [hc1] at hcol
              rw [← Option.some.inj hcol]
              rw [hsec] at hu
              exact hstep _ _ _ _ _ _ (hin guess (List.mem_cons_self _ _)) (hQ w c hc) hu
            · rw [a6 w (by omega)] at hcol
              exact hQ w col hcol
          split at h
          · simp only [Option.some.injEq] at h
            subst h
            exact ⟨a1.trans hsec, hQ2⟩
          · exact ih { s2 with round := s2.round + 1 }
              (fun x hx => hin x (List.mem_cons_of_mem _ hx)) (a1.trans hsec) h hQ2
      · exact absurd h (by simp)
    · simp only [Option.some.injEq] at h
      subst h
      exact ⟨hsec, hQ⟩

theorem pick_secrets_mem (d : dict) (rnd : Nat → Nat) (ws : List Nat)
    (secrets : List GoString) (h : pick_secrets d rnd ws = some secrets) :
    ∀ x ∈ secrets, x ∈ d.words := by
  induction ws generalizing secrets with
  | nil =>
    simp only [pick_secrets, Option.some.injEq] at h
    subst h
    simp
  | cons i rest ih =>
    simp only [pick_secrets] at h
    split at h
    · exact absurd h (by simp)
    · split at h
      · rename_i word secrets1 hword hrest
        simp only [Option.some.injEq] at h
        subst h
        intro x hx
        rcases List.mem_cons.1 hx with rfl | hx
        · exact List.getElem?_mem hword
        · exact ih secrets1 hrest x hx
      · exact absurd h (by simp)

theorem init_facts (opts : options) (d : dict) (rnd : Nat → Nat) (s0 : state)
    (h : state.init opts d rnd = some s0) :
    s0.columns = List.replicate opts.words (init_column opts (times 46 opts.chars)) ∧
    (∀ x ∈ s0.secrets, x ∈ d.words) ∧ s0.round = 0 ∧
    s0.empty_word = times 46 opts.chars := by
  simp only [state.init] at h
  split at h
  · exact absurd h (by simp)
  · rename_i secrets hpick
    simp only [Option.some.injEq] at h
    subst h
    exact ⟨rfl, pick_secrets_mem d rnd _ secrets hpick, rfl, rfl⟩

theorem init_column_of_mem (opts : options) (d : dict) (rnd : Nat → Nat) (s0 : state)
    (h : state.init opts d rnd = some s0) (w : Nat) (col : column)
    (hcol : s0.columns[w]? = some col) :
    col = init_column opts (times 46 opts.chars) := by
  rw [(init_facts opts d rnd s0 h).1] at hcol
  have := List.getElem?_mem hcol
  exact List.eq_of_mem_replicate this

/-! ## Claims about generate_hint -/

/-- C1: for a secret and a guess of `chars` code points and every letter `L`,
whenever `generate_hint` returns, the number of positions of the guess that
hold `L` and are flagged perfect or misplaced is at most the number of
occurrences of `L` in the secret; and `generate_hint` does return for every
guess of single-byte letters. -/
theorem generate_hint_classified_le_count (opts : options) (guess secret : GoString)
    (L : Rune) (hs : secret.length = opts.chars) (hg : guess.length = opts.chars) :
    (∀ r, generate_hint opts guess secret = some r →
      classified_count guess r.perfect_letters r.misplaced_letters L ≤ secret.count L) ∧
    ((∀ c ∈ guess, c < 128) → ∃ r, generate_hint opts guess secret = some r) := by
  refine ⟨?_, generate_hint_total_ascii opts guess secret hs hg⟩
  intro r h
  have h1 := (generate_hint_counts opts guess secret r hs hg h L).1
  have h2 := (classified_count_bounds guess r.perfect_letters r.misplaced_letters L).1
  omega

theorem generate_hint_classified_le_count_witness :
    ∃ r, generate_hint ⟨true, false, 6, 1, 4⟩ [65, 65, 66, 66] [65, 66, 67, 65] = some r ∧
      classified_count [65, 65, 66, 66] r.perfect_letters r.misplaced_letters 65 ≤
        List.count 65 [65, 66, 67, 65] := by
  have h := generate_hint_classified_le_count ⟨true, false, 6, 1, 4⟩ [65, 65, 66, 66]
    [65, 66, 67, 65] 65 rfl rfl
  obtain ⟨r, hr⟩ := h.2 (by decide)
  exact ⟨r, hr, h.1 r hr⟩

/-- C2: on the secret "ABCA" and the guess "AABB" the reference two-pass
algorithm of the specification yields Perfect, Misplaced, Misplaced, Absent,
while `generate_hint` yields Perfect, Absent, Misplaced, Absent (not solved
in both): its second pass also visits position 0, which is already perfect,
and spends the remaining `A` there. -/
theorem generate_hint_differs_from_reference :
    (generate_hint ⟨true, false, 6, 1, 4⟩ [65, 65, 66, 66] [65, 66, 67, 65]).map
        (fun r => (classifications r 4, r.solved, r.misplaced_letters)) =
      some ([classification.Perfect, classification.Absent, classification.Misplaced,
        classification.Absent], false, [true, false, true, false]) ∧
    spec_evaluate [65, 65, 66, 66] [65, 66, 67, 65] =
      ([classification.Perfect, classification.Misplaced, classification.Misplaced,
        classification.Absent], false) := by
  constructor <;> decide

/-- C3: for a secret and a guess of `chars` code points, whenever
`generate_hint` returns, position `i` is flagged perfect if and only if the
guess and the secret hold the same letter at `i`; and `generate_hint` does
return for every guess of single-byte letters. -/
theorem generate_hint_perfect_iff_match (opts : options) (guess secret : GoString)
    (hs : secret.length = opts.chars) (hg : guess.length = opts.chars) :
    (∀ r, generate_hint opts guess secret = some r →
      ∀ i, i < opts.chars →
        (r.perfect_letters.getD i false = true ↔ guess[i]? = secret[i]?)) ∧
    ((∀ c ∈ guess, c < 128) → ∃ r, generate_hint opts guess secret = some r) := by
  refine ⟨?_, generate_hint_total_ascii opts guess secret hs hg⟩
  intro r h i hi
  rw [generate_hint_perfect_iff opts guess secret r hs hg h i]
  have hgi : guess[i]? = some guess[i] := List.getElem?_eq_getElem (by omega)
  constructor
  · rintro ⟨c, hc, hr⟩
    rw [hc, hr]
  · intro heq
    exact ⟨guess[i], hgi, by rw [← heq, hgi]⟩

theorem generate_hint_perfect_iff_match_witness :
    ∃ r, generate_hint ⟨true, false, 6, 1, 4⟩ [65, 66, 66, 65] [66, 65, 66, 65] = some r ∧
      (r.perfect_letters.getD 3 false = true ↔
        ([65, 66, 66, 65] : GoString)[3]? = ([66, 65, 66, 65] : GoString)[3]?) := by
  have h := generate_hint_perfect_iff_match ⟨true, false, 6, 1, 4⟩ [65, 66, 66, 65]
    [66, 65, 66, 65] rfl rfl
  obtain ⟨r, hr⟩ := h.2 (by decide)
  exact ⟨r, hr, h.1 r hr 3 (by decide)⟩

/-- C4: for a secret and a guess of `chars` code points, whenever
`generate_hint` returns, `solved` is true if and only if every position is
flagged perfect; when the guess is the secret every position is perfect and
`solved` is true; and `generate_hint` does return for every guess of
single-byte letters. -/
theorem generate_hint_solved_iff_all_perfect (opts : options) (guess secret : GoString)
    (hs : secret.length = opts.chars) (hg : guess.length = opts.chars) :
    (∀ r, generate_hint opts guess secret = some r →
      (r.solved = true ↔ ∀ i, i < opts.chars → r.perfect_letters.getD i false = true) ∧
      (guess = secret →
        r.solved = true ∧ ∀ i, i < opts.chars → r.perfect_letters.getD i false = true)) ∧
    ((∀ c ∈ guess, c < 128) → ∃ r, generate_hint opts guess secret = some r) := by
  refine ⟨?_, generate_hint_total_ascii opts guess secret hs hg⟩
  intro r h
  have hiff : r.solved = true ↔ ∀ i, i < opts.chars → r.perfect_letters.getD i false = true := by
    rw [generate_hint_solved_iff opts guess secret r hs hg h]
    constructor
    · intro hall i hi
      rw [generate_hint_perfect_iff opts guess secret r hs hg h i]
      have hgi : guess[i]? = some guess[i] := List.getElem?_eq_getElem (by omega)
      exact ⟨guess[i], hgi, hall i _ hgi⟩
    · intro hall j c hc
      have hj : j < opts.chars := by
        by_contra hn
        rw [List.getElem?_eq_none (by omega)] at hc
        exact absurd hc (by simp)
      obtain ⟨c2, hc2, hr⟩ :=
        (generate_hint_perfect_iff opts guess secret r hs hg h j).1 (hall j hj)
      rw [hc] at hc2
      rw [Option.some.inj hc2]
      exact hr
  refine ⟨hiff, ?_⟩
  intro heq
  subst heq
  have hall : ∀ i, i < opts.chars → r.perfect_letters.getD i false = true := by
    intro i hi
    rw [generate_hint_perfect_iff opts guess guess r hs hg h i]
    exact ⟨guess[i], List.getElem?_eq_getElem (by omega), List.getElem?_eq_getElem (by omega)⟩
  exact ⟨hiff.2 hall, hall⟩

theorem generate_hint_solved_iff_all_perfect_witness :
    ∃ r, generate_hint ⟨true, false, 6, 1, 5⟩ [67, 82, 65, 78, 69] [67, 82, 65, 78, 69] =
        some r ∧
      r.solved = true ∧ ∀ i, i < 5 → r.perfect_letters.getD i false = true := by
  have h := generate_hint_solved_iff_all_perfect ⟨true, false, 6, 1, 5⟩
    [67, 82, 65, 78, 69] [67, 82, 65, 78, 69] rfl rfl
  obtain ⟨r, hr⟩ := h.2 (by decide)
  exact ⟨r, hr, (h.1 r hr).2 rfl⟩

/-- C10: with two code points per word, the guess "ÄB" (code points 196, 66;
the first takes two bytes) against the secret "ÄB" makes `generate_hint`
index `runes_secret` at byte offset 2, out of range, and `state.update`
fails with it; the same words in single-byte letters are evaluated. -/
theorem generate_hint_fails_on_multibyte_guess :
    generate_hint ⟨false, false, 6, 1, 2⟩ [196, 66] [196, 66] = none ∧
    range_string [196, 66] = [(0, 196), (2, 66)] ∧
    ((state.init ⟨false, false, 6, 1, 2⟩ ⟨[[196, 66]], [66, 196]⟩ (fun _ => 0)).bind
      (fun s => (run_rounds ⟨false, false, 6, 1, 2⟩ [[196, 66]] s).map (fun _ => ()))) = none ∧
    (generate_hint ⟨false, false, 6, 1, 2⟩ [65, 66] [65, 66]).isSome = true := by
  refine ⟨by decide, by decide, by decide, by decide⟩

/-! ## Claims about state.update -/

/-- C5: start from `state.init` and play any rounds; once a letter `L` is
known in a column (non-empty position set in `perfect_letters` or positive
count in `contained_letters`), `L` is not among that column's
`wrong_letters`, neither then nor after any further rounds, whatever the
guesses are. -/
theorem known_letter_never_wrong (opts : options) (d : dict) (rnd : Nat → Nat)
    (inputs1 inputs2 : List GoString) (s0 s1 s2 : state) (w : Nat) (c1 c2 : column)
    (L : Rune) (h0 : state.init opts d rnd = some s0)
    (h1 : run_rounds opts inputs1 s0 = some s1) (h2 : run_rounds opts inputs2 s1 = some s2)
    (hc1 : s1.columns[w]? = some c1) (hc2 : s2.columns[w]? = some c2)
    (hknown : known_letter c1 L) : c2.wrong_letters L = none := by
  have hinit : ∀ (w : Nat) (col : column), s0.columns[w]? = some col → known_not_wrong col := by
    intro w col hcol
    rw [init_column_of_mem opts d rnd s0 h0 w col hcol]
    intro L hL
    rcases hL with hL | hL
    · exact absurd rfl hL
    · exact absurd hL (by simp [init_column, map_get, map_empty])
  have hinv1 := (run_rounds_invariant opts s0.secrets (fun _ => True)
    (fun _ col => known_not_wrong col)
    (fun ew round g w col col1 _ hq hu =>
      (update_column_known opts ew s0.secrets round g w col col1 hu).1 hq)
    inputs1 s0 s1 (fun _ _ => trivial) rfl h1 hinit)
  have hinv2 := (run_rounds_invariant opts s0.secrets (fun _ => True)
    (fun w col => known_not_wrong col ∧
      ∀ c, s1.columns[w]? = some c → known_letter c L → known_letter col L)
    (fun ew round g w col col1 _ hq hu =>
      ⟨(update_column_known opts ew s0.secrets round g w col col1 hu).1 hq.1,
        fun c hc hk =>
          (update_column_known opts ew s0.secrets round g w col col1 hu).2 L (hq.2 c hc hk)⟩)
    inputs2 s1 s2 (fun _ _ => trivial) hinv1.1 h2
    (fun w col hcol => ⟨hinv1.2 w col hcol, fun c hc hk => by
      rw [hcol] at hc
      exact (Option.some.inj hc) ▸ hk⟩)).2 w c2 hc2
  exact hinv2.1 L (hinv2.2 c1 hc1 hknown)

theorem known_letter_never_wrong_witness :
    ∃ s0 s1 s2 c1 c2,
      state.init ⟨true, false, 6, 1, 5⟩ ⟨[[65, 66, 67, 68, 69]], [65, 66, 67, 68, 69]⟩
          (fun _ => 0) = some s0 ∧
      run_rounds ⟨true, false, 6, 1, 5⟩ [[65, 88, 88, 88, 88]] s0 = some s1 ∧
      run_rounds ⟨true, false, 6, 1, 5⟩ [[88, 65, 88, 88, 65]] s1 = some s2 ∧
      s1.columns[0]? = some c1 ∧ s2.columns[0]? = some c2 ∧
      known_letter c1 65 ∧ c2.wrong_letters 65 = none := by
  refine ⟨_, _, _, _, _, rfl, rfl, rfl, rfl, rfl, Or.inl (by decide), ?_⟩
  exact known_letter_never_wrong ⟨true, false, 6, 1, 5⟩
    ⟨[[65, 66, 67, 68, 69]], [65, 66, 67, 68, 69]⟩ (fun _ => 0)
    [[65, 88, 88, 88, 88]] [[88, 65, 88, 88, 65]] _ _ _ 0 _ _ 65 rfl rfl rfl rfl rfl
    (Or.inl (by decide))

/-- C6: start from `state.init` on a dictionary of words of `chars` code
points and play any rounds with guesses of `chars` code points; every letter
in a column's `wrong_letters` has no occurrence in that column's secret. -/
theorem wrong_letters_absent_from_secret (opts : options) (d : dict) (rnd : Nat → Nat)
    (inputs : List GoString) (s0 s : state) (w : Nat) (col : column) (secret : GoString)
    (L : Rune) (hdict : ∀ x ∈ d.words, x.length = opts.chars)
    (hin : ∀ g ∈ inputs, g.length = opts.chars)
    (h0 : state.init opts d rnd = some s0) (h1 : run_rounds opts inputs s0 = some s)
    (hcol : s.columns[w]? = some col) (hsec : s.secrets[w]? = some secret)
    (hwrong : col.wrong_letters L ≠ none) : secret.count L = 0 := by
  have hlen : ∀ x ∈ s0.secrets, x.length = opts.chars :=
    fun x hx => hdict x ((init_facts opts d rnd s0 h0).2.1 x hx)
  have hinit : ∀ (w : Nat) (col : column), s0.columns[w]? = some col →
      ∀ sec, s0.secrets[w]? = some sec → wrong_absent sec col := by
    intro w col hcol sec _
    rw [init_column_of_mem opts d rnd s0 h0 w col hcol]
    intro L hL
    exact absurd rfl hL
  have hinv := run_rounds_invariant opts s0.secrets (fun g => g.length = opts.chars)
    (fun w col => ∀ sec, s0.secrets[w]? = some sec → wrong_absent sec col)
    (fun ew round g w col col1 hg hq hu sec hsec =>
      update_column_wrong_absent opts ew s0.secrets round g w col col1 sec hsec
        (hlen sec (List.getElem?_mem hsec)) hg hu (hq sec hsec))
    inputs s0 s hin rfl h1 hinit
  rw [hinv.1] at hsec
  exact hinv.2 w col hcol secret hsec L hwrong

theorem wrong_letters_absent_from_secret_witness :
    ∃ s0 s col,
      state.init ⟨true, false, 6, 1, 5⟩ ⟨[[65, 66, 67, 68, 69]], [65, 66, 67, 68, 69]⟩
          (fun _ => 0) = some s0 ∧
      run_rounds ⟨true, false, 6, 1, 5⟩ [[65, 88, 88, 88, 88], [88, 65, 88, 88, 65]] s0 =
        some s ∧
      s.columns[0]? = some col ∧ col.wrong_letters 88 ≠ none ∧
      List.count 88 [65, 66, 67, 68, 69] = 0 := by
  refine ⟨_, _, _, rfl, rfl, rfl, by decide, ?_⟩
  exact wrong_letters_absent_from_secret ⟨true, false, 6, 1, 5⟩
    ⟨[[65, 66, 67, 68, 69]], [65, 66, 67, 68, 69]⟩ (fun _ => 0)
    [[65, 88, 88, 88, 88], [88, 65, 88, 88, 65]] _ _ 0 _ [65, 66, 67, 68, 69] 88
    (by decide) (by decide) rfl rfl rfl rfl (by decide)

/-- C7: in a round of `state.update` on words of `chars` code points, for a
column that is unsolved after the round, the contained count of every letter
`L` of the guess becomes the maximum of its previous value and the number of
positions of `L` classified Perfect or Misplaced in this round; the entry of
every other letter is unchanged; so no count decreases. -/
theorem update_contained_is_max (opts : options) (s s1 : state) (guess secret : GoString)
    (w : Nat) (col col1 : column) (hw : w < opts.words)
    (hguess : s.guesses[s.round]? = some guess) (hg : guess.length = opts.chars)
    (hsec : s.secrets[w]? = some secret) (hs : secret.length = opts.chars)
    (hu : state.update opts s = some s1)
    (hcol : s.columns[w]? = some col) (hcol1 : s1.columns[w]? = some col1)
    (hunsolved : col1.solved = false) :
    ∃ r, generate_hint opts guess secret = some r ∧
      ∀ L, (L ∈ guess → map_get col1.contained_letters L =
          max (map_get col.contained_letters L)
            (classified_count guess r.perfect_letters r.misplaced_letters L)) ∧
        (L ∉ guess → col1.contained_letters L = col.contained_letters L) ∧
        map_get col.contained_letters L ≤ map_get col1.contained_letters L := by
  obtain ⟨guess2, hguess2, _, _, _, _, _, _, a7⟩ := update_facts opts s s1 hu
  rw [hguess] at hguess2
  have := Option.some.inj hguess2
  subst this
  obtain ⟨c, c1, hc, hupd, hc1⟩ := a7 w hw
  rw [hcol] at hc
  rw [hcol1] at hc1
  have e1 := Option.some.inj hc
  have e2 := Option.some.inj hc1
  subst e1 e2
  exact update_column_contained opts s.empty_word s.secrets s.round guess w col col1 secret
    hsec hs hg hupd hunsolved

theorem update_contained_is_max_witness :
    ∃ s0 s s1 col col1,
      state.init ⟨true, false, 6, 1, 5⟩ ⟨[[65, 66, 65, 67, 75]], [65, 66, 67, 75]⟩
          (fun _ => 0) = some s0 ∧
      run_rounds ⟨true, false, 6, 1, 5⟩ [[75, 65, 89, 65, 75]] s0 = some s ∧
      state.update ⟨true, false, 6, 1, 5⟩
        { s with guesses := s.guesses.set s.round [65, 68, 68, 69, 68] } = some s1 ∧
      s.columns[0]? = some col ∧ s1.columns[0]? = some col1 ∧
      map_get col.contained_letters 65 = 2 ∧
      ∃ r, generate_hint ⟨true, false, 6, 1, 5⟩ [65, 68, 68, 69, 68] [65, 66, 65, 67, 75] =
          some r ∧
        ∀ L, (L ∈ ([65, 68, 68, 69, 68] : GoString) → map_get col1.contained_letters L =
            max (map_get col.contained_letters L)
              (classified_count [65, 68, 68, 69, 68] r.perfect_letters r.misplaced_letters L)) ∧
          (L ∉ ([65, 68, 68, 69, 68] : GoString) →
            col1.contained_letters L = col.contained_letters L) ∧
          map_get col.contained_letters L ≤ map_get col1.contained_letters L := by
  obtain ⟨s0, s, s1, col, col1, h0, h1, h2, h3, h4, h5, h6, h7, h8, h9⟩ :
      ∃ s0 s s1 col col1,
        state.init ⟨true, false, 6, 1, 5⟩ ⟨[[65, 66, 65, 67, 75]], [65, 66, 67, 75]⟩
            (fun _ => 0) = some s0 ∧
        run_rounds ⟨true, false, 6, 1, 5⟩ [[75, 65, 89, 65, 75]] s0 = some s ∧
        state.update ⟨true, false, 6, 1, 5⟩
          { s with guesses := s.guesses.set s.round [65, 68, 68, 69, 68] } = some s1 ∧
        s.columns[0]? = some col ∧ s1.columns[0]? = some col1 ∧
        map_get col.contained_letters 65 = 2 ∧
        (s.guesses.set s.round [65, 68, 68, 69, 68])[s.round]? = some [65, 68, 68, 69, 68] ∧
        s.secrets[0]? = some [65, 66, 65, 67, 75] ∧ col1.solved = false ∧ True :=
    by refine ⟨_, _, _, _, _, rfl, rfl, rfl, rfl, rfl, ?_, ?_, ?_, ?_, trivial⟩ <;> rfl
  exact ⟨s0, s, s1, col, col1, h0, h1, h2, h3, h4, h5,
    update_contained_is_max ⟨true, false, 6, 1, 5⟩
      { s with guesses := s.guesses.set s.round [65, 68, 68, 69, 68] } s1 [65, 68, 68, 69, 68]
      [65, 66, 65, 67, 75] 0 col col1 (by decide) h6 rfl h7 rfl h2 h3 h4 h8⟩

/-- C8: with the secret "ABACK" the guesses "ADDED" and "SHAME" leave the
column unsolved with `contained_letters['A'] = 1` while `perfect_letters['A']`
holds the two positions 0 and 2 (`ones()` = 2): the contained count is below
the number of perfect positions. -/
theorem contained_below_perfect_count :
    ((state.init ⟨true, false, 6, 1, 5⟩ ⟨[[65, 66, 65, 67, 75]], [65, 66, 67, 75]⟩
        (fun _ => 0)).bind
      (run_rounds ⟨true, false, 6, 1, 5⟩ [[65, 68, 68, 69, 68], [83, 72, 65, 77, 69]])).map
      (fun s => s.columns.map (fun c =>
        (c.solved, map_get c.contained_letters 65, map_get_bits c.perfect_letters 65,
          bitfield.ones (map_get_bits c.perfect_letters 65)))) =
      some [(false, 1, 5, some 2)] := by
  decide

/-- C9: when column `w` is solved, `state.update` leaves it solved, writes
`empty_word` as its hint of the current round and leaves its
`perfect_letters`, `contained_letters` and `wrong_letters` unchanged;
`empty_word` is kept by the update and is `chars` dots from `state.init` on;
the loop body for such a column never fails within the hint rows. -/
theorem update_keeps_solved_column (opts : options) (s s1 : state) (w : Nat) (col : column)
    (hw : w < opts.words) (hu : state.update opts s = some s1)
    (hcol : s.columns[w]? = some col) (hsolved : col.solved = true) :
    (∃ col1, s1.columns[w]? = some col1 ∧ col1.solved = true ∧
      col1.hints = col.hints.set s.round s.empty_word ∧
      col1.hints[s.round]? = some s.empty_word ∧
      col1.perfect_letters = col.perfect_letters ∧
      col1.contained_letters = col.contained_letters ∧
      col1.wrong_letters = col.wrong_letters) ∧
    s1.empty_word = s.empty_word ∧
    (∀ d rnd s0, state.init opts d rnd = some s0 →
      s0.empty_word = List.replicate opts.chars 46) ∧
    (∀ guess, s.round < col.hints.length →
      update_column opts s.empty_word s.secrets s.round guess w col =
        some { col with hints := col.hints.set s.round s.empty_word }) := by
  obtain ⟨guess, _, _, _, _, a4, _, _, a7⟩ := update_facts opts s s1 hu
  obtain ⟨c, c1, hc, hupd, hc1⟩ := a7 w hw
  rw [hcol] at hc
  have e1 := Option.some.inj hc
  subst e1
  have hround := update_column_round _ _ _ _ _ _ _ _ hupd
  rw [update_column_solved opts s.empty_word s.secrets s.round guess w col hsolved hround]
    at hupd
  have e2 := Option.some.inj hupd
  subst e2
  refine ⟨⟨_, hc1, hsolved, rfl, ?_, rfl, rfl, rfl⟩, a4, ?_, ?_⟩
  · simp [List.getElem?_set, hround]
  · intro d rnd s0 h0
    exact (init_facts opts d rnd s0 h0).2.2.2
  · intro g hr
    exact update_column_solved opts s.empty_word s.secrets s.round g w col hsolved hr

theorem update_keeps_solved_column_witness :
    ∃ s0 s s1 col,
      state.init ⟨true, false, 6, 2, 2⟩ ⟨[[65, 66], [67, 68]], [65, 66, 67, 68]⟩
          (fun i => i) = some s0 ∧
      run_rounds ⟨true, false, 6, 2, 2⟩ [[65, 66]] s0 = some s ∧
      state.update ⟨true, false, 6, 2, 2⟩
        { s with guesses := s.guesses.set s.round [67, 65] } = some s1 ∧
      s.columns[0]? = some col ∧ col.solved = true ∧ s.round = 1 ∧
      s.empty_word = [46, 46] ∧
      ∃ col1, s1.columns[0]? = some col1 ∧ col1.solved = true ∧
        col1.hints = col.hints.set s.round s.empty_word ∧
        col1.hints[s.round]? = some s.empty_word ∧
        col1.perfect_letters = col.perfect_letters ∧
        col1.contained_letters = col.contained_letters ∧
        col1.wrong_letters = col.wrong_letters := by
  obtain ⟨s0, s, s1, col, h0, h1, h2, h3, h4, h5, h6, _⟩ :
      ∃ s0 s s1 col,
        state.init ⟨true, false, 6, 2, 2⟩ ⟨[[65, 66], [67, 68]], [65, 66, 67, 68]⟩
            (fun i => i) = some s0 ∧
        run_rounds ⟨true, false, 6, 2, 2⟩ [[65, 66]] s0 = some s ∧
        state.update ⟨true, false, 6, 2, 2⟩
          { s with guesses := s.guesses.set s.round [67, 65] } = some s1 ∧
        s.columns[0]? = some col ∧ col.solved = true ∧ s.round = 1 ∧
        s.empty_word = [46, 46] ∧ True := by
    refine ⟨_, _, _, _, rfl, rfl, rfl, rfl, ?_, ?_, ?_, trivial⟩ <;> rfl
  exact ⟨s0, s, s1, col, h0, h1, h2, h3, h4, h5, h6,
    (update_keeps_solved_column ⟨true, false, 6, 2, 2⟩
      { s with guesses := s.guesses.set s.round [67, 65] } s1 0 col (by decide) h2 h3 h4).1⟩

/-! ## The hint rows -/

theorem update_words_frame (opts : options) (guess : GoString) (ws : List Nat)
    (s s1 : state) (h : update_words opts guess ws s = some s1) :
    s1.separator_left = s.separator_left ∧ s1.separator_right = s.separator_right ∧
    s1.separator_between = s.separator_between ∧ s1.exit = s.exit ∧
    s1.padding = s.padding ∧ s1.empty_letters = s.empty_letters ∧
    s1.horizontal_line = s.horizontal_line := by
  induction ws generalizing s with
  | nil =>
    simp only [update_words, Option.some.injEq] at h
    subst h
    simp
  | cons w0 rest ih =>
    simp only [update_words] at h
    split at h
    · exact absurd h (by simp)
    · split at h
      · exact absurd h (by simp)
      · have key := ih _ h
        exact key

theorem update_frame (opts : options) (s s1 : state) (h : state.update opts s = some s1) :
    s1.separator_left = s.separator_left ∧ s1.separator_right = s.separator_right ∧
    s1.separator_between = s.separator_between ∧ s1.exit = s.exit ∧
    s1.padding = s.padding ∧ s1.empty_letters = s.empty_letters ∧
    s1.horizontal_line = s.horizontal_line := by
  simp only [state.update] at h
  split at h
  · exact absurd h (by simp)
  · have key := update_words_frame opts _ _ _ s1 h
    exact key

/-- The round update of a column replaces the hint of the current round and
no other. -/
theorem update_column_hints (opts : options) (empty_word : GoString)
    (secrets : List GoString) (round : Nat) (guess : GoString) (w : Nat) (col col1 : column)
    (h : update_column opts empty_word secrets round guess w col = some col1) :
    ∃ hint, col1.hints = col.hints.set round hint := by
  have hround := update_column_round opts empty_word secrets round guess w col col1 h
  cases hsolved : col.solved with
  | true =>
    rw [update_column_solved opts empty_word secrets round guess w col hsolved hround] at h
    simp only [Option.some.injEq] at h
    subst h
    exact ⟨empty_word, rfl⟩
  | false =>
    obtain ⟨secret, r, _, _, hcase⟩ :=
      update_column_unsolved opts empty_word secrets round guess w col col1 hsolved h
    rcases hcase with ⟨_, hcol⟩ | ⟨_, col2, temp, hul, hcol⟩
    · subst hcol
      exact ⟨r.hint, rfl⟩
    · obtain ⟨c1, _, _, _⟩ := update_letters_counts _ _ _ _ _ hul
        (fun L => by simp [map_get_empty])
      obtain ⟨m1, _⟩ := merge_contained_facts temp (range_string guess) col2
      subst hcol
      exact ⟨r.hint, by rw [m1, c1]⟩

/-- After `state.update` every column has the hints it had, except at the
index of the current round. -/
theorem update_hints_frame (opts : options) (s s1 : state)
    (h : state.update opts s = some s1) (w : Nat) (col col1 : column)
    (hcol : s.columns[w]? = some col) (hcol1 : s1.columns[w]? = some col1) :
    col1.hints.length = col.hints.length ∧
      ∀ r, r ≠ s.round → col1.hints[r]? = col.hints[r]? := by
  obtain ⟨guess, _, _, _, _, _, _, a6, a7⟩ := update_facts opts s s1 h
  by_cases hw : w < opts.words
  · obtain ⟨c, c1, hc, hupd, hc1⟩ := a7 w hw
    rw [hcol] at hc
    rw [hcol1] at hc1
    have e1 := Option.some.inj hc
    have e2 := Option.some.inj hc1
    subst e1 e2
    obtain ⟨hint, hh⟩ := update_column_hints _ _ _ _ _ _ _ _ hupd
    rw [hh]
    refine ⟨by simp, ?_⟩
    intro r hr
    simp [List.getElem?_set, Ne.symm hr]
  · rw [a6 w (by omega), hcol] at hcol1
    have e := Option.some.inj hcol1
    subst e
    exact ⟨rfl, fun _ _ => rfl⟩

theorem render_row_cells_congr (s s1 : state) (r : Nat)
    (hsep : s1.separator_between = s.separator_between)
    (hcols : ∀ w : Nat, (s1.columns[w]?).bind (fun c : column => c.hints[r]?) =
      (s.columns[w]?).bind (fun c : column => c.hints[r]?))
    (cs : List Nat) (output : GoString) :
    render_row_cells s1 r cs output = render_row_cells s r cs output := by
  induction cs generalizing output with
  | nil => rfl
  | cons c rest ih =>
    have hc := hcols c
    simp only [render_row_cells]
    cases h1 : s1.columns[c]? with
    | none =>
      cases h0 : s.columns[c]? with
      | none => rfl
      | some col0 =>
        simp only [h1, h0, Option.none_bind, Option.some_bind] at hc
        simp only [← hc]
    | some col1 =>
      cases h0 : s.columns[c]? with
      | none =>
        simp only [h1, h0, Option.none_bind, Option.some_bind] at hc
        simp only [hc]
      | some col0 =>
        simp only [h1, h0, Option.some_bind] at hc
        simp only [hc, hsep]
        cases col0.hints[r]? with
        | none => rfl
        | some hint => exact ih _

theorem render_row_congr (s s1 : state) (r : Nat)
    (hlen : s1.columns.length = s.columns.length)
    (hl : s1.separator_left = s.separator_left)
    (hr : s1.separator_right = s.separator_right)
    (hb : s1.separator_between = s.separator_between)
    (hcols : ∀ w : Nat, (s1.columns[w]?).bind (fun c : column => c.hints[r]?) =
      (s.columns[w]?).bind (fun c : column => c.hints[r]?)) :
    render_row s1 r = render_row s r := by
  have hc := hcols (s.columns.length - 1)
  simp only [render_row, hlen, hl, hr, render_row_cells_congr s s1 r hb hcols]
  cases render_row_cells s r (List.range (s.columns.length - 1)) s.separator_left with
  | none => rfl
  | some output =>
    simp only
    by_cases h0 : s.columns.length = 0
    · simp [h0]
    · simp only [h0, if_false]
      cases h1 : s1.columns[s.columns.length - 1]? with
      | none =>
        cases h2 : s.columns[s.columns.length - 1]? with
        | none => rfl
        | some col0 =>
          simp only [h1, h2, Option.none_bind, Option.some_bind] at hc
          simp only [← hc]
      | some col1 =>
        cases h2 : s.columns[s.columns.length - 1]? with
        | none =>
          simp only [h1, h2, Option.none_bind, Option.some_bind] at hc
          simp only [hc]
        | some col0 =>
          simp only [h1, h2, Option.some_bind] at hc
          simp only [hc]

/-! ## Claims about the round history -/

/-- C11: `state.update` changes the hints list of every column only at the
index `round`: the list keeps its length and the hint of every other round,
played or still a placeholder, is the same before and after; hence the row
that `state.render` writes for every other round is the same before and
after. -/
theorem update_changes_hints_only_at_round (opts : options) (s s1 : state)
    (hu : state.update opts s = some s1) :
    s1.columns.length = s.columns.length ∧
    (∀ (w : Nat) (col col1 : column),
      s.columns[w]? = some col → s1.columns[w]? = some col1 →
        col1.hints.length = col.hints.length ∧
          ∀ r, r ≠ s.round → col1.hints[r]? = col.hints[r]?) ∧
    (∀ r, r ≠ s.round → render_row s1 r = render_row s r) := by
  obtain ⟨_, _, _, _, _, _, hlen, _, _⟩ := update_facts opts s s1 hu
  obtain ⟨hl, hr, hb, _⟩ := update_frame opts s s1 hu
  refine ⟨hlen, fun w col col1 hcol hcol1 => update_hints_frame opts s s1 hu w col col1 hcol hcol1,
    ?_⟩
  intro r hne
  apply render_row_congr s s1 r hlen hl hr hb
  intro w
  cases h0 : s.columns[w]? with
  | none =>
    have hw : s.columns.length ≤ w := by
      by_contra hn
      rw [List.getElem?_eq_getElem (by omega)] at h0
      exact absurd h0 (by simp)
    rw [List.getElem?_eq_none (by omega)]
  | some col =>
    have hw : w < s1.columns.length := by
      by_contra hn
      rw [List.getElem?_eq_none (by omega)] at h0
      exact absurd h0 (by simp)
    rw [List.getElem?_eq_getElem hw]
    simp only [Option.some_bind]
    exact (update_hints_frame opts s s1 hu w col _ h0 (List.getElem?_eq_getElem hw)).2 r hne

theorem update_changes_hints_only_at_round_witness :
    ∃ s0 s s1,
      state.init ⟨true, false, 6, 1, 5⟩ ⟨[[67, 82, 65, 78, 69]], [65, 67, 69, 78, 82]⟩
          (fun _ => 0) = some s0 ∧
      run_rounds ⟨true, false, 6, 1, 5⟩ [[83, 76, 65, 84, 69]] s0 = some s ∧
      state.update ⟨true, false, 6, 1, 5⟩
        { s with guesses := s.guesses.set s.round [67, 82, 65, 90, 69] } = some s1 ∧
      s.round = 1 ∧
      render_row s1 0 =
        render_row { s with guesses := s.guesses.set s.round [67, 82, 65, 90, 69] } 0 ∧
      render_row s1 5 =
        render_row { s with guesses := s.guesses.set s.round [67, 82, 65, 90, 69] } 5 := by
  obtain ⟨s0, s, s1, h0, h1, h2, h3, _⟩ :
      ∃ s0 s s1,
        state.init ⟨true, false, 6, 1, 5⟩ ⟨[[67, 82, 65, 78, 69]], [65, 67, 69, 78, 82]⟩
            (fun _ => 0) = some s0 ∧
        run_rounds ⟨true, false, 6, 1, 5⟩ [[83, 76, 65, 84, 69]] s0 = some s ∧
        state.update ⟨true, false, 6, 1, 5⟩
          { s with guesses := s.guesses.set s.round [67, 82, 65, 90, 69] } = some s1 ∧
        s.round = 1 ∧ True := by
    refine ⟨_, _, _, rfl, rfl, rfl, ?_, trivial⟩
    rfl
  have h := (update_changes_hints_only_at_round ⟨true, false, 6, 1, 5⟩
    { s with guesses := s.guesses.set s.round [67, 82, 65, 90, 69] } s1 h2).2.2
  exact ⟨s0, s, s1, h0, h1, h2, h3, h 0 (by simp [h3]), h 5 (by simp [h3])⟩

/-! ## Positions in a bitfield -/

theorem and_two_pow_ne_zero_iff (b j : Nat) : b &&& 2 ^ j ≠ 0 ↔ b.testBit j = true := by
  constructor
  · intro h
    obtain ⟨i, hi⟩ := Nat.ne_zero_implies_bit_true h
    rw [Nat.testBit_and, Nat.testBit_two_pow] at hi
    simp only [Bool.and_eq_true, decide_eq_true_eq] at hi
    rw [hi.2]
    exact hi.1
  · intro h h0
    have : (b &&& 2 ^ j).testBit j = true := by
      rw [Nat.testBit_and, Nat.testBit_two_pow_self, h]
      rfl
    rw [h0] at this
    simp at this

/-- Test of a position: the position is below 32 and its bit is set. -/
theorem bitfield_get_iff (b : bitfield) (j : Nat) :
    bitfield.get b j = true ↔ j < 32 ∧ b.testBit j = true := by
  unfold bitfield.get bitfield.bit
  by_cases hj : j < 32
  · simp only [hj, if_true, true_and, bne_iff_ne]
    exact and_two_pow_ne_zero_iff b j
  · simp [hj]

/-- Setting a position below 32 records it and keeps the recorded ones. -/
theorem bitfield_get_set (b : bitfield) (i j : Nat) :
    bitfield.get (bitfield.set b i true) j = true ↔
      bitfield.get b j = true ∨ (j = i ∧ i < 32) := by
  rw [bitfield_get_iff, bitfield_get_iff]
  simp only [bitfield.set, if_true, bitfield.bit]
  by_cases hi : i < 32
  · simp only [hi, if_true, Nat.testBit_or, Nat.testBit_two_pow, Bool.or_eq_true,
      decide_eq_true_eq, and_true]
    constructor
    · rintro ⟨hj, h | h⟩
      · exact Or.inl ⟨hj, h⟩
      · exact Or.inr h.symm
    · rintro (⟨hj, h⟩ | h)
      · exact ⟨hj, Or.inl h⟩
      · exact ⟨by omega, Or.inr h.symm⟩
  · simp [hi]

/-- One iteration of the first loop of the letter update, seen from
`perfect_letters`: a perfect position is set in the entry of its letter and
nothing else changes. -/
theorem update_letters_step_perfect (pf mp : List Bool) (i : Nat) (letter : Rune)
    (rest : List (Nat × Rune)) (col : column) (temp : Rune → Option Int)
    (res : column × (Rune → Option Int))
    (h : update_letters pf mp ((i, letter) :: rest) (col, temp) = some res) :
    ∃ col1 temp1, update_letters pf mp rest (col1, temp1) = some res ∧
      col1.perfect_letters =
        if pf.getD i false = true then
          map_set col.perfect_letters letter
            (bitfield.set (map_get_bits col.perfect_letters letter) i true)
        else col.perfect_letters := by
  simp only [update_letters] at h
  split at h
  · exact absurd h (by simp)
  · rename_i hp
    have hpf : pf.getD i false = true := by simp [List.getD_eq_getElem?_getD, hp]
    exact ⟨_, _, h, by rw [if_pos hpf]⟩
  · rename_i hp
    have hpf : ¬ pf.getD i false = true := by simp [List.getD_eq_getElem?_getD, hp]
    split at h
    · exact absurd h (by simp)
    · exact ⟨_, _, h, by rw [if_neg hpf]⟩
    · split at h
      · exact ⟨_, _, h, by rw [if_neg hpf]⟩
      · exact ⟨_, _, h, by rw [if_neg hpf]⟩

/-- The first loop of the letter update keeps every recorded position and
records every perfect position below 32 under its letter. -/
theorem update_letters_perfect (pf mp : List Bool) (ps : List (Nat × Rune))
    (st res : column × (Rune → Option Int))
    (h : update_letters pf mp ps st = some res) :
    (∀ L j, bitfield.get (map_get_bits st.1.perfect_letters L) j = true →
      bitfield.get (map_get_bits res.1.perfect_letters L) j = true) ∧
    (∀ p ∈ ps, pf.getD p.1 false = true → p.1 < 32 →
      bitfield.get (map_get_bits res.1.perfect_letters p.2) p.1 = true) := by
  induction ps generalizing st with
  | nil =>
    simp only [update_letters, Option.some.injEq] at h
    subst h
    simp
  | cons p ps ih =>
    obtain ⟨i, letter⟩ := p
    obtain ⟨col, temp⟩ := st
    obtain ⟨col1, temp1, h1, hp⟩ := update_letters_step_perfect pf mp i letter ps col temp res h
    obtain ⟨a1, a2⟩ := ih (col1, temp1) h1
    dsimp only at a1 a2 ⊢
    have hmono : ∀ L j, bitfield.get (map_get_bits col.perfect_letters L) j = true →
        bitfield.get (map_get_bits col1.perfect_letters L) j = true := by
      intro L j hget
      rw [hp]
      split
      · by_cases hL : L = letter
        · subst hL
          simp only [map_get_bits, map_set, if_true, Option.getD_some]
          exact (bitfield_get_set _ i j).2 (Or.inl hget)
        · simpa [map_get_bits, map_set, hL] using hget
      · exact hget
    refine ⟨fun L j hget => a1 L j (hmono L j hget), ?_⟩
    intro q hq hpf hlt
    rcases List.mem_cons.1 hq with rfl | hq
    · apply a1
      rw [hp, if_pos hpf]
      simp only [map_get_bits, map_set, if_true, Option.getD_some]
      exact (bitfield_get_set _ i i).2 (Or.inr ⟨rfl, hlt⟩)
    · exact a2 q hq hpf hlt

/-- The round update of a column keeps every recorded perfect position, and
when it leaves the column unsolved it records the perfect positions below 32
of the round. -/
theorem update_column_perfect (opts : options) (empty_word : GoString)
    (secrets : List GoString) (round : Nat) (guess : GoString) (w : Nat) (col col1 : column)
    (h : update_column opts empty_word secrets round guess w col = some col1) :
    (∀ L j, bitfield.get (map_get_bits col.perfect_letters L) j = true →
      bitfield.get (map_get_bits col1.perfect_letters L) j = true) ∧
    (col1.solved = false → ∀ secret r, secrets[w]? = some secret →
      generate_hint opts guess secret = some r →
      ∀ p ∈ range_string guess, r.perfect_letters.getD p.1 false = true → p.1 < 32 →
        bitfield.get (map_get_bits col1.perfect_letters p.2) p.1 = true) := by
  have hround := update_column_round opts empty_word secrets round guess w col col1 h
  cases hsolved : col.solved with
  | true =>
    rw [update_column_solved opts empty_word secrets round guess w col hsolved hround] at h
    simp only [Option.some.injEq] at h
    subst h
    refine ⟨fun L j hget => hget, ?_⟩
    intro hun
    simp only [hsolved] at hun
    exact absurd hun (by simp)
  | false =>
    obtain ⟨secret, r, hsec, hgen, hcase⟩ :=
      update_column_unsolved opts empty_word secrets round guess w col col1 hsolved h
    rcases hcase with ⟨_, hcol⟩ | ⟨_, col2, temp, hul, hcol⟩
    · subst hcol
      refine ⟨fun L j hget => hget, ?_⟩
      intro hun
      exact absurd hun (by simp)
    · obtain ⟨p1, p2⟩ := update_letters_perfect _ _ _ _ _ hul
      obtain ⟨_, _, _, m4, _⟩ := merge_contained_facts temp (range_string guess) col2
      dsimp only at p1 p2
      subst hcol
      rw [m4]
      refine ⟨p1, ?_⟩
      intro _ secret2 r2 hsec2 hgen2
      rw [hsec] at hsec2
      have e := Option.some.inj hsec2
      subst e
      rw [hgen] at hgen2
      have e2 := Option.some.inj hgen2
      subst e2
      exact p2

/-- A column that is solved after the round update, by this round or an
earlier one, keeps its three letter maps as they were. -/
theorem update_column_solved_after (opts : options) (empty_word : GoString)
    (secrets : List GoString) (round : Nat) (guess : GoString) (w : Nat) (col col1 : column)
    (h : update_column opts empty_word secrets round guess w col = some col1)
    (hsolved1 : col1.solved = true) :
    col1.perfect_letters = col.perfect_letters ∧
    col1.contained_letters = col.contained_letters ∧
    col1.wrong_letters = col.wrong_letters := by
  have hround := update_column_round opts empty_word secrets round guess w col col1 h
  cases hsolved : col.solved with
  | true =>
    rw [update_column_solved opts empty_word secrets round guess w col hsolved hround] at h
    simp only [Option.some.injEq] at h
    subst h
    exact ⟨rfl, rfl, rfl⟩
  | false =>
    obtain ⟨secret2, r, _, _, hcase⟩ :=
      update_column_unsolved opts empty_word secrets round guess w col col1 hsolved h
    rcases hcase with ⟨_, hcol⟩ | ⟨_, col2, temp, hul, hcol⟩
    · subst hcol
      exact ⟨rfl, rfl, rfl⟩
    · obtain ⟨_, c2, _, _⟩ := update_letters_counts _ _ _ _ _ hul
        (fun L => by simp [map_get_empty])
      obtain ⟨_, m2, _⟩ := merge_contained_facts temp (range_string guess) col2
      dsimp only at c2
      subst hcol
      rw [m2, c2] at hsolved1
      exact absurd hsolved1 (by simp)

/-- C12 (as amended): in a round of `state.update` on words of `chars` code
points, every position recorded in `perfect_letters` before the round is
still recorded after it, for every column; for a column that is unsolved
after the round, every position `i` below 32 that `generate_hint` flags
perfect is recorded under the letter `guess[i]`
(`perfect_letters[guess[i]].get(i)` is true); and a column that is solved
after the round, by this round or before it, keeps its `perfect_letters` as
they were. -/
theorem update_records_perfect_positions (opts : options) (s s1 : state)
    (guess secret : GoString) (w : Nat) (col col1 : column) (r : hint_result)
    (hw : w < opts.words) (hguess : s.guesses[s.round]? = some guess)
    (hg : guess.length = opts.chars) (hsec : s.secrets[w]? = some secret)
    (hs : secret.length = opts.chars) (hu : state.update opts s = some s1)
    (hcol : s.columns[w]? = some col) (hcol1 : s1.columns[w]? = some col1)
    (hgen : generate_hint opts guess secret = some r) :
    (∀ L j, bitfield.get (map_get_bits col.perfect_letters L) j = true →
      bitfield.get (map_get_bits col1.perfect_letters L) j = true) ∧
    (col1.solved = false → ∀ (i : Nat) (g : Rune), i < 32 → guess[i]? = some g →
      r.perfect_letters.getD i false = true →
        bitfield.get (map_get_bits col1.perfect_letters g) i = true) ∧
    (col1.solved = true → col1.perfect_letters = col.perfect_letters) := by
  obtain ⟨guess2, hguess2, _, _, _, _, _, _, a7⟩ := update_facts opts s s1 hu
  rw [hguess] at hguess2
  have e0 := Option.some.inj hguess2
  subst e0
  obtain ⟨c, c1, hc, hupd, hc1⟩ := a7 w hw
  rw [hcol] at hc
  rw [hcol1] at hc1
  have e1 := Option.some.inj hc
  have e2 := Option.some.inj hc1
  subst e1 e2
  obtain ⟨p1, p2⟩ := update_column_perfect _ _ _ _ _ _ _ _ hupd
  refine ⟨p1, ?_, fun hsol => (update_column_solved_after _ _ _ _ _ _ _ _ hupd hsol).1⟩
  intro hun i g hi hgi hperf
  have hmem : (i, g) ∈ range_string guess := by
    rw [generate_hint_offsets opts guess secret r hs hg hgen]
    exact (mem_enumFrom_zero guess i g).2 hgi
  exact p2 hun secret r hsec hgen (i, g) hmem hperf hi

theorem update_records_perfect_positions_witness :
    ∃ s0 s s1 col col1 r,
      state.init ⟨true, false, 6, 1, 5⟩ ⟨[[67, 82, 65, 78, 69]], [65, 67, 69, 78, 82]⟩
          (fun _ => 0) = some s0 ∧
      run_rounds ⟨true, false, 6, 1, 5⟩ [[83, 76, 65, 84, 69]] s0 = some s ∧
      state.update ⟨true, false, 6, 1, 5⟩
        { s with guesses := s.guesses.set s.round [67, 82, 65, 90, 69] } = some s1 ∧
      s.columns[0]? = some col ∧ s1.columns[0]? = some col1 ∧
      generate_hint ⟨true, false, 6, 1, 5⟩ [67, 82, 65, 90, 69] [67, 82, 65, 78, 69] =
        some r ∧
      col1.solved = false ∧ r.perfect_letters.getD 2 false = true ∧
      bitfield.get (map_get_bits col1.perfect_letters 65) 2 = true := by
  obtain ⟨s0, s, s1, col, col1, r, h0, h1, h2, h3, h4, h5, h6, h7, h8, h9, _⟩ :
      ∃ s0 s s1 col col1 r,
        state.init ⟨true, false, 6, 1, 5⟩ ⟨[[67, 82, 65, 78, 69]], [65, 67, 69, 78, 82]⟩
            (fun _ => 0) = some s0 ∧
        run_rounds ⟨true, false, 6, 1, 5⟩ [[83, 76, 65, 84, 69]] s0 = some s ∧
        state.update ⟨true, false, 6, 1, 5⟩
          { s with guesses := s.guesses.set s.round [67, 82, 65, 90, 69] } = some s1 ∧
        s.columns[0]? = some col ∧ s1.columns[0]? = some col1 ∧
        generate_hint ⟨true, false, 6, 1, 5⟩ [67, 82, 65, 90, 69] [67, 82, 65, 78, 69] =
          some r ∧
        col1.solved = false ∧ r.perfect_letters.getD 2 false = true ∧
        (s.guesses.set s.round [67, 82, 65, 90, 69])[s.round]? = some [67, 82, 65, 90, 69] ∧
        s.secrets[0]? = some [67, 82, 65, 78, 69] ∧ True := by
    refine ⟨_, _, _, _, _, _, rfl, rfl, rfl, rfl, rfl, rfl, ?_, ?_, ?_, ?_, trivial⟩ <;> rfl
  exact ⟨s0, s, s1, col, col1, r, h0, h1, h2, h3, h4, h5, h6, h7,
    (update_records_perfect_positions ⟨true, false, 6, 1, 5⟩
      { s with guesses := s.guesses.set s.round [67, 82, 65, 90, 69] } s1
      [67, 82, 65, 90, 69] [67, 82, 65, 78, 69] 0 col col1 r (by decide) h8 rfl h9 rfl
      h2 h3 h4 h5).2.1 h6 2 65 (by decide) rfl h7⟩

/-- C12 (counterexample): with the secret "CRANE" the first guess "CRANE" finds
the column unsolved and flags every position perfect, yet after the round
the column is solved and position 0 is not recorded under 'C': the letter
update is skipped for a column that the round solves.  And with 33 letters
per word, the secret of 33 'A' and the guess of 32 'B' and one 'A', the
perfect position 32 is not recorded under 'A' although the column stays
unsolved: a `bitfield` has 32 positions. -/
theorem perfect_position_unrecorded_in_solving_round :
    ((state.init ⟨true, false, 6, 1, 5⟩ ⟨[[67, 82, 65, 78, 69]], [65, 67, 69, 78, 82]⟩
        (fun _ => 0)).bind
      (fun s0 =>
        (state.update ⟨true, false, 6, 1, 5⟩
          { s0 with guesses := s0.guesses.set s0.round [67, 82, 65, 78, 69] }).map
          (fun s1 =>
            (s0.columns.map (fun c => c.solved),
              s1.columns.map (fun c =>
                (c.solved, bitfield.get (map_get_bits c.perfect_letters 67) 0)))))) =
      some ([false], [(true, false)]) ∧
    (generate_hint ⟨true, false, 6, 1, 5⟩ [67, 82, 65, 78, 69] [67, 82, 65, 78, 69]).map
        (fun r => r.perfect_letters) =
      some [true, true, true, true, true] ∧
    ((state.init ⟨true, false, 6, 1, 33⟩ ⟨[List.replicate 33 65], [65, 66]⟩
        (fun _ => 0)).bind
      (fun s0 =>
        (state.update ⟨true, false, 6, 1, 33⟩
          { s0 with guesses := s0.guesses.set s0.round (List.replicate 32 66 ++ [65]) }).map
          (fun s1 =>
            s1.columns.map (fun c =>
              (c.solved, bitfield.get (map_get_bits c.perfect_letters 65) 32))))) =
      some [(false, false)] ∧
    (generate_hint ⟨true, false, 6, 1, 33⟩ (List.replicate 32 66 ++ [65])
        (List.replicate 33 65)).map (fun r => r.perfect_letters.getD 32 false) =
      some true := by
  refine ⟨by decide, by decide, by decide, by decide⟩

/-! ## The solved flag -/

theorem update_words_solved (opts : options) (guess : GoString) (ws : List Nat)
    (s s1 : state) (h : update_words opts guess ws s = some s1) (hnd : ws.Nodup) :
    s1.solved = true ↔
      s.solved = true ∧ ∀ w ∈ ws, ∃ c, s1.columns[w]? = some c ∧ c.solved = true := by
  induction ws generalizing s with
  | nil =>
    simp only [update_words, Option.some.injEq] at h
    subst h
    simp
  | cons w0 rest ih =>
    simp only [update_words] at h
    split at h
    · exact absurd h (by simp)
    · rename_i col hcol
      split at h
      · exact absurd h (by simp)
      · rename_i col1 hupd
        have hw0 : w0 < s.columns.length := by
          by_contra hn
          rw [List.getElem?_eq_none (by omega)] at hcol
          exact absurd hcol (by simp)
        have hnd2 := (List.nodup_cons.1 hnd)
        have key := ih _ h hnd2.2
        obtain ⟨_, _, _, _, _, a6, _⟩ := update_words_facts opts guess rest _ s1 h hnd2.2
        have hc0 : s1.columns[w0]? = some col1 := by
          rw [a6 w0 hnd2.1]
          simp [List.getElem?_set, hw0]
        rw [key]
        simp only [Bool.and_eq_true, List.mem_cons, forall_eq_or_imp, hc0, Option.some.injEq,
          exists_eq_left']
        tauto

/-- C13: after `state.update` on a state with one column per word,
`state.solved` is true if and only if every column is solved; and for
chars = 5, words = 1, max_guesses = 6 and the secret "CRANE" the game loop
is not solved after the guess "SLATE" (round 0), is solved after "CRANE"
(round 1) and stops there, at round index 1, leaving any further input
unread. -/
theorem update_solved_iff_all_columns (opts : options) (s s1 : state)
    (hu : state.update opts s = some s1) (hlen : s.columns.length = opts.words) :
    (s1.solved = true ↔ ∀ col ∈ s1.columns, col.solved = true) ∧
    ((state.init ⟨true, false, 6, 1, 5⟩ ⟨[[67, 82, 65, 78, 69]], [65, 67, 69, 78, 82]⟩
        (fun _ => 0)).bind (run_rounds ⟨true, false, 6, 1, 5⟩ [[83, 76, 65, 84, 69]])).map
      (fun s => (s.solved, s.round)) = some (false, 1) ∧
    ((state.init ⟨true, false, 6, 1, 5⟩ ⟨[[67, 82, 65, 78, 69]], [65, 67, 69, 78, 82]⟩
        (fun _ => 0)).bind
      (run_rounds ⟨true, false, 6, 1, 5⟩
        [[83, 76, 65, 84, 69], [67, 82, 65, 78, 69], [83, 76, 65, 84, 69]])).map
      (fun s => (s.solved, s.round, s.guesses)) =
      some (true, 1, [[83, 76, 65, 84, 69], [67, 82, 65, 78, 69], [], [], [], []]) := by
  refine ⟨?_, by decide, by decide⟩
  have hlen1 : s1.columns.length = opts.words := by
    obtain ⟨_, _, _, _, _, _, a5, _⟩ := update_facts opts s s1 hu
    omega
  simp only [state.update] at hu
  split at hu
  · exact absurd hu (by simp)
  · rw [update_words_solved opts _ _ _ s1 hu (List.nodup_range _)]
    simp only [true_and, List.mem_range]
    constructor
    · intro hall col hmem
      obtain ⟨w, hw, hwc⟩ := List.getElem_of_mem hmem
      obtain ⟨c, hc, hcs⟩ := hall w (by omega)
      rw [List.getElem?_eq_getElem hw, hwc] at hc
      rw [Option.some.inj hc]
      exact hcs
    · intro hall w hw
      have hw1 : w < s1.columns.length := by omega
      exact ⟨s1.columns[w], List.getElem?_eq_getElem hw1, hall _ (List.getElem_mem hw1)⟩

theorem update_solved_iff_all_columns_witness :
    ∃ s0 s s1,
      state.init ⟨true, false, 6, 2, 2⟩ ⟨[[65, 66], [67, 68]], [65, 66, 67, 68]⟩
          (fun i => i) = some s0 ∧
      run_rounds ⟨true, false, 6, 2, 2⟩ [[65, 66]] s0 = some s ∧
      state.update ⟨true, false, 6, 2, 2⟩
        { s with guesses := s.guesses.set s.round [67, 68] } = some s1 ∧
      s.solved = false ∧ s1.solved = true ∧ ∀ col ∈ s1.columns, col.solved = true := by
  obtain ⟨s0, s, s1, h0, h1, h2, h3, h4, h5, _⟩ :
      ∃ s0 s s1,
        state.init ⟨true, false, 6, 2, 2⟩ ⟨[[65, 66], [67, 68]], [65, 66, 67, 68]⟩
            (fun i => i) = some s0 ∧
        run_rounds ⟨true, false, 6, 2, 2⟩ [[65, 66]] s0 = some s ∧
        state.update ⟨true, false, 6, 2, 2⟩
          { s with guesses := s.guesses.set s.round [67, 68] } = some s1 ∧
        s.solved = false ∧ s1.solved = true ∧ s.columns.length = 2 ∧ True := by
    refine ⟨_, _, _, rfl, rfl, rfl, ?_, ?_, ?_, trivial⟩ <;> rfl
  exact ⟨s0, s, s1, h0, h1, h2, h3, h4,
    ((update_solved_iff_all_columns ⟨true, false, 6, 2, 2⟩
      { s with guesses := s.guesses.set s.round [67, 68] } s1 h2 h5).1).1 h4⟩

/-! ## Contained counts and the secret -/

/-- The round update of a column keeps every contained count within the
occurrences of the letter in the secret. -/
theorem update_column_contained_le (opts : options) (empty_word : GoString)
    (secrets : List GoString) (round : Nat) (guess : GoString) (w : Nat) (col col1 : column)
    (secret : GoString) (hsec : secrets[w]? = some secret)
    (hs : secret.length = opts.chars) (hg : guess.length = opts.chars)
    (h : update_column opts empty_word secrets round guess w col = some col1)
    (hle : ∀ L, map_get col.contained_letters L ≤ secret.count L) :
    ∀ L, map_get col1.contained_letters L ≤ secret.count L := by
  cases hsolved1 : col1.solved with
  | false =>
    obtain ⟨r, hgen, hL⟩ := update_column_contained opts empty_word secrets round guess w
      col col1 secret hsec hs hg h hsolved1
    intro L
    by_cases hLg : L ∈ guess
    · rw [(hL L).1 hLg]
      have h1 := (generate_hint_counts opts guess secret r hs hg hgen L).1
      have h2 := (classified_count_bounds guess r.perfect_letters r.misplaced_letters L).1
      have h3 := hle L
      apply max_le h3
      exact_mod_cast (le_trans h2 h1)
    · simp only [map_get, (hL L).2.1 hLg]
      exact hle L
  | true =>
    have hround := update_column_round opts empty_word secrets round guess w col col1 h
    cases hsolved : col.solved with
    | true =>
      rw [update_column_solved opts empty_word secrets round guess w col hsolved hround] at h
      simp only [Option.some.injEq] at h
      subst h
      exact hle
    | false =>
      obtain ⟨secret2, r, _, _, hcase⟩ :=
        update_column_unsolved opts empty_word secrets round guess w col col1 hsolved h
      rcases hcase with ⟨_, hcol⟩ | ⟨_, col2, temp, hul, hcol⟩
      · subst hcol
        exact hle
      · obtain ⟨_, c2, _, _⟩ := update_letters_counts _ _ _ _ _ hul
          (fun L => by simp [map_get_empty])
        obtain ⟨_, m2, _⟩ := merge_contained_facts temp (range_string guess) col2
        dsimp only at c2
        subst hcol
        rw [m2, c2] at hsolved1
        exact absurd hsolved1 (by simp)

/-- C20: start from `state.init` on a dictionary of words of `chars` code
points and play any rounds with guesses of `chars` code points; for every
column and every letter `L` the contained count of `L` is at most the number
of occurrences of `L` in the secret of the column. -/
theorem contained_le_secret_count (opts : options) (d : dict) (rnd : Nat → Nat)
    (inputs : List GoString) (s0 s : state) (w : Nat) (col : column) (secret : GoString)
    (L : Rune) (hdict : ∀ x ∈ d.words, x.length = opts.chars)
    (hin : ∀ g ∈ inputs, g.length = opts.chars)
    (h0 : state.init opts d rnd = some s0) (h1 : run_rounds opts inputs s0 = some s)
    (hcol : s.columns[w]? = some col) (hsec : s.secrets[w]? = some secret) :
    map_get col.contained_letters L ≤ secret.count L := by
  have hlen : ∀ x ∈ s0.secrets, x.length = opts.chars :=
    fun x hx => hdict x ((init_facts opts d rnd s0 h0).2.1 x hx)
  have hinit : ∀ (w : Nat) (col : column), s0.columns[w]? = some col →
      ∀ sec, s0.secrets[w]? = some sec →
        ∀ L, map_get col.contained_letters L ≤ sec.count L := by
    intro w col hcol sec _ L
    rw [init_column_of_mem opts d rnd s0 h0 w col hcol]
    simp [init_column, map_get, map_empty]
  have hinv := run_rounds_invariant opts s0.secrets (fun g => g.length = opts.chars)
    (fun w col => ∀ sec, s0.secrets[w]? = some sec →
      ∀ L, map_get col.contained_letters L ≤ sec.count L)
    (fun ew round g w col col1 hg hq hu sec hsec =>
      update_column_contained_le opts ew s0.secrets round g w col col1 sec hsec
        (hlen sec (List.getElem?_mem hsec)) hg hu (hq sec hsec))
    inputs s0 s hin rfl h1 hinit
  rw [hinv.1] at hsec
  exact hinv.2 w col hcol secret hsec L

theorem contained_le_secret_count_witness :
    ∃ s0 s col,
      state.init ⟨true, false, 6, 1, 5⟩ ⟨[[65, 66, 65, 67, 75]], [65, 66, 67, 75]⟩
          (fun _ => 0) = some s0 ∧
      run_rounds ⟨true, false, 6, 1, 5⟩ [[75, 65, 89, 65, 75], [65, 68, 68, 69, 68]] s0 =
        some s ∧
      s.columns[0]? = some col ∧ map_get col.contained_letters 65 = 2 ∧
      map_get col.contained_letters 65 ≤ List.count 65 [65, 66, 65, 67, 75] := by
  obtain ⟨s0, s, col, h0, h1, h2, h3, h4, _⟩ :
      ∃ s0 s col,
        state.init ⟨true, false, 6, 1, 5⟩ ⟨[[65, 66, 65, 67, 75]], [65, 66, 67, 75]⟩
            (fun _ => 0) = some s0 ∧
        run_rounds ⟨true, false, 6, 1, 5⟩ [[75, 65, 89, 65, 75], [65, 68, 68, 69, 68]] s0 =
          some s ∧
        s.columns[0]? = some col ∧ map_get col.contained_letters 65 = 2 ∧
        s.secrets[0]? = some [65, 66, 65, 67, 75] ∧ True := by
    refine ⟨_, _, _, rfl, rfl, rfl, ?_, ?_, trivial⟩ <;> rfl
  exact ⟨s0, s, col, h0, h1, h2, h3,
    contained_le_secret_count ⟨true, false, 6, 1, 5⟩
      ⟨[[65, 66, 65, 67, 75]], [65, 66, 67, 75]⟩ (fun _ => 0)
      [[75, 65, 89, 65, 75], [65, 68, 68, 69, 68]] s0 s 0 col [65, 66, 65, 67, 75] 65
      (by decide) (by decide) h0 h1 h2 h4⟩

/-! ## bitfield.ones -/

theorem cnt_bit (n : Nat) (a : Bool) (m : Nat) :
    (List.range (n + 1)).countP (fun j => (Nat.bit a m).testBit j) =
      a.toNat + (List.range n).countP (fun j => m.testBit j) := by
  rw [List.range_succ_eq_map, List.countP_cons, List.countP_map]
  have : ((fun j => (Nat.bit a m).testBit j) ∘ Nat.succ) = (fun j => m.testBit j) := by
    funext j
    simp [Nat.testBit_bit_succ]
  rw [this, Nat.testBit_bit_zero]
  cases a
  · simp
  · simp
    omega

theorem bit_true_pred (m : Nat) : Nat.bit true m - 1 = Nat.bit false m := by
  simp [Nat.bit_val]

theorem bit_false_pred (m : Nat) (hm : m ≠ 0) : Nat.bit false m - 1 = Nat.bit true (m - 1) := by
  simp [Nat.bit_val]
  omega

theorem kernighan_step (n : Nat) : ∀ b : Nat, b ≠ 0 → b < 2 ^ n →
    (List.range n).countP (fun j => (b &&& (b - 1)).testBit j) + 1 =
      (List.range n).countP (fun j => b.testBit j) := by
  induction n with
  | zero =>
    intro b hb hlt
    simp at hlt
    exact absurd hlt hb
  | succ n ih =>
    intro b hb hlt
    obtain ⟨a, m, rfl⟩ : ∃ a m, b = Nat.bit a m :=
      ⟨_, _, (Nat.bit_testBit_zero_shiftRight_one b).symm⟩
    have hm : m < 2 ^ n := by
      rw [Nat.bit_val] at hlt
      rw [pow_succ] at hlt
      omega
    cases a with
    | true =>
      rw [bit_true_pred, Nat.land_bit, cnt_bit, cnt_bit]
      simp
      omega
    | false =>
      have hm0 : m ≠ 0 := by
        intro h0
        apply hb
        simp [h0, Nat.bit_val]
      rw [bit_false_pred m hm0, Nat.land_bit, cnt_bit, cnt_bit]
      have := ih m hm0 hm
      simp at this ⊢
      omega

theorem cnt_zero_imp (n b : Nat) (hlt : b < 2 ^ n)
    (h : (List.range n).countP (fun j => b.testBit j) = 0) : b = 0 := by
  by_contra hb
  obtain ⟨i, hi⟩ := Nat.ne_zero_implies_bit_true hb
  have hin : i < n := by
    by_contra hn
    have : b < 2 ^ i := lt_of_lt_of_le hlt (Nat.pow_le_pow_right (by decide) (by omega))
    rw [Nat.testBit_lt_two_pow this] at hi
    exact absurd hi (by simp)
  have hpos : 0 < (List.range n).countP (fun j => b.testBit j) :=
    List.countP_pos_iff.2 ⟨i, List.mem_range.2 hin, hi⟩
  omega

/-- The loop of `bitfield.ones` clears one set bit per iteration: with fuel
for every set bit below `2 ^ n` it returns the number of set bits. -/
theorem ones_loop_eq (n fuel : Nat) : ∀ (b : bitfield) (amount : Int), b < 2 ^ n →
    (List.range n).countP (fun j => b.testBit j) ≤ fuel →
    bitfield.ones_loop fuel b amount =
      some (amount + ((List.range n).countP (fun j => b.testBit j) : Nat)) := by
  induction fuel with
  | zero =>
    intro b amount hlt hcnt
    have hb : b = 0 := cnt_zero_imp n b hlt (by omega)
    subst hb
    simp [bitfield.ones_loop]
  | succ fuel ih =>
    intro b amount hlt hcnt
    by_cases hb : b = 0
    · subst hb
      simp [bitfield.ones_loop]
    · have hstep := kernighan_step n b hb hlt
      have hlt2 : b &&& (b - 1) < 2 ^ n := lt_of_le_of_lt Nat.and_le_left hlt
      have hne : (b != 0) = true := by simpa using hb
      simp only [bitfield.ones_loop, hne, if_true]
      rw [ih (b &&& (b - 1)) (amount + 1) hlt2 (by omega), ← hstep]
      push_cast
      congr 1
      omega

theorem bitfield_set_lt (b : bitfield) (i : Nat) (hb : b < 2 ^ 32) :
    bitfield.set b i true < 2 ^ 32 := by
  simp only [bitfield.set, if_true, bitfield.bit]
  apply Nat.or_lt_two_pow hb
  split
  · exact Nat.pow_lt_pow_right (by decide) (by assumption)
  · decide

theorem build_positions (P : List Nat) : ∀ acc : bitfield, acc < 2 ^ 32 →
    (∀ i ∈ P, i < 32) →
    P.foldl (fun b i => bitfield.set b i true) acc < 2 ^ 32 ∧
    ∀ j, bitfield.get (P.foldl (fun b i => bitfield.set b i true) acc) j = true ↔
      bitfield.get acc j = true ∨ j ∈ P := by
  induction P with
  | nil =>
    intro acc hacc _
    exact ⟨hacc, fun j => by simp⟩
  | cons i P ih =>
    intro acc hacc hP
    have hi : i < 32 := hP i (List.mem_cons_self _ _)
    obtain ⟨h1, h2⟩ := ih (bitfield.set acc i true) (bitfield_set_lt acc i hacc)
      (fun x hx => hP x (List.mem_cons_of_mem _ hx))
    refine ⟨h1, ?_⟩
    intro j
    simp only [List.foldl_cons, List.mem_cons]
    rw [h2 j, bitfield_get_set]
    constructor
    · rintro ((h | ⟨h, _⟩) | h)
      · exact Or.inl h
      · exact Or.inr (Or.inl h)
      · exact Or.inr (Or.inr h)
    · rintro (h | h | h)
      · exact Or.inl (Or.inl h)
      · exact Or.inl (Or.inr ⟨h, hi⟩)
      · exact Or.inr h

theorem countP_mem_range (P : List Nat) (hP : ∀ i ∈ P, i < 32) :
    (List.range 32).countP (fun j => decide (j ∈ P)) = P.toFinset.card := by
  rw [List.countP_eq_length_filter,
    ← List.toFinset_card_of_nodup ((List.nodup_range 32).filter _)]
  congr 1
  ext j
  simp only [List.mem_toFinset, List.mem_filter, List.mem_range, decide_eq_true_eq]
  constructor
  · exact fun h => h.2
  · exact fun h => ⟨hP j h, h⟩

/-- C19: for every 32 bit value `b`, `bitfield.ones` returns (within its 32
iterations) the number of indices `j` in 0..31 with `b.get(j)` true; and the
bitfield built from 0 by `set(i, true)` for the positions of a list `P`, all
below 32, has `ones()` equal to the number of distinct positions of `P`. -/
theorem ones_is_population_count (b : bitfield) (hb : b < 2 ^ 32) :
    bitfield.ones b = some (((List.range 32).countP (fun j => bitfield.get b j) : Nat) : Int) ∧
    ∀ P : List Nat, (∀ i ∈ P, i < 32) →
      bitfield.ones (P.foldl (fun acc i => bitfield.set acc i true) 0) =
        some ((P.toFinset.card : Nat) : Int) := by
  have hones : ∀ c : bitfield, c < 2 ^ 32 →
      bitfield.ones c =
        some (((List.range 32).countP (fun j => bitfield.get c j) : Nat) : Int) := by
    intro c hc
    have hcongr : (List.range 32).countP (fun j => bitfield.get c j) =
        (List.range 32).countP (fun j => c.testBit j) := by
      apply List.countP_congr
      intro j hj
      rw [bitfield_get_iff]
      simp only [List.mem_range] at hj
      simp [hj]
    have hle : (List.range 32).countP (fun j => c.testBit j) ≤ 32 := by
      have := List.countP_le_length (fun j => c.testBit j) (l := List.range 32)
      simpa using this
    rw [bitfield.ones, ones_loop_eq 32 32 c 0 hc hle, hcongr]
    simp
  refine ⟨hones b hb, ?_⟩
  intro P hP
  obtain ⟨h1, h2⟩ := build_positions P 0 (by decide) hP
  rw [hones _ h1, ← countP_mem_range P hP]
  congr 2
  apply List.countP_congr
  intro j _
  rw [h2 j]
  have h0 : bitfield.get 0 j = false := by simp [bitfield.get]
  simp [h0]

theorem ones_is_population_count_witness :
    bitfield.ones 2147483653 =
      some (((List.range 32).countP (fun j => bitfield.get 2147483653 j) : Nat) : Int) ∧
    bitfield.ones ([0, 31, 2, 0].foldl (fun acc i => bitfield.set acc i true) 0) =
      some ((([0, 31, 2, 0] : List Nat).toFinset.card : Nat) : Int) :=
  ⟨(ones_is_population_count 2147483653 (by decide)).1,
    (ones_is_population_count 2147483653 (by decide)).2 [0, 31, 2, 0] (by decide)⟩

/-! ## display_builder -/

theorem append_loop_eq (n : Nat) (db : display_builder) (str : GoString) :
    display_builder.append_loop n db str =
      (List.replicate n str).foldl display_builder.append db := by
  induction n generalizing db with
  | zero => rfl
  | succ n ih => simp only [display_builder.append_loop, List.replicate_succ, List.foldl_cons, ih]

theorem append_full (db : display_builder) (t : GoString) (h : db.count + 1 ≥ db.wrap) :
    db.append t =
      { db with lines := db.lines ++ [db.active_line ++ t], active_line := [], count := 0 } := by
  simp only [display_builder.append, h, if_true]

theorem append_part (db : display_builder) (t : GoString) (h : ¬ db.count + 1 ≥ db.wrap) :
    db.append t = { db with active_line := db.active_line ++ t, count := db.count + 1 } := by
  simp only [display_builder.append, h, if_false]

/-- The lines of `finish` after appending `tokens` to a builder that holds the
partial line `cur`: the lines already there, then the chunks of `cur ++
tokens`, every chunk padded with spaces to `w` cells. -/
theorem finish_chunks (w : Nat) (hw : 1 ≤ w) (tokens : List GoString) :
    ∀ (db : display_builder) (cur : List GoString), db.wrap = (w : Int) →
      db.count = (cur.length : Int) → db.active_line = cur.flatten → cur.length < w →
      ∃ chunks : List (List GoString),
        ((tokens.foldl display_builder.append db).finish).2 =
          db.lines ++ chunks.map (fun c => c.flatten ++ times 32 (w - c.length)) ∧
        chunks.flatten = cur ++ tokens ∧
        (∀ c ∈ chunks, 1 ≤ c.length ∧ c.length ≤ w) ∧
        (∀ c ∈ chunks.dropLast, c.length = w) ∧
        chunks.length = (cur.length + tokens.length + w - 1) / w := by
  induction tokens with
  | nil =>
    intro db cur hwrap hcount hactive hlt
    by_cases hc : cur = []
    · subst hc
      refine ⟨[], ?_, by simp, by simp, by simp, ?_⟩
      · simp only [List.length_nil, Nat.cast_zero] at hcount
        simp [display_builder.finish, hcount]
      · simp only [List.length_nil, Nat.zero_add, List.length_nil]
        exact (Nat.div_eq_of_lt (by omega)).symm
    · have hpos : 0 < cur.length := List.length_pos.2 hc
      refine ⟨[cur], ?_, by simp, ?_, by simp, ?_⟩
      · have hne : db.count ≠ 0 := by
          rw [hcount]
          exact_mod_cast (by omega : cur.length ≠ 0)
        have hpad : (db.wrap - db.count).toNat = w - cur.length := by
          rw [hwrap, hcount]
          omega
        simp [display_builder.finish, hne, hpad, hactive]
      · intro c hmem
        simp only [List.mem_singleton] at hmem
        subst hmem
        omega
      · simp only [List.length_singleton, List.length_nil, Nat.add_zero]
        symm
        apply Nat.div_eq_of_lt_le <;> omega
  | cons t ts ih =>
    intro db cur hwrap hcount hactive hlt
    simp only [List.foldl_cons]
    by_cases hfull : db.count + 1 ≥ db.wrap
    · have hlen : cur.length + 1 = w := by
        rw [hwrap, hcount] at hfull
        omega
      rw [append_full db t hfull]
      obtain ⟨chunks, h1, h2, h3, h4, h5⟩ := ih
        { db with lines := db.lines ++ [db.active_line ++ t], active_line := [], count := 0 }
        [] hwrap (by simp) (by simp) (by simpa using hw)
      refine ⟨(cur ++ [t]) :: chunks, ?_, ?_, ?_, ?_, ?_⟩
      · rw [h1]
        simp [hactive, hlen, times]
      · simp only [List.flatten_cons, h2, List.nil_append, List.append_assoc, List.singleton_append]
      · intro c hmem
        rcases List.mem_cons.1 hmem with rfl | hmem
        · simp only [List.length_append, List.length_singleton]
          omega
        · exact h3 c hmem
      · intro c hmem
        cases chunks with
        | nil => simp at hmem
        | cons c2 cs =>
          rw [List.dropLast_cons₂] at hmem
          rcases List.mem_cons.1 hmem with rfl | hmem
          · simp only [List.length_append, List.length_singleton]
            exact hlen
          · exact h4 c hmem
      · simp only [List.length_cons, h5, List.length_nil, Nat.zero_add]
        have : cur.length + (ts.length + 1) + w - 1 = (ts.length + w - 1) + w := by omega
        rw [this, Nat.add_div_right _ (by omega : 0 < w)]
    · have hlen : cur.length + 1 < w := by
        rw [hwrap, hcount] at hfull
        omega
      rw [append_part db t hfull]
      obtain ⟨chunks, h1, h2, h3, h4, h5⟩ := ih
        { db with active_line := db.active_line ++ t, count := db.count + 1 }
        (cur ++ [t]) hwrap (by simp [hcount]) (by simp [hactive])
        (by simpa using hlen)
      refine ⟨chunks, h1, ?_, h3, h4, ?_⟩
      · rw [h2]
        simp
      · rw [h5]
        have hnum : (cur ++ [t]).length + ts.length + w - 1 =
            cur.length + (t :: ts).length + w - 1 := by
          simp only [List.length_append, List.length_cons, List.length_nil]
          omega
        rw [hnum]

/-- C18: for every `wrap` of at least 1 and every sequence of tokens appended
to a freshly initialised builder, `finish` returns the lines of the chunks of
the sequence: the chunks read in order are the appended sequence, there are
`ceil(n / wrap)` of them, every chunk but the last holds `wrap` tokens and the
last between 1 and `wrap`, and every line is its tokens followed by spaces up
to `wrap` cells; `append_times` is `amount` times `append`. -/
theorem finish_returns_wrapped_lines (w : Nat) (hw : 1 ≤ w) (tokens : List GoString) :
    (∃ chunks : List (List GoString),
      ((tokens.foldl display_builder.append
          (display_builder.new.init (w : Int))).finish).2 =
        chunks.map (fun c => c.flatten ++ times 32 (w - c.length)) ∧
      chunks.flatten = tokens ∧
      (∀ c ∈ chunks, 1 ≤ c.length ∧ c.length ≤ w) ∧
      (∀ c ∈ chunks.dropLast, c.length = w) ∧
      chunks.length = (tokens.length + w - 1) / w) ∧
    (∀ (db : display_builder) (str : GoString) (amount : Int),
      db.append_times str amount =
        (List.replicate amount.toNat str).foldl display_builder.append db) := by
  constructor
  · obtain ⟨chunks, h1, h2, h3, h4, h5⟩ := finish_chunks w hw tokens
      (display_builder.new.init (w : Int)) [] rfl rfl rfl (by simpa using hw)
    refine ⟨chunks, ?_, by simpa using h2, h3, h4, by simpa using h5⟩
    rw [h1]
    simp [display_builder.init, display_builder.new]
  · intro db str amount
    exact append_loop_eq _ db str

theorem finish_returns_wrapped_lines_witness :
    ∃ chunks : List (List GoString),
      (([[65], [66], [67], [68], [69]].foldl display_builder.append
          (display_builder.new.init ((2 : Nat) : Int))).finish).2 =
        chunks.map (fun c => c.flatten ++ times 32 (2 - c.length)) ∧
      chunks.flatten = [[65], [66], [67], [68], [69]] ∧
      (∀ c ∈ chunks, 1 ≤ c.length ∧ c.length ≤ 2) ∧
      (∀ c ∈ chunks.dropLast, c.length = 2) ∧
      chunks.length = (([[65], [66], [67], [68], [69]] : List GoString).length + 2 - 1) / 2 :=
  (finish_returns_wrapped_lines 2 (by decide) [[65], [66], [67], [68], [69]]).1

/-! ## The letter key -/

/-- In every state of the game loop from `state.init` on, no column has a
known letter among its wrong letters. -/
theorem reachable_known_not_wrong (opts : options) (d : dict) (rnd : Nat → Nat)
    (inputs : List GoString) (s0 s : state) (w : Nat) (col : column)
    (h0 : state.init opts d rnd = some s0) (h1 : run_rounds opts inputs s0 = some s)
    (hcol : s.columns[w]? = some col) : known_not_wrong col := by
  have hinit : ∀ (w : Nat) (col : column), s0.columns[w]? = some col → known_not_wrong col := by
    intro w col hcol
    rw [init_column_of_mem opts d rnd s0 h0 w col hcol]
    intro L hL
    rcases hL with hL | hL
    · exact absurd rfl hL
    · exact absurd hL (by simp [init_column, map_get, map_empty])
  exact (run_rounds_invariant opts s0.secrets (fun _ => True)
    (fun _ col => known_not_wrong col)
    (fun ew round g w col col1 _ hq hu =>
      (update_column_known opts ew s0.secrets round g w col col1 hu).1 hq)
    inputs s0 s (fun _ _ => trivial) rfl h1 hinit).2 w col hcol

/-- C14: in every state of the game loop from `state.init` on, for a column
and a letter whose `perfect_letters` entry has `p > 0` positions and whose
contained count is `c > 0`, the body of the letter loop of `state.render`
changes the builder exactly as appending `p` copies of the letter in the
Perfect style followed by `c - p` copies in the Misplaced style (none when
`c - p` is not positive), and nothing else. -/
theorem render_letter_perfect_then_misplaced (opts : options) (d : dict) (rnd : Nat → Nat)
    (inputs : List GoString) (s0 s : state) (w : Nat) (col : column) (char : Rune)
    (p : Int) (db : display_builder)
    (h0 : state.init opts d rnd = some s0) (h1 : run_rounds opts inputs s0 = some s)
    (hcol : s.columns[w]? = some col)
    (hp : bitfield.ones (map_get_bits col.perfect_letters char) = some p) (hppos : 0 < p)
    (hc : 0 < map_get col.contained_letters char) :
    render_letter db col char =
      some ((List.replicate p.toNat (perfect_format char) ++
          List.replicate (map_get col.contained_letters char - p).toNat
            (misplaced_format char)).foldl display_builder.append db) := by
  have hbits : map_get_bits col.perfect_letters char ≠ 0 := by
    intro hz
    rw [hz] at hp
    have : bitfield.ones 0 = some 0 := by decide
    rw [this] at hp
    have := Option.some.inj hp
    omega
  have hkw := reachable_known_not_wrong opts d rnd inputs s0 s w col h0 h1 hcol
  have hwrong : col.wrong_letters char = none := hkw char (Or.inl hbits)
  have hcb : contains_bitfield col.perfect_letters char = true := by
    unfold contains_bitfield
    cases hx : col.perfect_letters char with
    | none => simp [map_get_bits, hx] at hbits
    | some v => rfl
  have hci : contains_int col.contained_letters char = true := by
    unfold contains_int
    cases hx : col.contained_letters char with
    | none => simp [map_get, hx] at hc
    | some v => rfl
  have hcw : contains_bool col.wrong_letters char = false := by
    simp [contains_bool, hwrong]
  simp only [render_letter, hcb, hci, hcw, hp, if_true, Bool.not_true, Bool.false_eq_true,
    if_false, display_builder.append_times, append_loop_eq, List.foldl_append]

theorem render_letter_perfect_then_misplaced_witness :
    ∃ s0 s col,
      state.init ⟨true, false, 6, 1, 5⟩ ⟨[[65, 66, 65, 67, 75]], [65, 66, 67, 75]⟩
          (fun _ => 0) = some s0 ∧
      run_rounds ⟨true, false, 6, 1, 5⟩ [[75, 65, 89, 65, 75], [65, 68, 68, 69, 68]] s0 =
        some s ∧
      s.columns[0]? = some col ∧
      bitfield.ones (map_get_bits col.perfect_letters 65) = some 1 ∧
      map_get col.contained_letters 65 = 2 ∧
      render_letter (display_builder.new.init 13) col 65 =
        some ((List.replicate (1 : Int).toNat (perfect_format 65) ++
            List.replicate (map_get col.contained_letters 65 - 1).toNat
              (misplaced_format 65)).foldl display_builder.append
          (display_builder.new.init 13)) := by
  obtain ⟨s0, s, col, h0, h1, h2, h3, h4, _⟩ :
      ∃ s0 s col,
        state.init ⟨true, false, 6, 1, 5⟩ ⟨[[65, 66, 65, 67, 75]], [65, 66, 67, 75]⟩
            (fun _ => 0) = some s0 ∧
        run_rounds ⟨true, false, 6, 1, 5⟩ [[75, 65, 89, 65, 75], [65, 68, 68, 69, 68]] s0 =
          some s ∧
        s.columns[0]? = some col ∧
        bitfield.ones (map_get_bits col.perfect_letters 65) = some 1 ∧
        map_get col.contained_letters 65 = 2 ∧ True := by
    refine ⟨_, _, _, rfl, rfl, rfl, ?_, ?_, trivial⟩ <;> rfl
  exact ⟨s0, s, col, h0, h1, h2, h3, h4,
    render_letter_perfect_then_misplaced ⟨true, false, 6, 1, 5⟩
      ⟨[[65, 66, 65, 67, 75]], [65, 66, 67, 75]⟩ (fun _ => 0)
      [[75, 65, 89, 65, 75], [65, 68, 68, 69, 68]] s0 s 0 col 65 1
      (display_builder.new.init 13) h0 h1 h2 h3 (by decide) (by rw [h4]; decide)⟩


/-! ## Claims about the command line -/

/-- Without a `-g` option the accepted options carry the default
`3 + words + chars / 2` for `max_guesses`. -/
theorem parse_args_default_guesses (args : List Arg) (o : options)
    (h : parse_args args = (parse_result.accepted o, false)) :
    o.max_guesses = 3 + o.words + o.chars / 2 := by
  simp only [parse_args] at h
  split at h
  · simp at h
  · simp at h
  · rename_i n o1 _
    split at h
    · simp at h
    · rename_i o2 sg hpo
      simp only [Prod.mk.injEq, parse_result.accepted.injEq] at h
      obtain ⟨ho, hsg⟩ := h
      subst ho hsg
      simp only [parse_options] at hpo
      split at hpo
      · simp at hpo
      · rename_i o3 sg3 _
        split at hpo
        · simp only [Option.some.injEq, Prod.mk.injEq] at hpo
          rw [← hpo.1]
        · simp at hpo

/-- C15: the arguments "-c 7" hold no `-g` option and are accepted with
`max_guesses` = 7, which is `3 + words + chars / 2` and not `words + 5` = 6;
without arguments (`chars` = 5) the default is 6 = `words + 5`. -/
theorem default_guesses_not_words_plus_five :
    parse_args [[45, 99], [55]] =
      (parse_result.accepted ⟨true, false, 7, 1, 7⟩, false) ∧
    (7 : Nat) ≠ 1 + 5 ∧
    parse_args [[45, 99, 55]] = (parse_result.accepted ⟨true, false, 7, 1, 7⟩, false) ∧
    parse_args [] = (parse_result.accepted ⟨true, false, 6, 1, 5⟩, false) := by
  refine ⟨by decide, by decide, by decide, by decide⟩

theorem pick_secrets_isSome (d : dict) (rnd : Nat → Nat) (ws : List Nat) :
    (pick_secrets d rnd ws).isSome = true ↔ (ws = [] ∨ d.words ≠ []) := by
  induction ws with
  | nil => simp [pick_secrets]
  | cons i rest ih =>
    simp only [pick_secrets]
    by_cases hd : d.words = []
    · simp [hd]
    · have hlen : d.words.length ≠ 0 := fun h => hd (List.length_eq_zero.1 h)
      have hidx : rnd i % d.words.length < d.words.length :=
        Nat.mod_lt _ (Nat.pos_of_ne_zero hlen)
      have hrest : (pick_secrets d rnd rest).isSome = true := ih.2 (Or.inr hd)
      obtain ⟨secrets, hs⟩ := Option.isSome_iff_exists.1 hrest
      simp [hlen, List.getElem?_eq_getElem hidx, hs, hd]

theorem init_isSome_iff (opts : options) (d : dict) (rnd : Nat → Nat) :
    (state.init opts d rnd).isSome = true ↔ (opts.words = 0 ∨ d.words ≠ []) := by
  rw [← List.range_eq_nil, ← pick_secrets_isSome d rnd (List.range opts.words)]
  simp only [state.init]
  cases pick_secrets d rnd (List.range opts.words) <;> rfl

theorem write_all_isSome (l : List (Option GoString)) (h : ∀ x ∈ l, x.isSome = true) :
    (write_all l).isSome = true := by
  induction l with
  | nil => rfl
  | cons x rest ih =>
    have hx := h x (List.mem_cons_self _ _)
    obtain ⟨piece, rfl⟩ := Option.isSome_iff_exists.1 hx
    have hrest := ih (fun y hy => h y (List.mem_cons_of_mem _ hy))
    obtain ⟨output, ho⟩ := Option.isSome_iff_exists.1 hrest
    simp [write_all, ho]

theorem render_letters_init_column (opts : options) (e : GoString) (ls : List Rune) :
    ∀ db, (render_letters (init_column opts e) ls db).isSome = true := by
  induction ls with
  | nil => intro db; rfl
  | cons char rest ih =>
    intro db
    have h : render_letter db (init_column opts e) char =
        some (db.append (regular_format char)) := by
      simp [render_letter, init_column, contains_bitfield, contains_int, contains_bool,
        map_empty]
    simp only [render_letters, h]
    exact ih _

theorem render_displays_replicate (opts : options) (s : state) (d : dict) (col : column)
    (hcol : (render_display opts s d col).isSome = true) :
    ∀ n c, c + n ≤ opts.words →
      ∃ built, render_displays opts s d (List.replicate n col) c = some built ∧
        built.length = n := by
  obtain ⟨display, hdisplay⟩ := Option.isSome_iff_exists.1 hcol
  intro n
  induction n with
  | zero => intro c _; exact ⟨[], rfl, rfl⟩
  | succ n ih =>
    intro c hc
    obtain ⟨built, hb, hlen⟩ := ih (c + 1) (by omega)
    have hlt : c < opts.words := by omega
    refine ⟨display :: built, ?_, by simp [hlen]⟩
    simp [List.replicate_succ, render_displays, hlt, hdisplay, hb]

theorem render_key_cells_isSome (s : state) (r : Nat) :
    ∀ (displays : List (List GoString)) (c : Nat) (output : GoString),
      c + displays.length ≤ s.columns.length →
      (render_key_cells s r displays c output).isSome = true := by
  intro displays
  induction displays with
  | nil => intro c output _; rfl
  | cons display rest ih =>
    intro c output hc
    simp only [List.length_cons] at hc
    have hlt : c < s.columns.length := by omega
    simp only [render_key_cells, List.getElem?_eq_getElem hlt]
    exact ih _ _ (by omega)

/-- The state that the game loop with its calls of `state.render` ends in
is the one that the loop without them ends in. -/
theorem run_loop_run_rounds (opts : options) (d : dict) :
    ∀ (inputs : List GoString) (s s1 : state),
      run_loop opts d inputs s = some s1 → run_rounds opts inputs s = some s1 := by
  intro inputs
  induction inputs with
  | nil =>
    intro s s1 h
    simp only [run_loop] at h
    simp only [run_rounds]
    by_cases hlt : s.round < opts.max_guesses
    · rw [if_pos hlt] at h
      rw [if_pos hlt]
      cases hr : state.render opts d s with
      | none => rw [hr] at h; exact absurd h (by simp)
      | some board => rw [hr] at h; exact h
    · rw [if_neg hlt] at h
      rw [if_neg hlt]
      exact h
  | cons this_guess rest ih =>
    intro s s1 h
    simp only [run_loop] at h
    simp only [run_rounds]
    by_cases hlt : s.round < opts.max_guesses
    · rw [if_pos hlt] at h
      rw [if_pos hlt]
      cases hr : state.render opts d s with
      | none => rw [hr] at h; exact absurd h (by simp)
      | some board =>
        rw [hr] at h
        simp only at h
        by_cases hlen : s.round < s.guesses.length
        · rw [if_pos hlen] at h
          rw [if_pos hlen]
          cases hupd : state.update opts
              { s with guesses := s.guesses.set s.round this_guess } with
          | none => rw [hupd] at h; exact absurd h (by simp)
          | some s2 =>
            rw [hupd] at h
            simp only at h ⊢
            by_cases hsol : s2.solved = true
            · rw [if_pos hsol] at h
              rw [if_pos hsol]
              exact h
            · rw [if_neg hsol] at h
              rw [if_neg hsol]
              exact ih _ _ h
        · rw [if_neg hlen] at h
          exact absurd h (by simp)
    · rw [if_neg hlt] at h
      rw [if_neg hlt]
      exact h

/-- With `max_guesses` = 0 the method `state.render` prints the state that
`state.init` built: the two horizontal lines without a hint row between
them, then the rows of the letter displays. -/
theorem render_without_rounds (opts : options) (d : dict) (rnd : Nat → Nat) (game : state)
    (hg : opts.max_guesses = 0) (hinit : state.init opts d rnd = some game) :
    ∃ key_rows, state.render opts d game =
      some (game.horizontal_line ++ [10] ++ game.horizontal_line ++ [10, 10] ++ key_rows) := by
  have hcols := (init_facts opts d rnd game hinit).1
  have hrows : write_all (render_rows opts game) = some [] := by
    simp [render_rows, hg, write_all]
  have hcol : (render_display opts game d (init_column opts (times 46 opts.chars))).isSome
      = true := by
    have h := render_letters_init_column opts (times 46 opts.chars) d.letter_set
      (display_builder.new.init ((opts.chars : Int) + 2 * (game.padding : Int)))
    obtain ⟨db, hdb⟩ := Option.isSome_iff_exists.1 h
    simp [render_display, hdb]
  obtain ⟨built, hbuilt, hlen⟩ :=
    render_displays_replicate opts game d _ hcol opts.words 0 (by omega)
  have hkey : (write_all ((List.range (max_rows game.columns built 0)).map
      (fun r => (render_key_cells game r
        (built ++ List.replicate (opts.words - built.length) []) 0 game.space_left).map
        (fun row => row ++ [10])))).isSome = true := by
    apply write_all_isSome
    intro x hx
    obtain ⟨r, _, rfl⟩ := List.mem_map.1 hx
    have h := render_key_cells_isSome game r
      (built ++ List.replicate (opts.words - built.length) []) 0 game.space_left
      (by simp [hcols, hlen])
    obtain ⟨row, hrow⟩ := Option.isSome_iff_exists.1 h
    simp [hrow]
  obtain ⟨key_rows, hk⟩ := Option.isSome_iff_exists.1 hkey
  refine ⟨key_rows, ?_⟩
  simp only [state.render, hrows]
  rw [hcols, hbuilt]
  rw [hcols] at hk
  simp only [hk, List.append_nil]

/-- Without a column (`words` = 0) and with a round to play, `run` fails in
the first `state.render`: the hint row reads `s.columns[cols - 1]` with
`cols` = 0. -/
theorem run_fails_without_columns (opts : options) (d : dict) (rnd : Nat → Nat)
    (inputs : List GoString) (hw : opts.words = 0) (hg : 0 < opts.max_guesses) :
    run opts d rnd inputs = none := by
  obtain ⟨game, hinit⟩ := Option.isSome_iff_exists.1
    ((init_isSome_iff opts d rnd).2 (Or.inl hw))
  have hfacts := init_facts opts d rnd game hinit
  have hcols : game.columns = [] := by rw [hfacts.1, hw]; rfl
  obtain ⟨n, hn⟩ : ∃ n, opts.max_guesses = n + 1 := ⟨opts.max_guesses - 1, by omega⟩
  have hrender : ∀ s : state, s.columns = [] → state.render opts d s = none := by
    intro s hs
    have hrow : render_row s 0 = none := by
      simp [render_row, render_row_cells, hs]
    have hrows : write_all (render_rows opts s) = none := by
      simp [render_rows, hn, List.range_succ_eq_map, hrow, write_all]
    simp [state.render, hrows]
  have hr : state.render opts d { game with round := 0 } = none := hrender _ hcols
  have hloop : run_loop opts d inputs { game with round := 0 } = none := by
    cases inputs with
    | nil => simp [run_loop, hg, hr]
    | cons this_guess rest => simp [run_loop, hg, hr]
  simp [run, hinit, hloop]

/-- With a word to guess and an empty dictionary, `run` fails in
`state.init`, which draws the secret with `rand.Intn(0)`. -/
theorem run_fails_on_empty_dictionary (opts : options) (d : dict) (rnd : Nat → Nat)
    (inputs : List GoString) (hw : 0 < opts.words) (hd : d.words = []) :
    run opts d rnd inputs = none := by
  have hinit : state.init opts d rnd = none := by
    cases h : state.init opts d rnd with
    | none => rfl
    | some game =>
      have := (init_isSome_iff opts d rnd).1 (by simp [h])
      rcases this with h0 | h1
      · omega
      · exact absurd hd h1
  simp [run, hinit]

/-- C16 (as amended): `parse_args` accepts the arguments "-g 0" and yields
options with `max_guesses` = 0; and for all options with `max_guesses` = 0
and every dictionary with at least one word, `state.init` builds the state
and `run` ends without a failure and without playing a round: for every
input the last state is the one `state.init` built (round 0, not solved,
no exit, no guess, no hint row in a column) and the board printed is the two
horizontal lines without a hint row between them, followed by the letter
displays. -/
theorem zero_max_guesses_plays_no_round (opts : options) (d : dict) (rnd : Nat → Nat)
    (inputs : List GoString) (hg : opts.max_guesses = 0) (hd : d.words ≠ []) :
    parse_args [[45, 103], [48]] = (parse_result.accepted ⟨true, false, 0, 1, 5⟩, true) ∧
    ∃ game key_rows, state.init opts d rnd = some game ∧
      run opts d rnd inputs = some (game,
        game.horizontal_line ++ [10] ++ game.horizontal_line ++ [10, 10] ++ key_rows) ∧
      game.round = 0 ∧ game.solved = false ∧ game.exit = false ∧ game.guesses = [] ∧
      ∀ col ∈ game.columns, col.hints = [] := by
  refine ⟨by decide, ?_⟩
  obtain ⟨game, hinit⟩ := Option.isSome_iff_exists.1
    ((init_isSome_iff opts d rnd).2 (Or.inr hd))
  obtain ⟨key_rows, hrender⟩ := render_without_rounds opts d rnd game hg hinit
  have hcols := (init_facts opts d rnd game hinit).1
  have hshape : game.round = 0 ∧ game.solved = false ∧ game.exit = false ∧
      game.guesses = [] := by
    have h := hinit
    simp only [state.init] at h
    split at h
    · exact absurd h (by simp)
    · simp only [Option.some.injEq] at h
      subst h
      exact ⟨rfl, rfl, rfl, by simp [hg]⟩
  have hsame : ({ game with round := 0 } : state) = game := by
    cases game
    simp only at hshape
    simp [hshape.1]
  have hloop : run_loop opts d inputs game = some game := by
    cases inputs with
    | nil => simp [run_loop, hg]
    | cons this_guess rest => simp [run_loop, hg]
  refine ⟨game, key_rows, hinit, ?_, hshape.1, hshape.2.1, hshape.2.2.1, hshape.2.2.2, ?_⟩
  · simp only [run, hinit, hsame, hloop, hrender]
  · intro col hmem
    rw [hcols] at hmem
    rw [List.eq_of_mem_replicate hmem]
    simp [init_column, hg]

theorem zero_max_guesses_plays_no_round_witness :
    (⟨true, false, 0, 1, 5⟩ : options).max_guesses = 0 ∧
    (⟨[[67, 82, 65, 78, 69]], [65, 67, 69, 78, 82]⟩ : dict).words ≠ [] ∧
    (parse_args [[45, 103], [48]] = (parse_result.accepted ⟨true, false, 0, 1, 5⟩, true) ∧
    ∃ game key_rows,
      state.init ⟨true, false, 0, 1, 5⟩ ⟨[[67, 82, 65, 78, 69]], [65, 67, 69, 78, 82]⟩
        (fun _ => 0) = some game ∧
      run ⟨true, false, 0, 1, 5⟩ ⟨[[67, 82, 65, 78, 69]], [65, 67, 69, 78, 82]⟩
        (fun _ => 0) [[67, 82, 65, 78, 69]] = some (game,
        game.horizontal_line ++ [10] ++ game.horizontal_line ++ [10, 10] ++ key_rows) ∧
      game.round = 0 ∧ game.solved = false ∧ game.exit = false ∧ game.guesses = [] ∧
      ∀ col ∈ game.columns, col.hints = []) :=
  ⟨rfl, by simp, zero_max_guesses_plays_no_round ⟨true, false, 0, 1, 5⟩
    ⟨[[67, 82, 65, 78, 69]], [65, 67, 69, 78, 82]⟩ (fun _ => 0) [[67, 82, 65, 78, 69]]
    rfl (by simp)⟩

/-- C16 (counterexample): the arguments "-g 0" are accepted with
`max_guesses` = 0, `state.init` builds the state for these options on the
dictionary of the single word "CRANE", and `run` ends without a failure and
without a round: the input "CRANE" is not read, the last state is in round
0 and not solved, and the board printed has no hint row.  Nothing rejects
the zero value. -/
theorem zero_max_guesses_is_not_rejected :
    parse_args [[45, 103], [48]] = (parse_result.accepted ⟨true, false, 0, 1, 5⟩, true) ∧
    (state.init ⟨true, false, 0, 1, 5⟩ ⟨[[67, 82, 65, 78, 69]], [65, 67, 69, 78, 82]⟩
        (fun _ => 0)).isSome = true ∧
    (run ⟨true, false, 0, 1, 5⟩ ⟨[[67, 82, 65, 78, 69]], [65, 67, 69, 78, 82]⟩
        (fun _ => 0) [[67, 82, 65, 78, 69]]).map
      (fun r => (r.1.round, r.1.solved, r.1.exit, r.1.guesses, r.1.secrets, r.2)) =
      some (0, false, false, [], [[67, 82, 65, 78, 69]],
        times 45 15 ++ [10] ++ times 45 15 ++ [10, 10] ++
          [32, 65, 67, 69, 78, 82] ++ times 32 8 ++ [32, 10]) := by
  refine ⟨by decide, by decide, rfl⟩

/-! ## Claims about the dictionary check -/

theorem search_loop_all_false (f : Nat → Bool) (n : Nat) (hf : ∀ k, k < n → f k = false) :
    ∀ fuel i, i ≤ n → n - i ≤ fuel → search_loop f fuel i n = some n := by
  intro fuel
  induction fuel with
  | zero =>
    intro i hi hfuel
    have : i = n := by omega
    subst this
    simp [search_loop]
  | succ fuel ih =>
    intro i hi hfuel
    by_cases hlt : i < n
    · have hh : (i + n) / 2 < n := by omega
      simp only [search_loop, hlt, if_true, hf _ hh, Bool.not_false]
      exact ih _ (by omega) (by omega)
    · have : i = n := by omega
      subst this
      simp [search_loop]

/-- C17: when every word of the dictionary is below the guess,
`sort.SearchStrings` returns `len(dict.words)` and the dictionary check of
`run` indexes `dict.words` out of range instead of reporting the guess as
not in the dictionary. -/
theorem dictionary_check_out_of_range (words : List GoString) (this_guess : GoString)
    (h : ∀ word ∈ words, string_lt word this_guess = true) :
    dictionary_check words this_guess = check_result.index_out_of_range := by
  have hf : ∀ k, k < words.length →
      (fun i => !string_lt (words.getD i []) this_guess) k = false := by
    intro k hk
    have hmem : words.getD k [] ∈ words := by
      rw [List.getD_eq_getElem _ _ hk]
      exact List.getElem_mem hk
    show (!string_lt (words.getD k []) this_guess) = false
    rw [h _ hmem]
    rfl
  have hs : search_strings words this_guess = some words.length :=
    search_loop_all_false _ words.length hf words.length 0 (Nat.zero_le _) (by omega)
  simp [dictionary_check, hs]

theorem dictionary_check_out_of_range_witness :
    dictionary_check [[65, 80, 80, 76, 69], [67, 82, 65, 78, 69]] [90, 69, 66, 82, 65] =
      check_result.index_out_of_range ∧
    dictionary_check [[65, 80, 80, 76, 69], [67, 82, 65, 78, 69]] [67, 82, 65, 78, 69] =
      check_result.in_dictionary ∧
    dictionary_check [[65, 80, 80, 76, 69], [67, 82, 65, 78, 69]] [66, 82, 65, 78, 69] =
      check_result.not_in_dictionary :=
  ⟨dictionary_check_out_of_range [[65, 80, 80, 76, 69], [67, 82, 65, 78, 69]]
      [90, 69, 66, 82, 65] (by decide), by decide, by decide⟩

end Gordle
